import Mathlib

/-!
# Verification development for the `iorg` image loader

Shallow embedding of the decoding core of `src/iorg.cpp` / `src/iorg.h`
(BMP row extraction and channel swap, PNG scanline defiltering, filter-byte
removal and vertical flip) together with the properties proved about it.

Conventions of the embedding

* A byte buffer (`std::vector<uint8_t>`, the bytes of a file) is a `List Nat`;
  a buffer is a genuine byte buffer when every entry is below 256
  (`IsBytes`).  Arithmetic that the source performs on `uint8_t` is written
  with an explicit `% 256`.
* `int` arithmetic is exact integer arithmetic.  In the PNG path every
  index is bounded by the size of the decompressed buffer, which
  `decompressIDAT` caps at `1024 * 1024 * 1024` bytes, so no 32-bit
  operation can wrap there.  In the BMP path, where the sizes come from the
  file alone, an `int` product outside the range of `int` has no result
  (`none`), and the `uint32_t` conversions are written with an explicit
  `% 2 ^ 32`.
* In-place updates of a vector are functional updates (`List.set`).
-/

namespace Iorg

/-! ## Bytes and buffers -/

/-- Every entry of the buffer is an 8-bit value. -/
def IsBytes (d : List Nat) : Prop := ∀ x ∈ d, x < 256

instance (d : List Nat) : Decidable (IsBytes d) := by
  unfold IsBytes; infer_instance

/-- Read of `data[i]`; the properties below only use indices inside the buffer. -/
def byteAt (d : List Nat) (i : Nat) : Nat := d.getD i 0

/-- The statement `data[i] += v` on a `uint8_t` element: addition wraps modulo 256. -/
def addTo (d : List Nat) (i v : Nat) : List Nat := d.set i ((byteAt d i + v) % 256)

/-! ## PNG: Paeth predictor and scanline defiltering (`iorg.cpp` 279-363) -/

/-- The function `abs` of the C library on `int`. -/
def cAbs (x : Int) : Int := if x < 0 then -x else x

/-- `paethPredictor` (`iorg.cpp` 345-363).  The three arguments are `uint8_t`,
the arithmetic is done in `int`. -/
def paethPredictor (left upper upper_left : Nat) : Nat :=
  let prediction : Int := (left : Int) + (upper : Int) - (upper_left : Int)
  let left_distance : Int := cAbs (prediction - (left : Int))
  let upper_distance : Int := cAbs (prediction - (upper : Int))
  let upper_left_distance : Int := cAbs (prediction - (upper_left : Int))
  if left_distance ≤ upper_distance ∧ left_distance ≤ upper_left_distance then
    left
  else if upper_distance ≤ upper_left_distance then
    upper
  else
    upper_left

/-- Body of the `case 1` loop: `data[row_start + i] += data[row_start + i - 4]`. -/
def subStep (row_start : Nat) (d : List Nat) (i : Nat) : List Nat :=
  addTo d (row_start + i) (byteAt d (row_start + i - 4))

/-- Body of the `case 2` loop:
`data[row_start + i] += data[row_start + i - (width * 4 + 1)]`. -/
def upStep (row_start width : Nat) (d : List Nat) (i : Nat) : List Nat :=
  addTo d (row_start + i) (byteAt d (row_start + i - (width * 4 + 1)))

/-- The value `average` of the `case 3` loop body: `upper` and `left` are promoted
to `int`, added, halved, and the result is stored in a `uint8_t`. -/
def averageValue (row_start width : Nat) (d : List Nat) (i : Nat) : Nat :=
  let upper := if row_start ≠ 0 then byteAt d (row_start + i - (width * 4 + 1)) else 0
  let left := if i ≥ 5 then byteAt d (row_start + i - 4) else 0
  ((upper + left) / 2) % 256

/-- Body of the `case 3` loop. -/
def averageStep (row_start width : Nat) (d : List Nat) (i : Nat) : List Nat :=
  addTo d (row_start + i) (averageValue row_start width d i)

/-- The value added by the `case 4` loop body. -/
def paethValue (row_start width : Nat) (d : List Nat) (i : Nat) : Nat :=
  let upper := if row_start ≠ 0 then byteAt d (row_start + i - (width * 4 + 1)) else 0
  let left := if i ≥ 5 then byteAt d (row_start + i - 4) else 0
  let upper_left :=
    if row_start ≠ 0 ∧ i ≥ 5 then byteAt d (row_start + i - 4 - (width * 4 + 1)) else 0
  paethPredictor left upper upper_left

/-- Body of the `case 4` loop. -/
def paethStep (row_start width : Nat) (d : List Nat) (i : Nat) : List Nat :=
  addTo d (row_start + i) (paethValue row_start width d i)

/-- `applyFilter` (`iorg.cpp` 279-343).  A loop `for (int i = a; i < width * 4 + 1; ++i)`
is a left fold over `a, a + 1, ..., width * 4`. -/
def applyFilter (decompressed_data : List Nat) (row_number width : Nat) : List Nat :=
  let row_start := row_number * (width * 4 + 1)
  let filter := byteAt decompressed_data row_start
  match filter with
  | 0 => decompressed_data
  | 1 => (List.range' 5 (width * 4 + 1 - 5)).foldl (subStep row_start) decompressed_data
  | 2 =>
    if row_start = 0 then decompressed_data
    else (List.range' 1 (width * 4 + 1 - 1)).foldl (upStep row_start width) decompressed_data
  | 3 => (List.range' 1 (width * 4 + 1 - 1)).foldl (averageStep row_start width) decompressed_data
  | 4 => (List.range' 1 (width * 4 + 1 - 1)).foldl (paethStep row_start width) decompressed_data
  | _ => decompressed_data

/-- The defiltering loop of `loadPNG` (`iorg.cpp` 179-182):
`for (int i = 0; i < ihdr.height; ++i) applyFilter(decompressed_data, i, ihdr.width);`. -/
def defilterRows (decompressed_data : List Nat) (height width : Nat) : List Nat :=
  (List.range height).foldl (fun d i => applyFilter d i width) decompressed_data


/-! ## The PNG reconstruction rule, as the specification words it -/

/-- The byte 4 positions earlier in row `y` (offset `i - 4`), 0 inside the first pixel. -/
def leftAt (d : List Nat) (w y i : Nat) : Nat :=
  if i < 5 then 0 else byteAt d (y * (w * 4 + 1) + (i - 4))

/-- The byte at the same offset `i` in row `y - 1`, 0 for the first row. -/
def upAt (d : List Nat) (w y i : Nat) : Nat :=
  if y = 0 then 0 else byteAt d ((y - 1) * (w * 4 + 1) + i)

/-- The byte at offset `i - 4` in row `y - 1`, 0 when `up` or `left` is unavailable. -/
def upleftAt (d : List Nat) (w y i : Nat) : Nat :=
  if y = 0 ∨ i < 5 then 0 else byteAt d ((y - 1) * (w * 4 + 1) + (i - 4))

/-- The predictor selected by a filter type: 0 for None, `left` for Sub, `up` for Up,
`floor ((up + left) / 2)` for Average, `paeth left up upleft` for Paeth.  Any other
filter byte changes nothing. -/
def predictor (filter left up upleft : Nat) : Nat :=
  match filter with
  | 0 => 0
  | 1 => left
  | 2 => up
  | 3 => (up + left) / 2
  | 4 => paethPredictor left up upleft
  | _ => 0

/-- What one call `applyFilter(data, y, w)` establishes: the length and every byte outside
the data bytes of row `y` are kept, the buffer stays a byte buffer, and every data byte of
row `y` is its old value plus the predictor of the row's filter type, evaluated on the
buffer AFTER the call. -/
def RowPost (d d' : List Nat) (w y : Nat) : Prop :=
  d'.length = d.length ∧ IsBytes d' ∧
  (∀ k, k ≤ y * (w * 4 + 1) ∨ (y + 1) * (w * 4 + 1) ≤ k → byteAt d' k = byteAt d k) ∧
  (∀ i, 1 ≤ i → i ≤ w * 4 →
    byteAt d' (y * (w * 4 + 1) + i)
      = (byteAt d (y * (w * 4 + 1) + i)
          + predictor (byteAt d (y * (w * 4 + 1)))
              (leftAt d' w y i) (upAt d' w y i) (upleftAt d' w y i)) % 256)

/-! ## Specification-side notions for the Paeth predictor -/

/-- The estimate `p = left + upper - upper_left`, computed in unbounded integers. -/
def paethEstimate (left upper upper_left : Nat) : Int :=
  (left : Int) + (upper : Int) - (upper_left : Int)

/-- The distance `|p - candidate|` of a candidate from the estimate. -/
def paethDistance (left upper upper_left candidate : Nat) : Int :=
  |paethEstimate left upper upper_left - (candidate : Int)|

/-! ## The forward PNG filter, as the round-trip claim words it -/

/-- Byte `j` of row `y` of a dense raw RGBA image with `4 * w` bytes per row. -/
def rawAt (raw : List Nat) (w y j : Nat) : Nat := byteAt raw (y * (w * 4) + j)

/-- Raw left neighbour (one pixel, 4 bytes, earlier); 0 outside the image. -/
def rawLeft (raw : List Nat) (w y j : Nat) : Nat :=
  if j < 4 then 0 else rawAt raw w y (j - 4)

/-- Raw upper neighbour; 0 outside the image. -/
def rawUp (raw : List Nat) (w y j : Nat) : Nat :=
  if y = 0 then 0 else rawAt raw w (y - 1) j

/-- Raw upper-left neighbour; 0 outside the image. -/
def rawUpLeft (raw : List Nat) (w y j : Nat) : Nat :=
  if y = 0 ∨ j < 4 then 0 else rawAt raw w (y - 1) (j - 4)

/-- The forward filter `filt = (raw - pred_F (raw neighbours)) mod 256` for byte `j` of
row `y`, the row being filtered with type `F y`. -/
def filterByte (raw : List Nat) (w : Nat) (F : Nat → Nat) (y j : Nat) : Nat :=
  (((rawAt raw w y j : Int)
    - (predictor (F y) (rawLeft raw w y j) (rawUp raw w y j) (rawUpLeft raw w y j) : Int))
      % 256).toNat

/-- One record of `1 + 4 * w` bytes: the filter byte followed by the filtered row. -/
def filterRecord (raw : List Nat) (w : Nat) (F : Nat → Nat) (y : Nat) : List Nat :=
  F y :: (List.range (w * 4)).map (filterByte raw w F y)

/-- The records of rows `0, ..., n - 1`, one after the other. -/
def filterRecords (raw : List Nat) (w : Nat) (F : Nat → Nat) : Nat → List Nat
  | 0 => []
  | n + 1 => filterRecords raw w F n ++ filterRecord raw w F n

/-- A raw 2 x 5 RGBA image (8 bytes per row) used to run the round trip. -/
def sampleRaw : List Nat :=
  [10, 20, 30, 40, 50, 60, 70, 80,
   1, 2, 3, 4, 255, 254, 253, 252,
   0, 128, 255, 7, 9, 200, 100, 0,
   90, 91, 92, 93, 3, 2, 1, 0,
   255, 255, 255, 255, 0, 0, 0, 0]

/-! ## The Sub filter, as the PNG definition words it -/

/-- The Sub reconstruction applied from the first pixel: `recon[i] = (filt[i] + left(i)) mod 256`
at every offset `i = 1, ..., 4 * w` of row `y`, where `left(i)` is the reconstructed byte at
offset `i - 4` and is 0 for `i < 5`. -/
def subFromFirstPixel (d : List Nat) (y w : Nat) : List Nat :=
  (List.range' 1 (w * 4)).foldl
    (fun d i => addTo d (y * (w * 4 + 1) + i)
      (if i < 5 then 0 else byteAt d (y * (w * 4 + 1) + i - 4))) d

/-- Two records of a 2-pixel-wide image: an unfiltered row of 255s and an Average-filtered
row below it. -/
def sampleAverage : List Nat :=
  [0, 255, 255, 255, 255, 255, 255, 255, 255,
   3, 128, 128, 128, 128, 0, 0, 0, 0]

/-! ## PNG: filter-byte removal and vertical flip (`iorg.cpp` 184-214) -/

/-- The filter-byte removal loop of `loadPNG` (`iorg.cpp` 187-197), started at index
`i` of the buffer: the first argument holds the bytes `data[i], data[i + 1], ...` still to be
visited, `row_counter` and `pixel_data` are the two variables of the loop.  Each iteration
increments `row_counter`; when it reaches `ihdr.width * 4 + 1` the byte is skipped and the
counter reset, otherwise the byte is pushed back onto `pixel_data`. -/
def removeFilterBytesLoop (width : Nat) : List Nat → Nat → List Nat → List Nat
  | [], _, pixel_data => pixel_data
  | b :: rest, row_counter, pixel_data =>
    if row_counter + 1 = width * 4 + 1 then
      removeFilterBytesLoop width rest 0 pixel_data
    else
      removeFilterBytesLoop width rest (row_counter + 1) (pixel_data ++ [b])

/-- The loop `for (size_t i = 1; i < decompressed_data.size(); ++i)` with
`row_counter = 0` and an empty `pixel_data` at entry. -/
def removeFilterBytes (width : Nat) (decompressed_data : List Nat) : List Nat :=
  removeFilterBytesLoop width (decompressed_data.drop 1) 0 []

/-- The iterator range `[v.begin() + a, v.begin() + b)` of a vector. -/
def slice (v : List Nat) (a b : Nat) : List Nat := (v.drop a).take (b - a)

/-- The flip loop of `loadPNG` (`iorg.cpp` 206-212) with `rows` iterations left, i.e.
`current_row = rows - 1`: the row `current_row` of `pixel_data` is appended to
`flipped_pixel_data`, then `current_row` is decremented, until it is negative. -/
def flipLoop (pixel_data : List Nat) (width : Nat) : Nat → List Nat → List Nat
  | 0, flipped_pixel_data => flipped_pixel_data
  | current_row + 1, flipped_pixel_data =>
    flipLoop pixel_data width current_row
      (flipped_pixel_data
        ++ slice pixel_data (current_row * width * 4) ((current_row + 1) * width * 4))

/-- The flip loop started at `current_row = ihdr.height - 1` with an empty result. -/
def flipRows (pixel_data : List Nat) (height width : Nat) : List Nat :=
  flipLoop pixel_data width height []

/-- The part of `loadPNG` after decompression (`iorg.cpp` 179-214): defilter the rows,
remove the filter bytes and, when `flip_vertically_on_load` is set, reverse the rows.
`width` and `height` are the fields of the parsed IHDR. -/
def loadPNGPixels (flip_vertically_on_load : Bool) (width height : Nat)
    (decompressed_data : List Nat) : List Nat :=
  let defiltered := defilterRows decompressed_data height width
  let pixel_data := removeFilterBytes width defiltered
  if !flip_vertically_on_load then pixel_data
  else flipRows pixel_data height width

/-- The dense rows of a buffer of `h` records: the `4 * w` data bytes of the first record
followed by those of the remaining records. -/
def stripRows (w : Nat) : Nat → List Nat → List Nat
  | 0, _ => []
  | h + 1, d => (d.drop 1).take (w * 4) ++ stripRows w h (d.drop (w * 4 + 1))

/-! ## BMP: stream, headers and stride helper (`iorg.h` 12-36, 104-113) -/

/-- A `std::ifstream` opened on a file: the bytes of the file, the read position and
whether the stream is still good (no `failbit`). -/
structure IFStream where
  data : List Nat
  pos : Nat
  good : Bool
deriving DecidableEq

/-- The call `file.read(dst, n)`: on a good stream it extracts the next `n` bytes, or the
bytes that are left when the file ends first, in which case the stream fails; on a failed
stream it extracts nothing.  The result is the extracted bytes and the new stream. -/
def IFStream.read (s : IFStream) (n : Nat) : List Nat × IFStream :=
  if s.good then
    let got := (s.data.drop s.pos).take n
    (got, { data := s.data, pos := s.pos + got.length, good := decide (got.length = n) })
  else
    ([], s)

/-- The call `file.seekg(off, file.beg)`; it has no effect on a failed stream. -/
def IFStream.seekg (s : IFStream) (off : Nat) : IFStream :=
  if s.good then { data := s.data, pos := off, good := true } else s

/-- Bytes extracted by a `read` land at the start of the destination: `src` overwrites
`dst` from index `off` on. -/
def copyInto (dst : List Nat) (off : Nat) (src : List Nat) : List Nat :=
  dst.take off ++ src ++ dst.drop (off + src.length)

/-- A `uint16_t` field stored at byte `off` (the headers are read as raw memory on a
little-endian host, the byte order of the BMP format). -/
def le16 (b : List Nat) (off : Nat) : Nat := byteAt b off + 256 * byteAt b (off + 1)

/-- A `uint32_t` field stored at byte `off`. -/
def le32 (b : List Nat) (off : Nat) : Nat :=
  byteAt b off + 256 * byteAt b (off + 1) + 65536 * byteAt b (off + 2)
    + 16777216 * byteAt b (off + 3)

/-- The `int32_t` value with the given 32-bit two's complement pattern. -/
def toInt32 (x : Nat) : Int := if x < 2 ^ 31 then (x : Int) else (x : Int) - 2 ^ 32

/-- Memory of a default-initialised `BMPHeader` (packed, 14 bytes): `file_type = 0x4D42`,
every other field 0. -/
def defaultBMPHeader : List Nat := [0x42, 0x4D, 0, 0, 0, 0, 0, 0, 0, 0, 0, 0, 0, 0]

/-- Memory of a default-initialised `BMPInfoHeader` (40 bytes): `colour_planes = 1` at
byte 12, every other field 0. -/
def defaultBMPInfoHeader : List Nat :=
  [0, 0, 0, 0, 0, 0, 0, 0, 0, 0, 0, 0, 1, 0, 0, 0, 0, 0, 0, 0,
   0, 0, 0, 0, 0, 0, 0, 0, 0, 0, 0, 0, 0, 0, 0, 0, 0, 0, 0, 0]

/-- The loop of `makeStrideAligned` (`iorg.h` 107-110) on `uint32_t`, with a bound on the
number of iterations: `while (new_stride % align_stride != 0) ++new_stride;`.  The result
is `none` when the bound is used up before the loop ends. -/
def makeStrideAlignedLoop (align_stride : Nat) : Nat → Nat → Option Nat
  | 0, new_stride => if new_stride % align_stride ≠ 0 then none else some new_stride
  | fuel + 1, new_stride =>
    if new_stride % align_stride ≠ 0 then
      makeStrideAlignedLoop align_stride fuel ((new_stride + 1) % 2 ^ 32)
    else
      some new_stride

/-- `makeStrideAligned` (`iorg.h` 104-113).  `align_stride` iterations are allowed, which
is at least the number the loop can make for `align_stride ≥ 1`; `align_stride = 0` is a
division by zero and has no result. -/
def makeStrideAligned (align_stride row_stride : Nat) : Option Nat :=
  if align_stride = 0 then none
  else makeStrideAlignedLoop align_stride align_stride row_stride

/-! ## BMP: `loadBMP` (`iorg.cpp` 30-123) -/

/-- Body of the row loop (`iorg.cpp` 96-103) for row `y`: read `row_stride` bytes to
`pixel_data.data() + row_stride * y` (a `uint32_t` product), then read the padding into
`padding_row`. -/
def readRowStep (row_stride padding : Nat) (st : List Nat × IFStream) (y : Nat) :
    List Nat × IFStream :=
  let r1 := st.2.read row_stride
  let pixel_data := copyInto st.1 ((row_stride * y) % 2 ^ 32) r1.1
  let r2 := r1.2.read padding
  (pixel_data, r2.2)

/-- The value is representable in `int` (32 bits). -/
def InIntRange (x : Int) : Prop := -2 ^ 31 ≤ x ∧ x < 2 ^ 31

instance (x : Int) : Decidable (InIntRange x) := by
  unfold InIntRange; infer_instance

/-- The part of `loadBMP` from the assignments to `width` and `height` to the end of the
row loop (`iorg.cpp` 76-107), on the stream positioned by `seekg`.  The result is
`pixel_data` before the channel swap together with the values written to `width` and
`height` and the field `bits_per_pixel`.  It is `none` when an `int` product overflows
(undefined behaviour), when the `vector` of a negative `image_size` cannot be allocated, or
when the stride loop has no result.  The assignments to `header_size`, `data_offset` and
`file_size` are never read again and are left out. -/
def loadBMPPixels (file : IFStream) (width height : Int) (bits_per_pixel : Nat) :
    Option (List Nat × Int × Int × Nat) :=
  if ¬ (InIntRange (width * height) ∧ InIntRange (width * height * (bits_per_pixel : Int))) then
    none
  else
    let image_size : Int := Int.tdiv (width * height * (bits_per_pixel : Int)) 8
    if image_size < 0 then none
    else
      let pixel_data := List.replicate image_size.toNat 0
      if Int.tmod width 4 = 0 then
        let r := file.read pixel_data.length
        some (copyInto pixel_data 0 r.1, width, height, bits_per_pixel)
      else if ¬ InIntRange (width * (bits_per_pixel : Int)) then none
      else
        let row_stride : Nat := (Int.tdiv (width * (bits_per_pixel : Int)) 8 % 2 ^ 32).toNat
        match makeStrideAligned 4 row_stride with
        | none => none
        | some new_stride =>
          let padding := (new_stride + 2 ^ 32 - row_stride) % 2 ^ 32
          let st := (List.range height.toNat).foldl (readRowStep row_stride padding)
            (pixel_data, file)
          some (st.1, width, height, bits_per_pixel)

/-- The part of `loadBMP` that reads the file (`iorg.cpp` 40-107), for a file that could
be opened: both headers are read over default-initialised structures, the stream is moved
to the declared `data_offset`, and the pixel rows are read. -/
def loadBMPRead (file : List Nat) : Option (List Nat × Int × Int × Nat) :=
  let s0 : IFStream := { data := file, pos := 0, good := true }
  let r1 := s0.read 14
  let header := copyInto defaultBMPHeader 0 r1.1
  let r2 := r1.2.read 40
  let info_header := copyInto defaultBMPInfoHeader 0 r2.1
  let s3 := r2.2.seekg (le32 header 10)
  loadBMPPixels s3 (toInt32 (le32 info_header 4)) (toInt32 (le32 info_header 8))
    (le16 info_header 14)

/-- The conversion loop of `loadBMP` (`iorg.cpp` 112-120) from index `i` on, with a bound
on the number of iterations.  Every element access is checked: the result is `none` as soon
as an index outside the vector would be read (the two writes use indices that were read
just before), or when the bound is used up. -/
def swapLoop (pixel_colour_offset : Nat) : Nat → Nat → List Nat → Option (List Nat)
  | 0, _, _ => none
  | fuel + 1, i, pixel_data =>
    if i < pixel_data.length then
      match pixel_data[i]?, pixel_data[i + 1]?, pixel_data[i + 2]? with
      | some b, some _, some r =>
        swapLoop pixel_colour_offset fuel (i + pixel_colour_offset)
          ((pixel_data.set i r).set (i + 2) b)
      | _, _, _ => none
    else
      some pixel_data

/-- The conversion loop started at `i = 0`; `pixel_data.size() + 1` iterations are allowed,
more than a loop whose index grows by at least 1 can make. -/
def swapChannels (pixel_colour_offset : Nat) (pixel_data : List Nat) : Option (List Nat) :=
  swapLoop pixel_colour_offset (pixel_data.length + 1) 0 pixel_data

/-- The step of the conversion loop:
`pixel_colour_offset = info_header.bits_per_pixel == 32 ? 4 : 3`. -/
def pixelColourOffset (bits_per_pixel : Nat) : Nat := if bits_per_pixel = 32 then 4 else 3

/-- `loadBMP` (`iorg.cpp` 30-123) on the bytes of a file that could be opened: the returned
`pixel_data` and the values written to `width` and `height`. -/
def loadBMP (file : List Nat) : Option (List Nat × Int × Int) :=
  match loadBMPRead file with
  | none => none
  | some (pixel_data, width, height, bits_per_pixel) =>
    match swapChannels (pixelColourOffset bits_per_pixel) pixel_data with
    | none => none
    | some converted => some (converted, width, height)

/-- A 24-bit bottom-up BMP of width 1 and height 2: the 14-byte file header (pixel data at
offset 54), the 40-byte info header, then the stored rows `B G R` = `1 2 3` and `4 5 6`,
each followed by one padding byte. -/
def sampleBMP : List Nat :=
  [0x42, 0x4D, 62, 0, 0, 0, 0, 0, 0, 0, 54, 0, 0, 0,
   40, 0, 0, 0, 1, 0, 0, 0, 2, 0, 0, 0, 1, 0, 24, 0,
   0, 0, 0, 0, 8, 0, 0, 0, 0, 0, 0, 0, 0, 0, 0, 0, 0, 0, 0, 0, 0, 0, 0, 0,
   1, 2, 3, 0,
   4, 5, 6, 0]

/-- The `(R, G, B)` values of pixel `k` of the stored row `r` of a 24-bit BMP whose stored
rows start at `off` and are `S` bytes apart; the file stores each pixel as `B G R`. -/
def storedRGB (file : List Nat) (off S r k : Nat) : Nat × Nat × Nat :=
  (byteAt file (off + r * S + k * 3 + 2), byteAt file (off + r * S + k * 3 + 1),
    byteAt file (off + r * S + k * 3))

/-- The `(R, G, B)` values of pixel `k` of row `r` of a returned buffer with 3 bytes per
pixel and `w` pixels per row. -/
def outputRGB (out : List Nat) (w r k : Nat) : Nat × Nat × Nat :=
  (byteAt out ((r * w + k) * 3), byteAt out ((r * w + k) * 3 + 1),
    byteAt out ((r * w + k) * 3 + 2))

/-- Top row first: output row `r` holds the values of the stored row `h - 1 - r`. -/
def RowsTopDown (file out : List Nat) (w h off S : Nat) : Prop :=
  ∀ r k, r < h → k < w → outputRGB out w r k = storedRGB file off S (h - 1 - r) k

/-- Stored order: output row `r` holds the values of the stored row `r`. -/
def RowsAsStored (file out : List Nat) (w h off S : Nat) : Prop :=
  ∀ r k, r < h → k < w → outputRGB out w r k = storedRGB file off S r k

/-! ## BMP: the padding skipped after each row (`iorg.cpp` 90-94) -/

/-- The value of `row_stride`: `info_header.width * info_header.bits_per_pixel / 8` computed
in `int` and stored in a `uint32_t`. -/
def rowStride (width : Int) (bits_per_pixel : Nat) : Nat :=
  (Int.tdiv (width * (bits_per_pixel : Int)) 8 % 2 ^ 32).toNat

/-- The size of `padding_row`, the bytes read and dropped after each row:
`makeStrideAligned(4, row_stride) - row_stride` in `uint32_t`. -/
def paddingRowSize (width : Int) (bits_per_pixel : Nat) : Option Nat :=
  match makeStrideAligned 4 (rowStride width bits_per_pixel) with
  | none => none
  | some new_stride => some ((new_stride + 2 ^ 32 - rowStride width bits_per_pixel) % 2 ^ 32)

/-! ## PNG: the indices used by `applyFilter` and by the flip loop -/

/-- The element indices that `applyFilter` (`iorg.cpp` 279-343) reads or writes, in the
order of the source, as exact integers so that an index below zero is visible:
`row_start` for the filter byte, then for every iteration of the loop of the row's filter
type the operands `row_start + i - (width * 4 + 1)`, `row_start + i - 4`,
`row_start + i - 4 - (width * 4 + 1)` that the iteration evaluates and the element
`row_start + i` it updates. -/
def applyFilterIndices (decompressed_data : List Nat) (row_number width : Nat) : List Int :=
  let row_start : Int := ((row_number * (width * 4 + 1) : Nat) : Int)
  let filter := byteAt decompressed_data (row_number * (width * 4 + 1))
  row_start ::
    match filter with
    | 0 => []
    | 1 =>
      (List.range' 5 (width * 4 + 1 - 5)).flatMap
        (fun i => [row_start + (i : Int), row_start + (i : Int) - 4])
    | 2 =>
      if row_start = 0 then []
      else
        (List.range' 1 (width * 4 + 1 - 1)).flatMap
          (fun i => [row_start + (i : Int),
            row_start + (i : Int) - ((width : Int) * 4 + 1)])
    | 3 =>
      (List.range' 1 (width * 4 + 1 - 1)).flatMap
        (fun i =>
          (if row_start ≠ 0 then [row_start + (i : Int) - ((width : Int) * 4 + 1)] else [])
            ++ (if i ≥ 5 then [row_start + (i : Int) - 4] else [])
            ++ [row_start + (i : Int)])
    | 4 =>
      (List.range' 1 (width * 4 + 1 - 1)).flatMap
        (fun i =>
          (if row_start ≠ 0 then [row_start + (i : Int) - ((width : Int) * 4 + 1)] else [])
            ++ (if i ≥ 5 then [row_start + (i : Int) - 4] else [])
            ++ (if row_start ≠ 0 ∧ i ≥ 5
                then [row_start + (i : Int) - 4 - ((width : Int) * 4 + 1)] else [])
            ++ [row_start + (i : Int)])
    | _ => []

/-- The iterator ranges `[current_row * width * 4, (current_row + 1) * width * 4)` that the
flip loop (`iorg.cpp` 206-212) copies, with `rows` iterations left (`current_row = rows - 1`
first). -/
def flipLoopRanges (width : Nat) : Nat → List (Int × Int)
  | 0 => []
  | current_row + 1 =>
    ((current_row : Int) * (width : Int) * 4, ((current_row : Int) + 1) * (width : Int) * 4)
      :: flipLoopRanges width current_row

/-- Two streams are at the same position, in the same state and have the same bytes left
to read. -/
def SameRest (s₁ s₂ : IFStream) : Prop :=
  s₁.pos = s₂.pos ∧ s₁.good = s₂.good ∧ s₁.data.drop s₁.pos = s₂.data.drop s₂.pos

/-- The file `sampleBMP` with the two signature bytes replaced by zeros. -/
def sampleBMPNoSignature : List Nat := 0 :: 0 :: sampleBMP.drop 2

/-! ## PNG: integers, chunks and `loadPNG` (`iorg.h` 51-68, 134-151, `iorg.cpp` 125-245)

Two things are not fixed by the source and are parameters of the embedding: the byte order
of the host (`readUInt32` and `parseIHDR` reinterpret four bytes of memory as a native
`uint32_t`), and the content of variables that the source reads without having initialised
them (`value` in `readUInt32` and `signature` in `loadPNG` after a short `read`). -/

/-- Four bytes of memory at `off` reinterpreted as a native `uint32_t`, on a big-endian or
a little-endian host. -/
def nativeUInt32 (bigEndianHost : Bool) (mem : List Nat) (off : Nat) : Nat :=
  if bigEndianHost then
    byteAt mem off * 16777216 + byteAt mem (off + 1) * 65536 + byteAt mem (off + 2) * 256
      + byteAt mem (off + 3)
  else
    le32 mem off

/-- `convertBigToNativeEndian` (`iorg.h` 134-144) on `uint32_t`: the four bytes of the
number are reversed, whatever the host. -/
def convertBigToNativeEndian (number : Nat) : Nat :=
  ((number >>> 24) &&& 0x000000FF) |||
  ((number >>> 8) &&& 0x0000FF00) |||
  (((number <<< 8) % 2 ^ 32) &&& 0x00FF0000) |||
  (((number <<< 24) % 2 ^ 32) &&& 0xFF000000)

/-- `readUInt32` (`iorg.h` 146-151): `value` is declared without an initialiser, the bytes
extracted by `read` overwrite its first bytes, and the result is converted.  The argument
`value` is the content of the variable before the `read`. -/
def readUInt32 (bigEndianHost : Bool) (value : List Nat) (file : IFStream) : Nat × IFStream :=
  let r := file.read 4
  (convertBigToNativeEndian (nativeUInt32 bigEndianHost (copyInto value 0 r.1) 0), r.2)

/-- The record `PNGIHDR` (`iorg.h` 51-60); every field is 0 by default. -/
structure PNGIHDR where
  width : Nat := 0
  height : Nat := 0
  bit_depth : Nat := 0
  colour_type : Nat := 0
  compression_method : Nat := 0
  filter_method : Nat := 0
  interlace_method : Nat := 0
deriving DecidableEq

/-- The record `PNGChunk` (`iorg.h` 62-68); `crc` is kept as its four bytes of memory. -/
structure PNGChunk where
  length : Nat
  type : Nat
  data : List Nat
  crc : List Nat
deriving DecidableEq

/-- `readChunk` (`iorg.cpp` 217-230): length, type, `data.resize(length)` followed by a
`read` of `length` bytes into it, and a `read` of 4 bytes into `crc` (0 by default). -/
def readChunk (bigEndianHost : Bool) (value : List Nat) (file : IFStream) :
    PNGChunk × IFStream :=
  let r1 := readUInt32 bigEndianHost value file
  let r2 := readUInt32 bigEndianHost value r1.2
  let r3 := r2.2.read r1.1
  let r4 := r3.2.read 4
  ({ length := r1.1, type := r2.1, data := copyInto (List.replicate r1.1 0) 0 r3.1,
     crc := copyInto [0, 0, 0, 0] 0 r4.1 }, r4.2)

/-- `parseIHDR` (`iorg.cpp` 232-245): every field of `ihdr` is assigned from the payload.
The payload is read through `byteAt`; the source reads 13 bytes whatever the size of the
payload. -/
def parseIHDR (bigEndianHost : Bool) (chunk : PNGChunk) : PNGIHDR :=
  { width := convertBigToNativeEndian (nativeUInt32 bigEndianHost chunk.data 0)
    height := convertBigToNativeEndian (nativeUInt32 bigEndianHost chunk.data 4)
    bit_depth := byteAt chunk.data 8
    colour_type := byteAt chunk.data 9
    compression_method := byteAt chunk.data 10
    filter_method := byteAt chunk.data 11
    interlace_method := byteAt chunk.data 12 }

/-- The chunk loop of `loadPNG` (`iorg.cpp` 149-166), `while (true)` with a bound on the
number of iterations: the result is `none` when the loop has not reached its `break` within
the bound, otherwise the header, the accumulated `compressed_data` and the stream. -/
def chunkLoop (bigEndianHost : Bool) (value : List Nat) :
    Nat → IFStream → PNGIHDR → List Nat → Option (PNGIHDR × List Nat × IFStream)
  | 0, _, _, _ => none
  | fuel + 1, file, ihdr, compressed_data =>
    let r := readChunk bigEndianHost value file
    if r.1.type = 0x49484452 then
      chunkLoop bigEndianHost value fuel r.2 (parseIHDR bigEndianHost r.1) compressed_data
    else if r.1.type = 0x49444154 then
      chunkLoop bigEndianHost value fuel r.2 ihdr (compressed_data ++ r.1.data)
    else if r.1.type = 0x49454E44 then
      some (ihdr, compressed_data, r.2)
    else
      chunkLoop bigEndianHost value fuel r.2 ihdr compressed_data

/-- The constant `png_signature` of `loadPNG`. -/
def pngSignature : List Nat := [0x89, 0x50, 0x4E, 0x47, 0x0D, 0x0A, 0x1A, 0x0A]

/-- `loadPNG` (`iorg.cpp` 125-215) on the bytes of a file that could be opened.
`signature` is the content of the array of that name before the first `read`,
`decompressIDAT` stands for the function of that name (zlib), `width` and `height` are the
values of the two reference parameters at the call.  The result is the returned buffer, the
final `width` and `height` and the final stream; it is `none` when the chunk loop does not
end within `fuel` iterations. -/
def loadPNG (bigEndianHost : Bool) (signature value : List Nat)
    (decompressIDAT : List Nat → Option (List Nat)) (flip_vertically_on_load : Bool)
    (fuel : Nat) (file : List Nat) (width height : Int) :
    Option (List Nat × Int × Int × IFStream) :=
  let r := (IFStream.mk file 0 true).read 8
  if (copyInto signature 0 r.1).take 8 ≠ pngSignature then
    some ([], width, height, r.2)
  else
    match chunkLoop bigEndianHost value fuel r.2 {} [] with
    | none => none
    | some (ihdr, compressed_data, s) =>
      match decompressIDAT compressed_data with
      | none => some ([], toInt32 ihdr.width, toInt32 ihdr.height, s)
      | some decompressed_data =>
        some (loadPNGPixels flip_vertically_on_load ihdr.width ihdr.height decompressed_data,
          toInt32 ihdr.width, toInt32 ihdr.height, s)

/-! ## PNG chunk streams, as the specification words them -/

/-- A well-formed chunk: type tag, payload and the four CRC bytes. -/
structure RawChunk where
  type : Nat
  payload : List Nat
  crc : List Nat

/-- The four bytes of a 32-bit big-endian integer. -/
def be32Bytes (n : Nat) : List Nat :=
  [n / 16777216 % 256, n / 65536 % 256, n / 256 % 256, n % 256]

/-- The bytes of a chunk: big-endian length, type, payload of exactly `length` bytes, CRC. -/
def encodeChunk (c : RawChunk) : List Nat :=
  be32Bytes c.payload.length ++ (be32Bytes c.type ++ (c.payload ++ c.crc))

/-- The bytes of a sequence of chunks. -/
def encodeChunks : List RawChunk → List Nat
  | [] => []
  | c :: cs => encodeChunk c ++ encodeChunks cs

/-- The payloads of the chunks of type `IDAT`, concatenated in order. -/
def idatPayloads : List RawChunk → List Nat
  | [] => []
  | c :: cs => if c.type = 0x49444154 then c.payload ++ idatPayloads cs else idatPayloads cs

/-- A chunk whose fields fit their encoding. -/
def WellFormedChunk (c : RawChunk) : Prop :=
  c.payload.length < 2 ^ 32 ∧ c.type < 2 ^ 32 ∧ c.crc.length = 4

instance (c : RawChunk) : Decidable (WellFormedChunk c) := by
  unfold WellFormedChunk; infer_instance

/-- Chunks before the end marker of a sample stream: `IHDR` (width 1, height 2), `IDAT`
with payload `7 7`, a chunk of type `tEXt`, and a second `IDAT` with payload `8`. -/
def sampleChunks : List RawChunk :=
  [{ type := 0x49484452, payload := [0, 0, 0, 1, 0, 0, 0, 2, 8, 6, 0, 0, 0], crc := [1, 2, 3, 4] },
   { type := 0x49444154, payload := [7, 7], crc := [5, 6, 7, 8] },
   { type := 0x74455874, payload := [65], crc := [0, 0, 0, 0] },
   { type := 0x49444154, payload := [8], crc := [9, 9, 9, 9] }]

/-- The end marker of the sample stream. -/
def sampleIEND : RawChunk := { type := 0x49454E44, payload := [], crc := [0xAE, 0x42, 0x60, 0x82] }

/-- An `IHDR` chunk as `readChunk` returns it: width 1, height 2, bit depth 8, colour type 6. -/
def sampleIHDRChunk : PNGChunk :=
  { length := 13, type := 0x49484452, data := [0, 0, 0, 1, 0, 0, 0, 2, 8, 6, 0, 0, 0],
    crc := [1, 2, 3, 4] }

/-- The value that `readUInt32` returns once the stream has failed: the conversion of
whatever the uninitialised variable `value` holds. -/
def staleUInt32 (bigEndianHost : Bool) (value : List Nat) : Nat :=
  convertBigToNativeEndian (nativeUInt32 bigEndianHost value 0)

/-- No byte can be extracted from the stream any more: it has failed or stands at the end
of the file. -/
def Exhausted (s : IFStream) : Prop := s.good = false ∨ s.data.length ≤ s.pos

/-! ## Format dispatch (`iorg.h` 72-102, `iorg.cpp` 13-28) -/

/-- The enumeration `Format` (`iorg.h` 72-78). -/
inductive Format where
  | None
  | BMP
  | PNG
  | JPEG
deriving DecidableEq

/-- Subtraction of `size_t` values (64 bits): it wraps around below zero. -/
def sizeSub (a b : Nat) : Nat := (2 ^ 64 + a - b) % 2 ^ 64

/-- The call `s.substr(pos)` of `std::string`: the characters from `pos` on, and no result
(`std::out_of_range` is thrown) when `pos > s.size()`. -/
def substr (s : List Char) (pos : Nat) : Option (List Char) :=
  if pos > s.length then none else some (s.drop pos)

/-- `getFormat` (`iorg.h` 92-102) on the characters of the path.  Each of the four
comparisons evaluates its own `substr`; the comparison with `".jpeg"` is only evaluated when
the one with `".jpg"` is false.  The result is `none` when a `substr` throws. -/
def getFormat (file_path : List Char) : Option Format :=
  match substr file_path (sizeSub file_path.length 4) with
  | none => none
  | some t₁ =>
    if t₁ = ".bmp".data then some Format.BMP
    else
      match substr file_path (sizeSub file_path.length 4) with
      | none => none
      | some t₂ =>
        if t₂ = ".png".data then some Format.PNG
        else
          match substr file_path (sizeSub file_path.length 4) with
          | none => none
          | some t₃ =>
            if t₃ = ".jpg".data then some Format.JPEG
            else
              match substr file_path (sizeSub file_path.length 5) with
              | none => none
              | some t₄ =>
                if t₄ = ".jpeg".data then some Format.JPEG else some Format.None

/-- `loadJPEG` (`iorg.h` 86-90): always an empty buffer. -/
def loadJPEG (width height : Int) : List Nat × Int × Int := ([], width, height)

/-- `load` (`iorg.cpp` 13-28).  `openFile` gives the bytes of the file at a path, or `none`
when the file cannot be opened, in which case `loadBMP` and `loadPNG` return an empty buffer
and leave `width` and `height` alone; the other parameters are those of `loadPNG`.  The
result is `none` when `getFormat` throws or the decoder has no result. -/
def load (openFile : List Char → Option (List Nat)) (bigEndianHost : Bool)
    (signature value : List Nat) (decompressIDAT : List Nat → Option (List Nat))
    (flip_vertically_on_load : Bool) (fuel : Nat) (file_path : List Char)
    (width height : Int) : Option (List Nat × Int × Int) :=
  match getFormat file_path with
  | none => none
  | some Format.BMP =>
    match openFile file_path with
    | none => some ([], width, height)
    | some file => loadBMP file
  | some Format.PNG =>
    match openFile file_path with
    | none => some ([], width, height)
    | some file =>
      match loadPNG bigEndianHost signature value decompressIDAT flip_vertically_on_load fuel
          file width height with
      | none => none
      | some r => some (r.1, r.2.1, r.2.2.1)
  | some Format.JPEG => some (loadJPEG width height)
  | some Format.None => some ([], width, height)

/-- The file `sampleBMP` with a declared data offset of 0 instead of 54. -/
def sampleBMPOffsetZero : List Nat := sampleBMP.set 10 0

/-- The file `sampleBMPOffsetZero` with the two signature bytes replaced by zeros. -/
def sampleBMPOffsetZeroNoSignature : List Nat := 0 :: 0 :: sampleBMPOffsetZero.drop 2

/-- The first 20 bytes of `sampleBMP`: a stream that ends inside the info header. -/
def sampleBMPTruncated : List Nat := sampleBMP.take 20

/-! # Theorems -/

/-! ## Basic facts about buffers -/

theorem byteAt_eq (d : List Nat) (i : Nat) : byteAt d i = (d[i]?).getD 0 := by
  simp [byteAt]

theorem byteAt_lt_of_isBytes {d : List Nat} (hd : IsBytes d) (i : Nat) : byteAt d i < 256 := by
  rw [byteAt_eq]
  by_cases h : i < d.length
  · rw [List.getElem?_eq_getElem h]
    exact hd _ (List.getElem_mem h)
  · rw [List.getElem?_eq_none (by omega)]
    simp

theorem length_addTo (d : List Nat) (i v : Nat) : (addTo d i v).length = d.length := by
  simp [addTo]

theorem byteAt_addTo_self (d : List Nat) (i v : Nat) (h : i < d.length) :
    byteAt (addTo d i v) i = (byteAt d i + v) % 256 := by
  simp [addTo, byteAt_eq, List.getElem?_set, h]

theorem byteAt_addTo_of_ne (d : List Nat) (i v k : Nat) (h : k ≠ i) :
    byteAt (addTo d i v) k = byteAt d k := by
  have h' : ¬ i = k := fun e => h e.symm
  simp [addTo, byteAt_eq, List.getElem?_set, h']

theorem isBytes_addTo {d : List Nat} (hd : IsBytes d) (i v : Nat) : IsBytes (addTo d i v) := by
  intro x hx
  rcases List.mem_or_eq_of_mem_set hx with h | h
  · exact hd x h
  · rw [h]; exact Nat.mod_lt _ (by decide)

/-- Effect of a loop `for (i = a; i < a + n; ++i) data[rs + i] += g(data, i)` whose
added value `g` reads only positions below the one being written: the length is kept,
positions outside `rs + a .. rs + a + n - 1` keep their value, and each written position
holds its old value plus `g` evaluated on the FINAL buffer. -/
theorem rowLoop_spec (g : List Nat → Nat → Nat) (rs a : Nat)
    (hloc : ∀ d d' i, a ≤ i → (∀ k, k < rs + i → byteAt d k = byteAt d' k) → g d i = g d' i) :
    ∀ n d, (0 < n → rs + a + n ≤ d.length) →
      ((List.range' a n).foldl (fun d i => addTo d (rs + i) (g d i)) d).length = d.length ∧
      (∀ k, k < rs + a ∨ rs + a + n ≤ k →
        byteAt ((List.range' a n).foldl (fun d i => addTo d (rs + i) (g d i)) d) k = byteAt d k) ∧
      (∀ i, a ≤ i → i < a + n →
        byteAt ((List.range' a n).foldl (fun d i => addTo d (rs + i) (g d i)) d) (rs + i)
          = (byteAt d (rs + i)
              + g ((List.range' a n).foldl (fun d i => addTo d (rs + i) (g d i)) d) i) % 256) ∧
      (IsBytes d → IsBytes ((List.range' a n).foldl (fun d i => addTo d (rs + i) (g d i)) d)) := by
  intro n
  induction n with
  | zero =>
    intro d _
    refine ⟨by simp, by simp, ?_, by simp⟩
    intro i h1 h2; omega
  | succ n ih =>
    intro d hlen
    have hlen' := hlen (by omega)
    obtain ⟨ihl, ihf, ihv, ihb⟩ := ih d (by omega)
    rw [List.range'_concat, List.foldl_append]
    simp only [List.foldl_cons, List.foldl_nil, Nat.one_mul]
    generalize hD : (List.range' a n).foldl (fun d i => addTo d (rs + i) (g d i)) d = D at *
    have hagree : ∀ k, k < rs + (a + n) →
        byteAt D k = byteAt (addTo D (rs + (a + n)) (g D (a + n))) k := by
      intro k hk
      rw [byteAt_addTo_of_ne]; omega
    refine ⟨by rw [length_addTo]; exact ihl, ?_, ?_, fun hb => isBytes_addTo (ihb hb) _ _⟩
    · intro k hk
      rw [byteAt_addTo_of_ne _ _ _ _ (by omega)]
      exact ihf k (by omega)
    · intro i h1 h2
      by_cases hi : i = a + n
      · subst hi
        rw [byteAt_addTo_self _ _ _ (by omega), ihf _ (by omega)]
        rw [← hloc D _ (a + n) (by omega) hagree]
      · rw [byteAt_addTo_of_ne _ _ _ _ (by omega), ihv i h1 (by omega)]
        rw [← hloc D _ i h1 (fun k hk => hagree k (by omega))]

/-! ## One call of `applyFilter` -/

theorem paethPredictor_lt {l u ul : Nat} (hl : l < 256) (hu : u < 256) (hul : ul < 256) :
    paethPredictor l u ul < 256 := by
  unfold paethPredictor
  simp only []
  split
  · exact hl
  · split
    · exact hu
    · exact hul

theorem applyFilter_none (d : List Nat) (y w : Nat) (h : byteAt d (y * (w * 4 + 1)) = 0) :
    applyFilter d y w = d := by
  simp [applyFilter, h]

theorem applyFilter_sub (d : List Nat) (y w : Nat) (h : byteAt d (y * (w * 4 + 1)) = 1) :
    applyFilter d y w
      = (List.range' 5 (w * 4 + 1 - 5)).foldl (subStep (y * (w * 4 + 1))) d := by
  simp [applyFilter, h]

theorem applyFilter_up (d : List Nat) (y w : Nat) (h : byteAt d (y * (w * 4 + 1)) = 2) :
    applyFilter d y w
      = if y * (w * 4 + 1) = 0 then d
        else (List.range' 1 (w * 4 + 1 - 1)).foldl (upStep (y * (w * 4 + 1)) w) d := by
  simp [applyFilter, h]

theorem applyFilter_average (d : List Nat) (y w : Nat) (h : byteAt d (y * (w * 4 + 1)) = 3) :
    applyFilter d y w
      = (List.range' 1 (w * 4 + 1 - 1)).foldl (averageStep (y * (w * 4 + 1)) w) d := by
  simp [applyFilter, h]

theorem applyFilter_paeth (d : List Nat) (y w : Nat) (h : byteAt d (y * (w * 4 + 1)) = 4) :
    applyFilter d y w
      = (List.range' 1 (w * 4 + 1 - 1)).foldl (paethStep (y * (w * 4 + 1)) w) d := by
  simp [applyFilter, h]

theorem applyFilter_other (d : List Nat) (y w : Nat) (h : 5 ≤ byteAt d (y * (w * 4 + 1))) :
    applyFilter d y w = d := by
  unfold applyFilter
  simp only []
  split <;> first | rfl | omega

theorem predictor_other {f : Nat} (h : 5 ≤ f) (l u ul : Nat) : predictor f l u ul = 0 := by
  unfold predictor
  split <;> first | rfl | omega

theorem row_start_eq_zero (y w : Nat) : y * (w * 4 + 1) = 0 ↔ y = 0 := by
  constructor
  · intro h
    rcases Nat.mul_eq_zero.mp h with h | h
    · exact h
    · omega
  · intro h; simp [h]

theorem row_pred (y w : Nat) (hy : y ≠ 0) :
    (y - 1) * (w * 4 + 1) + (w * 4 + 1) = y * (w * 4 + 1) := by
  obtain ⟨z, rfl⟩ := Nat.exists_eq_succ_of_ne_zero hy
  simp only [Nat.succ_eq_add_one, Nat.add_sub_cancel]
  ring

theorem averageValue_local (rs w : Nat) (d d' : List Nat) (i : Nat) (hi : 1 ≤ i)
    (h : ∀ k, k < rs + i → byteAt d k = byteAt d' k) :
    averageValue rs w d i = averageValue rs w d' i := by
  unfold averageValue
  rw [h (rs + i - (w * 4 + 1)) (by omega), h (rs + i - 4) (by omega)]

theorem paethValue_local (rs w : Nat) (d d' : List Nat) (i : Nat) (hi : 1 ≤ i)
    (h : ∀ k, k < rs + i → byteAt d k = byteAt d' k) :
    paethValue rs w d i = paethValue rs w d' i := by
  unfold paethValue
  rw [h (rs + i - (w * 4 + 1)) (by omega), h (rs + i - 4) (by omega),
    h (rs + i - 4 - (w * 4 + 1)) (by omega)]

/-- The `left` operand read by the source is the specification's `left(i)`. -/
theorem left_read_eq (d : List Nat) (w y i : Nat) :
    (if i ≥ 5 then byteAt d (y * (w * 4 + 1) + i - 4) else 0) = leftAt d w y i := by
  unfold leftAt
  by_cases h : i < 5
  · simp [h, Nat.not_le.mpr h]
  · have h5 : i ≥ 5 := by omega
    have e : y * (w * 4 + 1) + i - 4 = y * (w * 4 + 1) + (i - 4) := by omega
    simp [h, h5, e]

/-- The `upper` operand read by the source is the specification's `up(i)`. -/
theorem up_read_eq (d : List Nat) (w y i : Nat) :
    (if y * (w * 4 + 1) ≠ 0 then byteAt d (y * (w * 4 + 1) + i - (w * 4 + 1)) else 0)
      = upAt d w y i := by
  unfold upAt
  by_cases hy : y = 0
  · simp [hy]
  · have h0 : y * (w * 4 + 1) ≠ 0 := fun e => hy ((row_start_eq_zero y w).mp e)
    have hp := row_pred y w hy
    have e : y * (w * 4 + 1) + i - (w * 4 + 1) = (y - 1) * (w * 4 + 1) + i := by omega
    simp [hy, h0, e]

/-- The `upper_left` operand read by the source is the specification's `upleft(i)`. -/
theorem upleft_read_eq (d : List Nat) (w y i : Nat) :
    (if y * (w * 4 + 1) ≠ 0 ∧ i ≥ 5
      then byteAt d (y * (w * 4 + 1) + i - 4 - (w * 4 + 1)) else 0)
      = upleftAt d w y i := by
  unfold upleftAt
  by_cases hy : y = 0
  · simp [hy]
  · have h0 : y * (w * 4 + 1) ≠ 0 := fun e => hy ((row_start_eq_zero y w).mp e)
    have hp := row_pred y w hy
    by_cases h : i < 5
    · simp [h, Nat.not_le.mpr h]
    · have h5 : i ≥ 5 := by omega
      have e : y * (w * 4 + 1) + i - 4 - (w * 4 + 1) = (y - 1) * (w * 4 + 1) + (i - 4) := by
        omega
      simp [hy, h, h0, h5, e]

theorem leftAt_lt {d : List Nat} (hd : IsBytes d) (w y i : Nat) : leftAt d w y i < 256 := by
  unfold leftAt
  split
  · decide
  · exact byteAt_lt_of_isBytes hd _

theorem upAt_lt {d : List Nat} (hd : IsBytes d) (w y i : Nat) : upAt d w y i < 256 := by
  unfold upAt
  split
  · decide
  · exact byteAt_lt_of_isBytes hd _

theorem upleftAt_lt {d : List Nat} (hd : IsBytes d) (w y i : Nat) : upleftAt d w y i < 256 := by
  unfold upleftAt
  split
  · decide
  · exact byteAt_lt_of_isBytes hd _

theorem averageValue_eq {d : List Nat} (hd : IsBytes d) (w y i : Nat) :
    averageValue (y * (w * 4 + 1)) w d i = (upAt d w y i + leftAt d w y i) / 2 := by
  unfold averageValue
  simp only []
  rw [left_read_eq, up_read_eq]
  have h1 := leftAt_lt hd w y i
  have h2 := upAt_lt hd w y i
  omega

theorem paethValue_eq (d : List Nat) (w y i : Nat) :
    paethValue (y * (w * 4 + 1)) w d i
      = paethPredictor (leftAt d w y i) (upAt d w y i) (upleftAt d w y i) := by
  unfold paethValue
  simp only []
  rw [left_read_eq, up_read_eq, upleft_read_eq]

theorem rowPost_of_unchanged (d : List Nat) (w y : Nat) (hb : IsBytes d)
    (hp : ∀ i, 1 ≤ i → i ≤ w * 4 →
      predictor (byteAt d (y * (w * 4 + 1))) (leftAt d w y i) (upAt d w y i)
        (upleftAt d w y i) = 0) :
    RowPost d d w y := by
  refine ⟨rfl, hb, fun _ _ => rfl, ?_⟩
  intro i h1 h2
  rw [hp i h1 h2]
  have := byteAt_lt_of_isBytes hb (y * (w * 4 + 1) + i)
  omega

theorem applyFilter_row (d : List Nat) (y w : Nat)
    (hlen : (y + 1) * (w * 4 + 1) ≤ d.length) (hb : IsBytes d) :
    RowPost d (applyFilter d y w) w y := by
  have hrs : (y + 1) * (w * 4 + 1) = y * (w * 4 + 1) + (w * 4 + 1) := by ring
  rcases Nat.lt_or_ge (byteAt d (y * (w * 4 + 1))) 5 with hf | hf
  · have hcases : byteAt d (y * (w * 4 + 1)) = 0 ∨ byteAt d (y * (w * 4 + 1)) = 1 ∨
        byteAt d (y * (w * 4 + 1)) = 2 ∨ byteAt d (y * (w * 4 + 1)) = 3 ∨
        byteAt d (y * (w * 4 + 1)) = 4 := by omega
    rcases hcases with h | h | h | h | h
    · -- None
      rw [applyFilter_none d y w h]
      exact rowPost_of_unchanged d w y hb (fun i _ _ => by rw [h]; rfl)
    · -- Sub
      rw [applyFilter_sub d y w h]
      obtain ⟨r1, r2, r3, r4⟩ := rowLoop_spec (fun d i => byteAt d (y * (w * 4 + 1) + i - 4))
        (y * (w * 4 + 1)) 5
        (fun d d' i hi hk => hk _ (by omega)) (w * 4 + 1 - 5) d (by omega)
      have hstep : (subStep (y * (w * 4 + 1)))
          = (fun d i => addTo d (y * (w * 4 + 1) + i) (byteAt d (y * (w * 4 + 1) + i - 4))) := rfl
      rw [hstep]
      generalize List.foldl
        (fun d i => addTo d (y * (w * 4 + 1) + i) (byteAt d (y * (w * 4 + 1) + i - 4))) d
        (List.range' 5 (w * 4 + 1 - 5)) = D at *
      refine ⟨r1, r4 hb, fun k hk => r2 k (by omega), ?_⟩
      intro i h1 h2
      rw [h]
      show _ = (_ + leftAt D w y i) % 256
      by_cases h5 : i < 5
      · rw [r2 _ (by omega)]
        have : leftAt D w y i = 0 := by simp [leftAt, h5]
        rw [this]
        have := byteAt_lt_of_isBytes hb (y * (w * 4 + 1) + i)
        omega
      · rw [r3 i (by omega) (by omega), ← left_read_eq]
        simp [Nat.le_of_not_lt h5]
    · -- Up
      rw [applyFilter_up d y w h]
      by_cases hy : y = 0
      · have h0 : y * (w * 4 + 1) = 0 := (row_start_eq_zero y w).mpr hy
        rw [if_pos h0]
        exact rowPost_of_unchanged d w y hb (fun i _ _ => by rw [h]; simp [predictor, upAt, hy])
      · have h0 : y * (w * 4 + 1) ≠ 0 := fun e => hy ((row_start_eq_zero y w).mp e)
        rw [if_neg h0]
        obtain ⟨r1, r2, r3, r4⟩ := rowLoop_spec
          (fun d i => byteAt d (y * (w * 4 + 1) + i - (w * 4 + 1)))
          (y * (w * 4 + 1)) 1
          (fun d d' i hi hk => hk _ (by omega)) (w * 4 + 1 - 1) d (by omega)
        have hstep : (upStep (y * (w * 4 + 1)) w)
            = (fun d i => addTo d (y * (w * 4 + 1) + i)
                (byteAt d (y * (w * 4 + 1) + i - (w * 4 + 1)))) := rfl
        rw [hstep]
        generalize List.foldl
          (fun d i => addTo d (y * (w * 4 + 1) + i)
            (byteAt d (y * (w * 4 + 1) + i - (w * 4 + 1)))) d
          (List.range' 1 (w * 4 + 1 - 1)) = D at *
        refine ⟨r1, r4 hb, fun k hk => r2 k (by omega), ?_⟩
        intro i h1 h2
        rw [h]
        show _ = (_ + upAt D w y i) % 256
        rw [r3 i (by omega) (by omega), ← up_read_eq]
        simp [h0]
    · -- Average
      rw [applyFilter_average d y w h]
      obtain ⟨r1, r2, r3, r4⟩ := rowLoop_spec (averageValue (y * (w * 4 + 1)) w)
        (y * (w * 4 + 1)) 1
        (fun d d' i hi hk => averageValue_local _ w d d' i hi hk) (w * 4 + 1 - 1) d (by omega)
      have hstep : (averageStep (y * (w * 4 + 1)) w)
          = (fun d i => addTo d (y * (w * 4 + 1) + i)
              (averageValue (y * (w * 4 + 1)) w d i)) := rfl
      rw [hstep]
      generalize List.foldl
        (fun d i => addTo d (y * (w * 4 + 1) + i) (averageValue (y * (w * 4 + 1)) w d i)) d
        (List.range' 1 (w * 4 + 1 - 1)) = D at *
      refine ⟨r1, r4 hb, fun k hk => r2 k (by omega), ?_⟩
      intro i h1 h2
      rw [h]
      show _ = (_ + (upAt D w y i + leftAt D w y i) / 2) % 256
      rw [r3 i (by omega) (by omega), averageValue_eq (r4 hb)]
    · -- Paeth
      rw [applyFilter_paeth d y w h]
      obtain ⟨r1, r2, r3, r4⟩ := rowLoop_spec (paethValue (y * (w * 4 + 1)) w)
        (y * (w * 4 + 1)) 1
        (fun d d' i hi hk => paethValue_local _ w d d' i hi hk) (w * 4 + 1 - 1) d (by omega)
      have hstep : (paethStep (y * (w * 4 + 1)) w)
          = (fun d i => addTo d (y * (w * 4 + 1) + i)
              (paethValue (y * (w * 4 + 1)) w d i)) := rfl
      rw [hstep]
      generalize List.foldl
        (fun d i => addTo d (y * (w * 4 + 1) + i) (paethValue (y * (w * 4 + 1)) w d i)) d
        (List.range' 1 (w * 4 + 1 - 1)) = D at *
      refine ⟨r1, r4 hb, fun k hk => r2 k (by omega), ?_⟩
      intro i h1 h2
      rw [h]
      show _ = (_ + paethPredictor (leftAt D w y i) (upAt D w y i) (upleftAt D w y i)) % 256
      rw [r3 i (by omega) (by omega), paethValue_eq]
  · rw [applyFilter_other d y w hf]
    exact rowPost_of_unchanged d w y hb (fun i _ _ => predictor_other hf _ _ _)

/-! ## The whole defiltering loop -/

/-- The neighbours of offset `i` in row `y` only depend on the bytes before that position. -/
theorem neighbours_congr (d d' : List Nat) (w y i : Nat)
    (h : ∀ k, k < y * (w * 4 + 1) + i → byteAt d k = byteAt d' k) :
    leftAt d w y i = leftAt d' w y i ∧ upAt d w y i = upAt d' w y i ∧
      upleftAt d w y i = upleftAt d' w y i := by
  refine ⟨?_, ?_, ?_⟩
  · unfold leftAt
    split
    · rfl
    · exact h _ (by omega)
  · unfold upAt
    split
    · rfl
    · next hy =>
      have := row_pred y w hy
      exact h _ (by omega)
  · unfold upleftAt
    split
    · rfl
    · next hy =>
      have := row_pred y w (fun e => hy (Or.inl e))
      exact h _ (by omega)

theorem defilterRows_succ (d : List Nat) (n w : Nat) :
    defilterRows d (n + 1) w = applyFilter (defilterRows d n w) n w := by
  simp [defilterRows, List.range_succ, List.foldl_append]

/-- Invariant of the loop of `loadPNG` that calls `applyFilter` on rows `0, 1, ..., n - 1`. -/
theorem defilterRows_spec (d : List Nat) (w : Nat) (hb : IsBytes d) :
    ∀ n, n * (w * 4 + 1) ≤ d.length →
      (defilterRows d n w).length = d.length ∧ IsBytes (defilterRows d n w) ∧
      (∀ k, n * (w * 4 + 1) ≤ k → byteAt (defilterRows d n w) k = byteAt d k) ∧
      (∀ y, byteAt (defilterRows d n w) (y * (w * 4 + 1)) = byteAt d (y * (w * 4 + 1))) ∧
      (∀ y i, y < n → 1 ≤ i → i ≤ w * 4 →
        byteAt (defilterRows d n w) (y * (w * 4 + 1) + i)
          = (byteAt d (y * (w * 4 + 1) + i)
              + predictor (byteAt d (y * (w * 4 + 1)))
                  (leftAt (defilterRows d n w) w y i) (upAt (defilterRows d n w) w y i)
                  (upleftAt (defilterRows d n w) w y i)) % 256) := by
  intro n
  induction n with
  | zero =>
    intro _
    refine ⟨rfl, hb, fun _ _ => rfl, fun _ => rfl, ?_⟩
    intro y i hy; omega
  | succ n ih =>
    intro hlen
    have hrs : (n + 1) * (w * 4 + 1) = n * (w * 4 + 1) + (w * 4 + 1) := by ring
    obtain ⟨il, ib, ifr, iflt, iv⟩ := ih (by omega)
    rw [defilterRows_succ]
    generalize defilterRows d n w = D at *
    obtain ⟨r1, r2, r3, r4⟩ := applyFilter_row D n w (by omega) ib
    generalize applyFilter D n w = D' at *
    refine ⟨by omega, r2, ?_, ?_, ?_⟩
    · intro k hk
      rw [r3 k (Or.inr hk)]
      exact ifr k (by omega)
    · intro y
      rw [← iflt y]
      rcases Nat.lt_or_ge n y with hy | hy
      · have : (n + 1) * (w * 4 + 1) ≤ y * (w * 4 + 1) := Nat.mul_le_mul_right _ hy
        exact r3 _ (Or.inr this)
      · have : y * (w * 4 + 1) ≤ n * (w * 4 + 1) := Nat.mul_le_mul_right _ hy
        exact r3 _ (Or.inl this)
    · intro y i hy h1 h2
      rcases Nat.lt_or_ge y n with hlt | hge
      · have hyn : (y + 1) * (w * 4 + 1) ≤ n * (w * 4 + 1) := Nat.mul_le_mul_right _ hlt
        have hys : (y + 1) * (w * 4 + 1) = y * (w * 4 + 1) + (w * 4 + 1) := by ring
        obtain ⟨e1, e2, e3⟩ := neighbours_congr D' D w y i
          (fun k hk => r3 k (Or.inl (by omega)))
        rw [r3 _ (Or.inl (by omega)), e1, e2, e3]
        exact iv y i hlt h1 h2
      · have hyn : y = n := by omega
        subst hyn
        rw [r4 i h1 h2, ifr _ (by omega), ifr _ (Nat.le_refl _)]

/-! ## Claims about the Paeth predictor -/

theorem cAbs_eq_abs (x : Int) : cAbs x = |x| := by
  unfold cAbs
  split
  · next h => rw [abs_of_neg h]
  · next h => rw [abs_of_nonneg (by omega)]

/-- C1: for 8-bit `left`, `upper`, `upper_left`, `paethPredictor` returns one of the three
candidates, at minimal distance from `p = left + upper - upper_left`, with ties broken in the
order left, upper, upper-left: it returns `left` iff `left` is at least as close as both
others, otherwise `upper` iff `upper` is at least as close as `upper_left`, otherwise
`upper_left`; when the three are equal it returns `left`. -/
theorem paethPredictor_nearest_with_tiebreak (left upper upper_left : Nat)
    (_hl : left < 256) (_hu : upper < 256) (_hul : upper_left < 256) :
    (paethPredictor left upper upper_left = left ∨
      paethPredictor left upper upper_left = upper ∨
      paethPredictor left upper upper_left = upper_left) ∧
    (paethDistance left upper upper_left (paethPredictor left upper upper_left)
        ≤ paethDistance left upper upper_left left ∧
      paethDistance left upper upper_left (paethPredictor left upper upper_left)
        ≤ paethDistance left upper upper_left upper ∧
      paethDistance left upper upper_left (paethPredictor left upper upper_left)
        ≤ paethDistance left upper upper_left upper_left) ∧
    (paethPredictor left upper upper_left = left ↔
      (paethDistance left upper upper_left left ≤ paethDistance left upper upper_left upper ∧
        paethDistance left upper upper_left left
          ≤ paethDistance left upper upper_left upper_left)) ∧
    (¬ (paethDistance left upper upper_left left ≤ paethDistance left upper upper_left upper ∧
        paethDistance left upper upper_left left
          ≤ paethDistance left upper upper_left upper_left) →
      (paethPredictor left upper upper_left = upper ↔
        paethDistance left upper upper_left upper
          ≤ paethDistance left upper upper_left upper_left)) ∧
    (¬ (paethDistance left upper upper_left left ≤ paethDistance left upper upper_left upper ∧
        paethDistance left upper upper_left left
          ≤ paethDistance left upper upper_left upper_left) →
      ¬ (paethDistance left upper upper_left upper
          ≤ paethDistance left upper upper_left upper_left) →
      paethPredictor left upper upper_left = upper_left) ∧
    (left = upper → upper = upper_left → paethPredictor left upper upper_left = left) := by
  simp only [paethDistance, paethEstimate, paethPredictor, ← cAbs_eq_abs]
  unfold cAbs
  split_ifs <;> omega

/-- Witness for C1 at the exact tie `left = upper = upper_left = 7`. -/
theorem paethPredictor_nearest_with_tiebreak_witness :
    (7 < 256 ∧ 7 < 256 ∧ 7 < 256) ∧ paethPredictor 7 7 7 = 7 :=
  ⟨by decide,
    (paethPredictor_nearest_with_tiebreak 7 7 7 (by decide) (by decide) (by decide)).2.2.2.2.2
      rfl rfl⟩

/-! ## Claims about the defiltering loop -/

/-- C3: for `w ≥ 1`, `h ≥ 1` and a byte buffer of length `h * (4 * w + 1)` whose filter
bytes are all in `0..4`, after the loop of `loadPNG` has called `applyFilter` on rows
`0, ..., h - 1`, every data byte at row `y`, offset `i` (`1 ≤ i ≤ 4 * w`) equals
`(filt + pred) mod 256`, where `filt` is its original value and `pred` is the predictor of
the row's filter type evaluated on the FINAL values of `left`, `up` and `upleft`. -/
theorem defilterRows_uses_reconstructed_neighbours (w h : Nat) (d : List Nat)
    (_hw : 1 ≤ w) (_hh : 1 ≤ h) (hlen : d.length = h * (w * 4 + 1)) (hb : IsBytes d)
    (_hfilter : ∀ y, y < h → byteAt d (y * (w * 4 + 1)) ≤ 4)
    (y i : Nat) (hy : y < h) (hi1 : 1 ≤ i) (hi2 : i ≤ w * 4) :
    byteAt (defilterRows d h w) (y * (w * 4 + 1) + i)
      = (byteAt d (y * (w * 4 + 1) + i)
          + predictor (byteAt d (y * (w * 4 + 1)))
              (leftAt (defilterRows d h w) w y i)
              (upAt (defilterRows d h w) w y i)
              (upleftAt (defilterRows d h w) w y i)) % 256 :=
  (defilterRows_spec d w hb h (by omega)).2.2.2.2 y i hy hi1 hi2

/-- Witness for C3: a 1-pixel-wide, 3-row image using the Sub, Paeth and Average filters;
the checked byte is offset 2 of the last row. -/
theorem defilterRows_uses_reconstructed_neighbours_witness :
    byteAt (defilterRows [1, 10, 20, 30, 40, 4, 1, 2, 3, 4, 3, 5, 6, 7, 8] 3 1) (2 * (1 * 4 + 1) + 2)
      = (byteAt [1, 10, 20, 30, 40, 4, 1, 2, 3, 4, 3, 5, 6, 7, 8] (2 * (1 * 4 + 1) + 2)
          + predictor (byteAt [1, 10, 20, 30, 40, 4, 1, 2, 3, 4, 3, 5, 6, 7, 8] (2 * (1 * 4 + 1)))
              (leftAt (defilterRows [1, 10, 20, 30, 40, 4, 1, 2, 3, 4, 3, 5, 6, 7, 8] 3 1) 1 2 2)
              (upAt (defilterRows [1, 10, 20, 30, 40, 4, 1, 2, 3, 4, 3, 5, 6, 7, 8] 3 1) 1 2 2)
              (upleftAt (defilterRows [1, 10, 20, 30, 40, 4, 1, 2, 3, 4, 3, 5, 6, 7, 8] 3 1) 1 2 2))
          % 256 :=
  defilterRows_uses_reconstructed_neighbours 1 3
    [1, 10, 20, 30, 40, 4, 1, 2, 3, 4, 3, 5, 6, 7, 8]
    (by decide) (by decide) (by decide) (by decide) (by decide) 2 2 (by decide) (by decide)
    (by decide)

/-! ## Filter-then-defilter round trip -/

theorem filterByte_lt (raw : List Nat) (w : Nat) (F : Nat → Nat) (y j : Nat) :
    filterByte raw w F y j < 256 := by
  unfold filterByte
  omega

theorem length_filterRecord (raw : List Nat) (w : Nat) (F : Nat → Nat) (y : Nat) :
    (filterRecord raw w F y).length = w * 4 + 1 := by
  simp [filterRecord]

theorem length_filterRecords (raw : List Nat) (w : Nat) (F : Nat → Nat) (n : Nat) :
    (filterRecords raw w F n).length = n * (w * 4 + 1) := by
  induction n with
  | zero => simp [filterRecords]
  | succ n ih =>
    simp only [filterRecords, List.length_append, ih, length_filterRecord]
    ring

theorem byteAt_filterRecord_zero (raw : List Nat) (w : Nat) (F : Nat → Nat) (y : Nat) :
    byteAt (filterRecord raw w F y) 0 = F y := by
  simp [filterRecord, byteAt]

theorem byteAt_filterRecord_succ (raw : List Nat) (w : Nat) (F : Nat → Nat) (y j : Nat)
    (hj : j < w * 4) :
    byteAt (filterRecord raw w F y) (j + 1) = filterByte raw w F y j := by
  simp [filterRecord, byteAt_eq, List.getElem?_map, List.getElem?_range hj]

theorem byteAt_filterRecords (raw : List Nat) (w : Nat) (F : Nat → Nat) (n y i : Nat)
    (hy : y < n) (hi : i < w * 4 + 1) :
    byteAt (filterRecords raw w F n) (y * (w * 4 + 1) + i)
      = byteAt (filterRecord raw w F y) i := by
  induction n with
  | zero => omega
  | succ n ih =>
    have hys : (y + 1) * (w * 4 + 1) = y * (w * 4 + 1) + (w * 4 + 1) := by ring
    rw [byteAt_eq, filterRecords, List.getElem?_append, length_filterRecords]
    rcases Nat.lt_or_ge y n with hlt | hge
    · have hyn : (y + 1) * (w * 4 + 1) ≤ n * (w * 4 + 1) := Nat.mul_le_mul_right _ hlt
      rw [if_pos (by omega), ← byteAt_eq]
      exact ih hlt
    · have hyn : y = n := by omega
      subst hyn
      rw [if_neg (by omega), ← byteAt_eq]
      congr 1
      omega

theorem isBytes_filterRecords (raw : List Nat) (w : Nat) (F : Nat → Nat) (n : Nat)
    (hF : ∀ y, y < n → F y ≤ 4) : IsBytes (filterRecords raw w F n) := by
  induction n with
  | zero => intro x hx; simp [filterRecords] at hx
  | succ n ih =>
    intro x hx
    simp only [filterRecords, filterRecord, List.mem_append, List.mem_cons, List.mem_map,
      List.mem_range] at hx
    rcases hx with hx | hx | ⟨j, _, hx⟩
    · exact ih (fun y hy => hF y (by omega)) x hx
    · have := hF n (by omega)
      omega
    · rw [← hx]
      exact filterByte_lt raw w F n j

theorem rawAt_lt {raw : List Nat} (hb : IsBytes raw) (w y j : Nat) : rawAt raw w y j < 256 :=
  byteAt_lt_of_isBytes hb _

/-- Reconstruction undoes the forward filter, position by position in buffer order. -/
theorem defilter_filterRecords (w h : Nat) (raw : List Nat) (F : Nat → Nat)
    (hb : IsBytes raw) (hF : ∀ y, y < h → F y ≤ 4) :
    ∀ k y i, k = y * (w * 4 + 1) + i → y < h → 1 ≤ i → i ≤ w * 4 →
      byteAt (defilterRows (filterRecords raw w F h) h w) k = rawAt raw w y (i - 1) := by
  obtain ⟨_, _, _, _, hv⟩ := defilterRows_spec (filterRecords raw w F h) w
    (isBytes_filterRecords raw w F h hF) h (by rw [length_filterRecords])
  generalize defilterRows (filterRecords raw w F h) h w = D at *
  intro k
  induction k using Nat.strong_induction_on with
  | _ k ih =>
    intro y i hk hy h1 h2
    subst hk
    rw [hv y i hy h1 h2]
    have e0 := byteAt_filterRecords raw w F h y 0 hy (by omega)
    rw [Nat.add_zero, byteAt_filterRecord_zero] at e0
    have ei := byteAt_filterRecords raw w F h y i hy (by omega)
    obtain ⟨j, rfl⟩ : ∃ j, i = j + 1 := ⟨i - 1, by omega⟩
    rw [byteAt_filterRecord_succ raw w F y j (by omega)] at ei
    rw [e0, ei, Nat.add_sub_cancel]
    have hl : leftAt D w y (j + 1) = rawLeft raw w y j := by
      unfold leftAt rawLeft
      by_cases hj : j < 4
      · rw [if_pos (by omega), if_pos hj]
      · rw [if_neg (by omega), if_neg hj]
        rw [ih _ (by omega) y (j + 1 - 4) rfl hy (by omega) (by omega)]
        congr 1
    have hu : upAt D w y (j + 1) = rawUp raw w y j := by
      unfold upAt rawUp
      by_cases hy0 : y = 0
      · rw [if_pos hy0, if_pos hy0]
      · rw [if_neg hy0, if_neg hy0]
        have := row_pred y w hy0
        rw [ih _ (by omega) (y - 1) (j + 1) rfl (by omega) (by omega) (by omega)]
        congr 1
    have hul : upleftAt D w y (j + 1) = rawUpLeft raw w y j := by
      unfold upleftAt rawUpLeft
      by_cases hc : y = 0 ∨ j < 4
      · rw [if_pos (by omega), if_pos hc]
      · rw [if_neg (by omega), if_neg hc]
        have := row_pred y w (by omega)
        rw [ih _ (by omega) (y - 1) (j + 1 - 4) rfl (by omega) (by omega) (by omega)]
        congr 1
    rw [hl, hu, hul]
    unfold filterByte
    have := rawAt_lt hb w y j
    omega

/-- C2: filter-then-defilter round trip.  For `w ≥ 1`, `h ≥ 1`, a raw RGBA image of
`h * w * 4` bytes and a filter type `F y ∈ {0, ..., 4}` for every row, building the `h`
records (filter byte followed by the row filtered with `(raw - pred_F) mod 256`) and calling
`applyFilter` on rows `0, ..., h - 1` in that order gives records whose data bytes are the
raw image, the filter bytes and the length being those of the records. -/
theorem filter_then_defilter_roundtrip (w h : Nat) (raw : List Nat) (F : Nat → Nat)
    (_hw : 1 ≤ w) (_hh : 1 ≤ h) (_hlen : raw.length = h * w * 4) (hb : IsBytes raw)
    (hF : ∀ y, y < h → F y ≤ 4) :
    (defilterRows (filterRecords raw w F h) h w).length = h * (1 + 4 * w) ∧
    (∀ y, y < h → byteAt (defilterRows (filterRecords raw w F h) h w) (y * (1 + 4 * w)) = F y) ∧
    (∀ y j, y < h → j < 4 * w →
      byteAt (defilterRows (filterRecords raw w F h) h w) (y * (1 + 4 * w) + 1 + j)
        = byteAt raw (y * (4 * w) + j)) := by
  have e1 : 1 + 4 * w = w * 4 + 1 := by omega
  have e2 : 4 * w = w * 4 := by omega
  rw [e1, e2]
  obtain ⟨hl, _, _, hflt, _⟩ := defilterRows_spec (filterRecords raw w F h) w
    (isBytes_filterRecords raw w F h hF) h (by rw [length_filterRecords])
  refine ⟨by rw [hl, length_filterRecords], ?_, ?_⟩
  · intro y hy
    rw [hflt y]
    have e0 := byteAt_filterRecords raw w F h y 0 hy (by omega)
    rw [Nat.add_zero, byteAt_filterRecord_zero] at e0
    exact e0
  · intro y j hy hj
    have := defilter_filterRecords w h raw F hb hF _ y (j + 1) rfl hy (by omega) (by omega)
    rw [Nat.add_sub_cancel] at this
    rw [Nat.add_assoc, Nat.add_comm 1 j]
    exact this

/-- Witness for C2: a 2-pixel-wide, 5-row image whose row `y` is filtered with type `y`;
the checked byte is byte 5 of the Paeth-filtered row 4. -/
theorem filter_then_defilter_roundtrip_witness :
    (1 ≤ 2 ∧ 1 ≤ 5 ∧ sampleRaw.length = 5 * 2 * 4 ∧ IsBytes sampleRaw ∧
      ∀ y, y < 5 → (fun y => y) y ≤ 4) ∧
    byteAt (defilterRows (filterRecords sampleRaw 2 (fun y => y) 5) 5 2) (4 * (1 + 4 * 2) + 1 + 5)
      = byteAt sampleRaw (4 * (4 * 2) + 5) :=
  ⟨by decide,
    (filter_then_defilter_roundtrip 2 5 sampleRaw (fun y => y) (by decide) (by decide)
      (by decide) (by decide) (by decide)).2.2 4 5 (by decide) (by decide)⟩

/-! ## The Sub filter -/

theorem addTo_zero_of_isBytes {d : List Nat} (hb : IsBytes d) (i : Nat) : addTo d i 0 = d := by
  unfold addTo
  rw [Nat.add_zero, Nat.mod_eq_of_lt (byteAt_lt_of_isBytes hb i)]
  apply List.ext_getElem?
  intro n
  rw [List.getElem?_set]
  by_cases h : i = n
  · subst h
    by_cases hl : i < d.length
    · simp [hl, byteAt_eq]
    · simp [hl, List.getElem?_eq_none (Nat.le_of_not_lt hl)]
  · simp [h]

theorem foldl_congr_mem {α β : Type} (f g : β → α → β) (l : List α)
    (h : ∀ b a, a ∈ l → f b a = g b a) : ∀ b, l.foldl f b = l.foldl g b := by
  induction l with
  | nil => intro b; rfl
  | cons a l ih =>
    intro b
    rw [List.foldl_cons, List.foldl_cons, h b a (List.mem_cons_self a l)]
    exact ih (fun b x hx => h b x (List.mem_cons_of_mem a hx)) (g b a)

/-- C4: for `w ≥ 1` and a row whose filter byte is 1, `applyFilter`, whose loop starts at
row offset 5, produces exactly the buffer obtained by applying
`recon[i] = (filt[i] + left(i)) mod 256` at every offset `i` from 1 to `4 * w`, with
`left(i)` the reconstructed byte at offset `i - 4` and 0 for `i < 5`: skipping offsets 1..4
equals applying Sub from the first pixel with an implicit left neighbour of 0. -/
theorem applyFilter_sub_eq_subFromFirstPixel (d : List Nat) (y w : Nat)
    (hw : 1 ≤ w) (hlen : (y + 1) * (w * 4 + 1) ≤ d.length) (hb : IsBytes d)
    (hf : byteAt d (y * (w * 4 + 1)) = 1) :
    applyFilter d y w = subFromFirstPixel d y w ∧
    ∀ i, 1 ≤ i → i ≤ w * 4 →
      byteAt (applyFilter d y w) (y * (w * 4 + 1) + i)
        = (byteAt d (y * (w * 4 + 1) + i) + leftAt (applyFilter d y w) w y i) % 256 := by
  constructor
  · rw [applyFilter_sub d y w hf]
    unfold subFromFirstPixel
    have hsplit : List.range' 1 (w * 4)
        = List.range' 1 4 ++ List.range' 5 (w * 4 + 1 - 5) := by
      have := List.range'_append 1 4 (w * 4 + 1 - 5) 1
      rw [this]
      congr 1
      omega
    rw [hsplit, List.foldl_append]
    have hfirst : (List.range' 1 4).foldl
        (fun d i => addTo d (y * (w * 4 + 1) + i)
          (if i < 5 then 0 else byteAt d (y * (w * 4 + 1) + i - 4))) d = d := by
      simp [List.range', addTo_zero_of_isBytes hb]
    rw [hfirst]
    apply foldl_congr_mem
    intro b i hi
    rw [List.mem_range'] at hi
    obtain ⟨k, _, rfl⟩ := hi
    simp [subStep]
  · intro i h1 h2
    have := (applyFilter_row d y w hlen hb).2.2.2 i h1 h2
    rw [hf] at this
    exact this

/-- Witness for C4: a Sub-filtered row of two pixels. -/
theorem applyFilter_sub_eq_subFromFirstPixel_witness :
    (1 ≤ 2 ∧ (0 + 1) * (2 * 4 + 1) ≤ [1, 10, 20, 30, 40, 250, 251, 252, 253].length ∧
      IsBytes [1, 10, 20, 30, 40, 250, 251, 252, 253] ∧
      byteAt [1, 10, 20, 30, 40, 250, 251, 252, 253] (0 * (2 * 4 + 1)) = 1) ∧
    applyFilter [1, 10, 20, 30, 40, 250, 251, 252, 253] 0 2
      = subFromFirstPixel [1, 10, 20, 30, 40, 250, 251, 252, 253] 0 2 :=
  ⟨by decide,
    (applyFilter_sub_eq_subFromFirstPixel [1, 10, 20, 30, 40, 250, 251, 252, 253] 0 2
      (by decide) (by decide) (by decide) (by decide)).1⟩

/-! ## The Average filter -/

/-- C5: for a row with filter byte 3 and every offset `i` in `1..4 * w`, `applyFilter` sets
the byte to `(filt[i] + floor ((up(i) + left(i)) / 2)) mod 256`, the sum `up(i) + left(i)`
being an exact integer in `0..510` that is not reduced modulo 256 before halving; `up(i)` is
the byte of the row above, which the call leaves alone. -/
theorem applyFilter_average_exact_sum (d : List Nat) (y w : Nat)
    (hlen : (y + 1) * (w * 4 + 1) ≤ d.length) (hb : IsBytes d)
    (hf : byteAt d (y * (w * 4 + 1)) = 3) (i : Nat) (hi1 : 1 ≤ i) (hi2 : i ≤ w * 4) :
    byteAt (applyFilter d y w) (y * (w * 4 + 1) + i)
      = (byteAt d (y * (w * 4 + 1) + i)
          + (upAt (applyFilter d y w) w y i + leftAt (applyFilter d y w) w y i) / 2) % 256 ∧
    upAt (applyFilter d y w) w y i + leftAt (applyFilter d y w) w y i ≤ 510 ∧
    upAt (applyFilter d y w) w y i = upAt d w y i := by
  obtain ⟨_, r2, r3, r4⟩ := applyFilter_row d y w hlen hb
  refine ⟨?_, ?_, ?_⟩
  · have := r4 i hi1 hi2
    rw [hf] at this
    exact this
  · have h1 := upAt_lt r2 w y i
    have h2 := leftAt_lt r2 w y i
    omega
  · unfold upAt
    split
    · rfl
    · next hy =>
      have := row_pred y w hy
      exact r3 _ (Or.inl (by omega))

/-- Witness for C5: with `up = left = 255` the Average filter adds 255 (and not 127) to a
filtered byte 0. -/
theorem applyFilter_average_exact_sum_witness :
    ((1 + 1) * (2 * 4 + 1) ≤ sampleAverage.length ∧ IsBytes sampleAverage ∧
      byteAt sampleAverage (1 * (2 * 4 + 1)) = 3) ∧
    (byteAt (applyFilter sampleAverage 1 2) (1 * (2 * 4 + 1) + 5)
      = (byteAt sampleAverage (1 * (2 * 4 + 1) + 5)
          + (upAt (applyFilter sampleAverage 1 2) 2 1 5
              + leftAt (applyFilter sampleAverage 1 2) 2 1 5) / 2) % 256) ∧
    upAt (applyFilter sampleAverage 1 2) 2 1 5 = 255 ∧
    leftAt (applyFilter sampleAverage 1 2) 2 1 5 = 255 ∧
    byteAt sampleAverage (1 * (2 * 4 + 1) + 5) = 0 ∧
    byteAt (applyFilter sampleAverage 1 2) (1 * (2 * 4 + 1) + 5) = 255 :=
  ⟨by decide,
    (applyFilter_average_exact_sum sampleAverage 1 2 (by decide) (by decide) (by decide) 5
      (by decide) (by decide)).1,
    by decide, by decide, by decide, by decide⟩

/-! ## Filter-byte removal -/

theorem removeFilterBytesLoop_data (w : Nat) :
    ∀ (xs rest : List Nat) (rc : Nat) (out : List Nat), rc + xs.length ≤ w * 4 →
      removeFilterBytesLoop w (xs ++ rest) rc out
        = removeFilterBytesLoop w rest (rc + xs.length) (out ++ xs) := by
  intro xs
  induction xs with
  | nil => intro rest rc out _; simp
  | cons b xs ih =>
    intro rest rc out h
    simp only [List.length_cons] at h
    rw [List.cons_append, removeFilterBytesLoop, if_neg (by omega), ih rest _ _ (by omega)]
    simp only [List.length_cons, List.append_assoc, List.singleton_append]
    congr 1
    omega

theorem removeFilterBytesLoop_filter (w : Nat) (f : Nat) (rest out : List Nat) :
    removeFilterBytesLoop w (f :: rest) (w * 4) out = removeFilterBytesLoop w rest 0 out := by
  rw [removeFilterBytesLoop, if_pos rfl]

theorem removeFilterBytesLoop_records (w : Nat) :
    ∀ (h : Nat) (d out : List Nat), d.length = h * (w * 4 + 1) →
      removeFilterBytesLoop w d (w * 4) out = out ++ stripRows w h d := by
  intro h
  induction h with
  | zero =>
    intro d out hd
    have : d = [] := List.eq_nil_of_length_eq_zero (by omega)
    subst this
    simp [removeFilterBytesLoop, stripRows]
  | succ h ih =>
    intro d out hd
    have hs : (h + 1) * (w * 4 + 1) = h * (w * 4 + 1) + (w * 4 + 1) := by ring
    cases d with
    | nil => simp at hd
    | cons f t =>
      simp only [List.length_cons] at hd
      rw [removeFilterBytesLoop_filter, stripRows]
      have ht : t = t.take (w * 4) ++ t.drop (w * 4) := (List.take_append_drop _ _).symm
      have hlt : (t.take (w * 4)).length = w * 4 := by
        rw [List.length_take]; omega
      conv_lhs => rw [ht]
      rw [removeFilterBytesLoop_data w _ _ 0 out (by omega), hlt, Nat.zero_add,
        ih _ _ (by rw [List.length_drop]; omega)]
      simp [List.append_assoc]

theorem removeFilterBytes_eq_stripRows (w h : Nat) (d : List Nat)
    (hd : d.length = h * (w * 4 + 1)) : removeFilterBytes w d = stripRows w h d := by
  cases d with
  | nil =>
    cases h with
    | zero => rfl
    | succ h =>
      simp at hd
  | cons f t =>
    have := removeFilterBytesLoop_records w h (f :: t) [] hd
    rw [removeFilterBytesLoop_filter] at this
    simpa [removeFilterBytes] using this

theorem length_stripRows (w : Nat) :
    ∀ (h : Nat) (d : List Nat), d.length = h * (w * 4 + 1) →
      (stripRows w h d).length = h * (w * 4) := by
  intro h
  induction h with
  | zero => intro d _; simp [stripRows]
  | succ h ih =>
    intro d hd
    have hs : (h + 1) * (w * 4 + 1) = h * (w * 4 + 1) + (w * 4 + 1) := by ring
    have hs2 : (h + 1) * (w * 4) = h * (w * 4) + w * 4 := by ring
    rw [stripRows, List.length_append, ih _ (by rw [List.length_drop]; omega),
      List.length_take, List.length_drop]
    omega

theorem byteAt_stripRows (w : Nat) :
    ∀ (h : Nat) (d : List Nat) (y j : Nat), d.length = h * (w * 4 + 1) → y < h → j < w * 4 →
      byteAt (stripRows w h d) (y * (w * 4) + j) = byteAt d (y * (w * 4 + 1) + 1 + j) := by
  intro h
  induction h with
  | zero => intro d y j _ hy; omega
  | succ h ih =>
    intro d y j hd hy hj
    have hs : (h + 1) * (w * 4 + 1) = h * (w * 4 + 1) + (w * 4 + 1) := by ring
    have hlt : ((d.drop 1).take (w * 4)).length = w * 4 := by
      rw [List.length_take, List.length_drop]; omega
    rw [stripRows, byteAt_eq, List.getElem?_append, hlt]
    cases y with
    | zero =>
      rw [if_pos (by omega), List.getElem?_take, if_pos (by omega), List.getElem?_drop,
        byteAt_eq]
      congr 2
      omega
    | succ y =>
      have hy1 : (y + 1) * (w * 4) = y * (w * 4) + w * 4 := by ring
      have hy2 : (y + 1) * (w * 4 + 1) = y * (w * 4 + 1) + (w * 4 + 1) := by ring
      rw [if_neg (by omega), ← byteAt_eq]
      have e : (y + 1) * (w * 4) + j - w * 4 = y * (w * 4) + j := by omega
      rw [e, ih _ y j (by rw [List.length_drop]; omega) (by omega) hj, byteAt_eq,
        List.getElem?_drop, byteAt_eq]
      congr 2
      omega

/-- C6: for every `w ≥ 0`, `h ≥ 0` and every buffer `d` of length `h * (4 * w + 1)`, the
pixel buffer built by the filter-byte removal loop of `loadPNG` has length `h * w * 4` and
satisfies `out[y * 4w + j] = d[y * (4w + 1) + 1 + j]` for every `y < h` and `j < 4w`: no
data byte is dropped, no filter byte is kept, the order is preserved. -/
theorem removeFilterBytes_strips_exactly_filter_bytes (w h : Nat) (d : List Nat)
    (hd : d.length = h * (4 * w + 1)) :
    (removeFilterBytes w d).length = h * w * 4 ∧
    ∀ y j, y < h → j < 4 * w →
      byteAt (removeFilterBytes w d) (y * (4 * w) + j) = byteAt d (y * (4 * w + 1) + 1 + j) := by
  have e : 4 * w = w * 4 := by omega
  rw [e] at hd ⊢
  rw [removeFilterBytes_eq_stripRows w h d hd]
  refine ⟨by rw [length_stripRows w h d hd]; ring, ?_⟩
  intro y j hy hj
  exact byteAt_stripRows w h d y j hd hy hj

/-- Witness for C6: two records of a 1-pixel-wide image. -/
theorem removeFilterBytes_strips_exactly_filter_bytes_witness :
    [1, 10, 20, 30, 40, 4, 11, 22, 33, 44].length = 2 * (4 * 1 + 1) ∧
    (removeFilterBytes 1 [1, 10, 20, 30, 40, 4, 11, 22, 33, 44]).length = 2 * 1 * 4 ∧
    byteAt (removeFilterBytes 1 [1, 10, 20, 30, 40, 4, 11, 22, 33, 44]) (1 * (4 * 1) + 2)
      = byteAt [1, 10, 20, 30, 40, 4, 11, 22, 33, 44] (1 * (4 * 1 + 1) + 1 + 2) :=
  ⟨by decide,
    (removeFilterBytes_strips_exactly_filter_bytes 1 2 [1, 10, 20, 30, 40, 4, 11, 22, 33, 44]
      (by decide)).1,
    (removeFilterBytes_strips_exactly_filter_bytes 1 2 [1, 10, 20, 30, 40, 4, 11, 22, 33, 44]
      (by decide)).2 1 2 (by decide) (by decide)⟩

/-! ## Vertical flip -/

theorem length_foldl_of_length_step (f : List Nat → Nat → List Nat)
    (hf : ∀ d i, (f d i).length = d.length) :
    ∀ (l : List Nat) (d : List Nat), (l.foldl f d).length = d.length := by
  intro l
  induction l with
  | nil => intro d; rfl
  | cons a l ih => intro d; rw [List.foldl_cons, ih, hf]

theorem length_applyFilter (d : List Nat) (y w : Nat) : (applyFilter d y w).length = d.length := by
  unfold applyFilter
  simp only []
  split
  · rfl
  · exact length_foldl_of_length_step _ (fun d i => length_addTo _ _ _) _ _
  · split
    · rfl
    · exact length_foldl_of_length_step _ (fun d i => length_addTo _ _ _) _ _
  · exact length_foldl_of_length_step _ (fun d i => length_addTo _ _ _) _ _
  · exact length_foldl_of_length_step _ (fun d i => length_addTo _ _ _) _ _
  · rfl

theorem length_defilterRows (d : List Nat) (h w : Nat) :
    (defilterRows d h w).length = d.length :=
  length_foldl_of_length_step _ (fun d i => length_applyFilter d i w) _ _

theorem eq_of_byteAt_eq {l₁ l₂ : List Nat} (hl : l₁.length = l₂.length)
    (h : ∀ k, k < l₁.length → byteAt l₁ k = byteAt l₂ k) : l₁ = l₂ := by
  apply List.ext_getElem?
  intro k
  by_cases hk : k < l₁.length
  · have := h k hk
    rw [byteAt_eq, byteAt_eq, List.getElem?_eq_getElem hk,
      List.getElem?_eq_getElem (hl ▸ hk)] at this
    rw [List.getElem?_eq_getElem hk, List.getElem?_eq_getElem (hl ▸ hk)]
    simpa using this
  · rw [List.getElem?_eq_none (by omega), List.getElem?_eq_none (by omega)]

theorem length_slice (v : List Nat) (a b : Nat) (hb : b ≤ v.length) :
    (slice v a b).length = b - a := by
  unfold slice
  rw [List.length_take, List.length_drop]
  omega

theorem byteAt_slice (v : List Nat) (a b j : Nat) (hj : j < b - a) :
    byteAt (slice v a b) j = byteAt v (a + j) := by
  unfold slice
  rw [byteAt_eq, List.getElem?_take, if_pos hj, List.getElem?_drop, byteAt_eq]

theorem flipLoop_acc (p : List Nat) (w : Nat) :
    ∀ (n : Nat) (acc : List Nat), flipLoop p w n acc = acc ++ flipLoop p w n [] := by
  intro n
  induction n with
  | zero => intro acc; simp [flipLoop]
  | succ n ih =>
    intro acc
    rw [flipLoop, ih, flipLoop, ih ([] ++ _)]
    simp [List.append_assoc]

theorem flipLoop_succ (p : List Nat) (w n : Nat) :
    flipLoop p w (n + 1) []
      = slice p (n * (w * 4)) ((n + 1) * (w * 4)) ++ flipLoop p w n [] := by
  rw [flipLoop, flipLoop_acc, List.nil_append, Nat.mul_assoc, Nat.mul_assoc]

theorem length_flipLoop (p : List Nat) (w : Nat) :
    ∀ n, n * (w * 4) ≤ p.length → (flipLoop p w n []).length = n * (w * 4) := by
  intro n
  induction n with
  | zero => intro _; simp [flipLoop]
  | succ n ih =>
    intro h
    have hs : (n + 1) * (w * 4) = n * (w * 4) + w * 4 := by ring
    rw [flipLoop_succ, List.length_append, length_slice _ _ _ h, ih (by omega)]
    omega

theorem byteAt_flipLoop (p : List Nat) (w : Nat) :
    ∀ n r j, n * (w * 4) ≤ p.length → r < n → j < w * 4 →
      byteAt (flipLoop p w n []) (r * (w * 4) + j) = byteAt p ((n - 1 - r) * (w * 4) + j) := by
  intro n
  induction n with
  | zero => intro r j _ hr; omega
  | succ n ih =>
    intro r j h hr hj
    have hs : (n + 1) * (w * 4) = n * (w * 4) + w * 4 := by ring
    rw [flipLoop_succ, byteAt_eq, List.getElem?_append, length_slice _ _ _ h]
    cases r with
    | zero =>
      rw [if_pos (by omega), ← byteAt_eq, byteAt_slice _ _ _ _ (by omega)]
      simp
    | succ r =>
      have hr1 : (r + 1) * (w * 4) = r * (w * 4) + w * 4 := by ring
      rw [if_neg (by omega), ← byteAt_eq]
      have e : (r + 1) * (w * 4) + j - ((n + 1) * (w * 4) - n * (w * 4)) = r * (w * 4) + j := by
        omega
      have e2 : n + 1 - 1 - (r + 1) = n - 1 - r := by omega
      rw [e, ih r j (by omega) (by omega) hj, e2]

theorem flipRows_flipRows (p : List Nat) (h w : Nat) (hp : p.length = h * (w * 4)) :
    flipRows (flipRows p h w) h w = p := by
  unfold flipRows
  have hl1 : (flipLoop p w h []).length = h * (w * 4) := length_flipLoop p w h (by omega)
  have hl2 : (flipLoop (flipLoop p w h []) w h []).length = h * (w * 4) :=
    length_flipLoop _ w h (by omega)
  apply eq_of_byteAt_eq (by omega)
  intro k hk
  rw [hl2] at hk
  rcases Nat.eq_zero_or_pos (w * 4) with h0 | hpos
  · rw [h0] at hk; omega
  · obtain ⟨q, j, hq, hj, rfl⟩ : ∃ q j, q < h ∧ j < w * 4 ∧ k = q * (w * 4) + j :=
      ⟨k / (w * 4), k % (w * 4), (Nat.div_lt_iff_lt_mul hpos).mpr hk, Nat.mod_lt k hpos, by
        rw [Nat.mul_comm]; exact (Nat.div_add_mod k (w * 4)).symm⟩
    have e : h - 1 - (h - 1 - q) = q := by omega
    rw [byteAt_flipLoop _ w h q j (by omega) hq hj,
      byteAt_flipLoop p w h (h - 1 - q) j (by omega) (by omega) hj, e]

/-- C7: for a decompressed stream of length `h * (4w + 1)`, the buffer returned by
`loadPNG` with the flip flag on has the same length `h * w * 4` as the buffer returned with
the flag off, and `flipped[r * 4w + j] = unflipped[(h - 1 - r) * 4w + j]` for every row
`r < h` and every `j < 4w`; applying the row reversal to the flipped buffer gives back the
unflipped buffer. -/
theorem loadPNG_flip_reverses_rows (w h : Nat) (d : List Nat)
    (hd : d.length = h * (4 * w + 1)) :
    (loadPNGPixels true w h d).length = h * w * 4 ∧
    (loadPNGPixels false w h d).length = h * w * 4 ∧
    (∀ r j, r < h → j < 4 * w →
      byteAt (loadPNGPixels true w h d) (r * (4 * w) + j)
        = byteAt (loadPNGPixels false w h d) ((h - 1 - r) * (4 * w) + j)) ∧
    flipRows (loadPNGPixels true w h d) h w = loadPNGPixels false w h d := by
  have e : 4 * w = w * 4 := by omega
  rw [e] at hd ⊢
  have hdl : (defilterRows d h w).length = h * (w * 4 + 1) := by
    rw [length_defilterRows, hd]
  have hpl : (removeFilterBytes w (defilterRows d h w)).length = h * (w * 4) := by
    rw [removeFilterBytes_eq_stripRows w h _ hdl, length_stripRows w h _ hdl]
  have ht : loadPNGPixels true w h d
      = flipRows (removeFilterBytes w (defilterRows d h w)) h w := by
    simp [loadPNGPixels]
  have hf : loadPNGPixels false w h d = removeFilterBytes w (defilterRows d h w) := by
    simp [loadPNGPixels]
  rw [ht, hf]
  generalize removeFilterBytes w (defilterRows d h w) = p at *
  refine ⟨?_, ?_, ?_, flipRows_flipRows p h w hpl⟩
  · unfold flipRows
    rw [length_flipLoop p w h (by omega)]; ring
  · rw [hpl]; ring
  · intro r j hr hj
    exact byteAt_flipLoop p w h r j (by omega) hr hj

/-- Witness for C7: a 1-pixel-wide, 3-row stream (filters None, Up, Sub); the bytes of the
first flipped row are those of the last unflipped row. -/
theorem loadPNG_flip_reverses_rows_witness :
    [0, 1, 2, 3, 4, 2, 10, 10, 10, 10, 1, 7, 8, 9, 6].length = 3 * (4 * 1 + 1) ∧
    byteAt (loadPNGPixels true 1 3 [0, 1, 2, 3, 4, 2, 10, 10, 10, 10, 1, 7, 8, 9, 6])
        (0 * (4 * 1) + 2)
      = byteAt (loadPNGPixels false 1 3 [0, 1, 2, 3, 4, 2, 10, 10, 10, 10, 1, 7, 8, 9, 6])
        ((3 - 1 - 0) * (4 * 1) + 2) :=
  ⟨by decide,
    (loadPNG_flip_reverses_rows 1 3 [0, 1, 2, 3, 4, 2, 10, 10, 10, 10, 1, 7, 8, 9, 6]
      (by decide)).2.2.1 0 2 (by decide) (by decide)⟩

/-! ## BMP: streams and copies -/

theorem byteAt_take (l : List Nat) (n k : Nat) (hk : k < n) :
    byteAt (l.take n) k = byteAt l k := by
  rw [byteAt_eq, List.getElem?_take, if_pos hk, byteAt_eq]

theorem byteAt_drop (l : List Nat) (a k : Nat) : byteAt (l.drop a) k = byteAt l (a + k) := by
  rw [byteAt_eq, List.getElem?_drop, byteAt_eq]

theorem read_of_le (s : IFStream) (n : Nat) (hg : s.good = true)
    (hn : s.pos + n ≤ s.data.length) :
    s.read n = ((s.data.drop s.pos).take n,
      { data := s.data, pos := s.pos + n, good := true }) := by
  have hl : ((s.data.drop s.pos).take n).length = n := by
    rw [List.length_take, List.length_drop]; omega
  simp [IFStream.read, hg, hl]

theorem length_copyInto (dst : List Nat) (off : Nat) (src : List Nat)
    (h : off + src.length ≤ dst.length) : (copyInto dst off src).length = dst.length := by
  simp only [copyInto, List.length_append, List.length_take, List.length_drop]
  omega

theorem byteAt_copyInto_lt (dst : List Nat) (off : Nat) (src : List Nat) (k : Nat)
    (hoff : off ≤ dst.length) (hk : k < off) :
    byteAt (copyInto dst off src) k = byteAt dst k := by
  have hl : (dst.take off).length = off := by rw [List.length_take]; omega
  rw [copyInto, List.append_assoc, byteAt_eq, List.getElem?_append, hl, if_pos hk,
    ← byteAt_eq, byteAt_take _ _ _ hk]

theorem byteAt_copyInto_mid (dst : List Nat) (off : Nat) (src : List Nat) (k : Nat)
    (hoff : off ≤ dst.length) (hk1 : off ≤ k) (hk2 : k < off + src.length) :
    byteAt (copyInto dst off src) k = byteAt src (k - off) := by
  have hl : (dst.take off).length = off := by rw [List.length_take]; omega
  rw [copyInto, List.append_assoc, byteAt_eq, List.getElem?_append, hl, if_neg (by omega),
    List.getElem?_append, if_pos (by omega), ← byteAt_eq]

theorem copyInto_zero_full (dst src : List Nat) (h : src.length = dst.length) :
    copyInto dst 0 src = src := by
  simp [copyInto, h]

theorem le32_congr (a b : List Nat) (i j : Nat)
    (h : ∀ k, k < 4 → byteAt a (i + k) = byteAt b (j + k)) : le32 a i = le32 b j := by
  unfold le32
  have h0 := h 0 (by omega)
  rw [Nat.add_zero, Nat.add_zero] at h0
  rw [h0, h 1 (by omega), h 2 (by omega), h 3 (by omega)]

theorem le16_congr (a b : List Nat) (i j : Nat)
    (h : ∀ k, k < 2 → byteAt a (i + k) = byteAt b (j + k)) : le16 a i = le16 b j := by
  unfold le16
  have h0 := h 0 (by omega)
  rw [Nat.add_zero, Nat.add_zero] at h0
  rw [h0, h 1 (by omega)]

theorem toInt32_of_lt (x : Nat) (h : x < 2 ^ 31) : toInt32 x = (x : Int) := by
  unfold toInt32
  rw [if_pos h]

/-- For a file holding both headers, `loadBMP` is positioned at the declared data offset
with a good stream, and the fields it uses are the little-endian values at bytes 10, 18, 22
and 28 of the file. -/
theorem loadBMPRead_of_headers (file : List Nat) (h54 : 54 ≤ file.length) :
    loadBMPRead file =
      loadBMPPixels (IFStream.mk file (le32 file 10) true) (toInt32 (le32 file 18))
        (toInt32 (le32 file 22)) (le16 file 28) := by
  have hr1 : (IFStream.mk file 0 true).read 14
      = (file.take 14, IFStream.mk file 14 true) := by
    rw [read_of_le _ _ rfl (by simp; omega)]
    simp
  have hr2 : (IFStream.mk file 14 true).read 40
      = ((file.drop 14).take 40, IFStream.mk file 54 true) := by
    rw [read_of_le _ _ rfl (by simp; omega)]
  have hc1 : copyInto defaultBMPHeader 0 (file.take 14) = file.take 14 :=
    copyInto_zero_full _ _ (by simp [defaultBMPHeader]; omega)
  have hc2 : copyInto defaultBMPInfoHeader 0 ((file.drop 14).take 40) = (file.drop 14).take 40 :=
    copyInto_zero_full _ _ (by simp [defaultBMPInfoHeader]; omega)
  have e10 : le32 (file.take 14) 10 = le32 file 10 :=
    le32_congr _ _ _ _ (fun k hk => byteAt_take _ _ _ (by omega))
  have e18 : le32 ((file.drop 14).take 40) 4 = le32 file 18 :=
    le32_congr _ _ _ _ (fun k hk => by
      rw [byteAt_take _ _ _ (by omega), byteAt_drop]; congr 1; omega)
  have e22 : le32 ((file.drop 14).take 40) 8 = le32 file 22 :=
    le32_congr _ _ _ _ (fun k hk => by
      rw [byteAt_take _ _ _ (by omega), byteAt_drop]; congr 1; omega)
  have e28 : le16 ((file.drop 14).take 40) 14 = le16 file 28 :=
    le16_congr _ _ _ _ (fun k hk => by
      rw [byteAt_take _ _ _ (by omega), byteAt_drop]; congr 1; omega)
  unfold loadBMPRead
  simp only [hr1, hr2, hc1, hc2, e10, e18, e22, e28, IFStream.seekg, if_true]

/-! ## BMP: stride and row loop -/

theorem makeStrideAlignedLoop_done (a fuel n : Nat) (h : n % a = 0) :
    makeStrideAlignedLoop a fuel n = some n := by
  cases fuel with
  | zero => rw [makeStrideAlignedLoop, if_neg (not_not.mpr h)]
  | succ f => rw [makeStrideAlignedLoop, if_neg (not_not.mpr h)]

theorem makeStrideAlignedLoop_step (a fuel n : Nat) (h : n % a ≠ 0) (hn : n + 1 < 2 ^ 32) :
    makeStrideAlignedLoop a (fuel + 1) n = makeStrideAlignedLoop a fuel (n + 1) := by
  rw [makeStrideAlignedLoop, if_pos h, Nat.mod_eq_of_lt hn]

theorem makeStrideAligned_four (u : Nat) (hu : u + 3 < 2 ^ 32) :
    makeStrideAligned 4 u = some ((u + 3) / 4 * 4) := by
  have h4 : makeStrideAligned 4 u = makeStrideAlignedLoop 4 4 u := by
    simp [makeStrideAligned]
  rw [h4]
  have hc : u % 4 = 0 ∨ u % 4 = 1 ∨ u % 4 = 2 ∨ u % 4 = 3 := by omega
  rcases hc with h | h | h | h
  · have r0 : (u + 3) / 4 * 4 = u := by omega
    rw [r0, makeStrideAlignedLoop_done 4 4 u h]
  · have r0 : (u + 3) / 4 * 4 = u + 1 + 1 + 1 := by omega
    rw [r0, makeStrideAlignedLoop_step 4 3 u (by omega) (by omega),
      makeStrideAlignedLoop_step 4 2 (u + 1) (by omega) (by omega),
      makeStrideAlignedLoop_step 4 1 (u + 1 + 1) (by omega) (by omega),
      makeStrideAlignedLoop_done 4 1 (u + 1 + 1 + 1) (by omega)]
  · have r0 : (u + 3) / 4 * 4 = u + 1 + 1 := by omega
    rw [r0, makeStrideAlignedLoop_step 4 3 u (by omega) (by omega),
      makeStrideAlignedLoop_step 4 2 (u + 1) (by omega) (by omega),
      makeStrideAlignedLoop_done 4 2 (u + 1 + 1) (by omega)]
  · have r0 : (u + 3) / 4 * 4 = u + 1 := by omega
    rw [r0, makeStrideAlignedLoop_step 4 3 u (by omega) (by omega),
      makeStrideAlignedLoop_done 4 3 (u + 1) (by omega)]

/-- The least multiple of 4 that is at least `u` is `(u + 3) / 4 * 4`. -/
theorem least_multiple_of_four (u s : Nat)
    (hs : 4 ∣ s ∧ u ≤ s ∧ ∀ m, 4 ∣ m → u ≤ m → s ≤ m) : s = (u + 3) / 4 * 4 := by
  obtain ⟨⟨c, hc⟩, h2, h3⟩ := hs
  have := h3 ((u + 3) / 4 * 4) ⟨(u + 3) / 4, by ring⟩ (by omega)
  omega

/-- Invariant of the row loop of `loadBMP`: after `n` rows the stream is good and
positioned after `n` padded rows, and the first `n` rows of `pixel_data` are the first
`u` bytes of the padded rows of the file. -/
theorem readRows_spec (file : List Nat) (off u s size : Nat) (hus : u ≤ s) :
    ∀ n (pd0 : List Nat), pd0.length = size → n * u ≤ size → off + n * s ≤ file.length →
      n * u < 2 ^ 32 →
      ((List.range n).foldl (readRowStep u (s - u)) (pd0, IFStream.mk file off true)).2
          = IFStream.mk file (off + n * s) true ∧
      ((List.range n).foldl (readRowStep u (s - u))
          (pd0, IFStream.mk file off true)).1.length = size ∧
      ∀ r j, r < n → j < u →
        byteAt ((List.range n).foldl (readRowStep u (s - u))
          (pd0, IFStream.mk file off true)).1 (r * u + j) = byteAt file (off + r * s + j) := by
  intro n
  induction n with
  | zero =>
    intro pd0 h0 _ _ _
    refine ⟨by simp, by simpa using h0, ?_⟩
    intro r j hr; omega
  | succ n ih =>
    intro pd0 h0 h1 h2 h3
    have hs1 : (n + 1) * u = n * u + u := by ring
    have hs2 : (n + 1) * s = n * s + s := by ring
    obtain ⟨i1, i2, i3⟩ := ih pd0 h0 (by omega) (by omega) (by omega)
    rw [List.range_succ, List.foldl_append]
    simp only [List.foldl_cons, List.foldl_nil]
    generalize (List.range n).foldl (readRowStep u (s - u)) (pd0, IFStream.mk file off true)
      = st at *
    obtain ⟨pd, strm⟩ := st
    simp only at i1 i2 i3
    subst i1
    have hr1 : (IFStream.mk file (off + n * s) true).read u
        = ((file.drop (off + n * s)).take u, IFStream.mk file (off + n * s + u) true) :=
      read_of_le _ _ rfl (by simp; omega)
    have hr2 : (IFStream.mk file (off + n * s + u) true).read (s - u)
        = ((file.drop (off + n * s + u)).take (s - u),
            IFStream.mk file (off + n * s + u + (s - u)) true) :=
      read_of_le _ _ rfl (by simp; omega)
    have hm : (u * n) % 2 ^ 32 = n * u := by
      rw [Nat.mul_comm]; exact Nat.mod_eq_of_lt (by omega)
    have hl : ((file.drop (off + n * s)).take u).length = u := by
      rw [List.length_take, List.length_drop]; omega
    simp only [readRowStep, hr1, hr2, hm]
    refine ⟨?_, ?_, ?_⟩
    · congr 1; omega
    · rw [length_copyInto _ _ _ (by omega)]; exact i2
    · intro r j hr hj
      rcases Nat.lt_or_ge r n with hlt | hge
      · have hru : (r + 1) * u ≤ n * u := Nat.mul_le_mul_right _ hlt
        have hru1 : (r + 1) * u = r * u + u := by ring
        rw [byteAt_copyInto_lt _ _ _ _ (by omega) (by omega)]
        exact i3 r j hlt hj
      · have hrn : r = n := by omega
        subst hrn
        rw [byteAt_copyInto_mid _ _ _ _ (by omega) (by omega) (by omega),
          byteAt_take _ _ _ (by omega), byteAt_drop]
        congr 1
        omega

/-! ## BMP: channel swap -/

theorem byteAt_set_self (l : List Nat) (i v : Nat) (h : i < l.length) :
    byteAt (l.set i v) i = v := by
  simp [byteAt_eq, List.getElem?_set, h]

theorem byteAt_set_of_ne (l : List Nat) (i v k : Nat) (h : k ≠ i) :
    byteAt (l.set i v) k = byteAt l k := by
  have h' : ¬ i = k := fun e => h e.symm
  simp [byteAt_eq, List.getElem?_set, h']

theorem getElem?_eq_some_byteAt (l : List Nat) (i : Nat) (h : i < l.length) :
    l[i]? = some (byteAt l i) := by
  rw [byteAt_eq, List.getElem?_eq_getElem h]
  rfl

/-- One iteration of the conversion loop at an index whose pixel lies inside the vector. -/
theorem swapLoop_step (s fuel i : Nat) (pd : List Nat) (h : i + 2 < pd.length) :
    swapLoop s (fuel + 1) i pd
      = swapLoop s fuel (i + s) ((pd.set i (byteAt pd (i + 2))).set (i + 2) (byteAt pd i)) := by
  rw [swapLoop, if_pos (by omega), getElem?_eq_some_byteAt pd i (by omega),
    getElem?_eq_some_byteAt pd (i + 1) (by omega), getElem?_eq_some_byteAt pd (i + 2) h]

theorem swapLoop_exit (s fuel i : Nat) (pd : List Nat) (h : pd.length ≤ i) :
    swapLoop s (fuel + 1) i pd = some pd := by
  rw [swapLoop, if_neg (by omega)]

/-- The conversion loop on a vector of `n` pixels of `s ≥ 3` bytes, entered at pixel `k`:
it ends without leaving the vector, keeps the bytes before pixel `k`, and in every pixel from
`k` on exchanges bytes 0 and 2 and keeps the bytes at offsets 1 and 3 and above. -/
theorem swapLoop_spec (s n : Nat) (hs : 3 ≤ s) :
    ∀ (fuel k : Nat) (pd : List Nat), k ≤ n → pd.length = n * s → n - k < fuel →
      ∃ out, swapLoop s fuel (k * s) pd = some out ∧ out.length = pd.length ∧
        (∀ idx, idx < k * s → byteAt out idx = byteAt pd idx) ∧
        (∀ m, k ≤ m → m < n →
          byteAt out (m * s) = byteAt pd (m * s + 2) ∧
          byteAt out (m * s + 2) = byteAt pd (m * s) ∧
          ∀ c, c < s → c ≠ 0 → c ≠ 2 → byteAt out (m * s + c) = byteAt pd (m * s + c)) := by
  intro fuel
  induction fuel with
  | zero => intro k pd _ _ h; omega
  | succ fuel ih =>
    intro k pd hk hlen hfuel
    rcases Nat.lt_or_ge k n with hlt | hge
    · have hks : (k + 1) * s = k * s + s := by ring
      have hkn : (k + 1) * s ≤ n * s := Nat.mul_le_mul_right _ hlt
      rw [swapLoop_step s fuel (k * s) pd (by omega), ← hks]
      obtain ⟨out, h1, h2, h3, h4⟩ := ih (k + 1)
        ((pd.set (k * s) (byteAt pd (k * s + 2))).set (k * s + 2) (byteAt pd (k * s)))
        (by omega) (by simp [hlen]) (by omega)
      refine ⟨out, h1, by simpa using h2, ?_, ?_⟩
      · intro idx hidx
        rw [h3 idx (by omega), byteAt_set_of_ne _ _ _ _ (by omega),
          byteAt_set_of_ne _ _ _ _ (by omega)]
      · intro m hkm hmn
        rcases Nat.lt_or_ge k m with hkm' | hkm'
        · have hkm2 : (k + 1) * s ≤ m * s := Nat.mul_le_mul_right _ hkm'
          obtain ⟨a1, a2, a3⟩ := h4 m (by omega) hmn
          refine ⟨?_, ?_, ?_⟩
          · rw [a1, byteAt_set_of_ne _ _ _ _ (by omega), byteAt_set_of_ne _ _ _ _ (by omega)]
          · rw [a2, byteAt_set_of_ne _ _ _ _ (by omega), byteAt_set_of_ne _ _ _ _ (by omega)]
          · intro c hc c0 c2
            rw [a3 c hc c0 c2, byteAt_set_of_ne _ _ _ _ (by omega),
              byteAt_set_of_ne _ _ _ _ (by omega)]
        · have hmk : m = k := by omega
          subst hmk
          refine ⟨?_, ?_, ?_⟩
          · rw [h3 _ (by omega), byteAt_set_of_ne _ _ _ _ (by omega),
              byteAt_set_self _ _ _ (by omega)]
          · rw [h3 _ (by omega), byteAt_set_self _ _ _ (by simp; omega)]
          · intro c hc c0 c2
            rw [h3 _ (by omega), byteAt_set_of_ne _ _ _ _ (by omega),
              byteAt_set_of_ne _ _ _ _ (by omega)]
    · have hkn : n * s ≤ k * s := Nat.mul_le_mul_right _ hge
      rw [swapLoop_exit s fuel (k * s) pd (by omega)]
      refine ⟨pd, rfl, rfl, fun _ _ => rfl, ?_⟩
      intro m h1 h2; omega

/-- The whole conversion loop on a vector of `n` pixels of `s ≥ 3` bytes. -/
theorem swapChannels_spec (s n : Nat) (hs : 3 ≤ s) (pd : List Nat) (hlen : pd.length = n * s) :
    ∃ out, swapChannels s pd = some out ∧ out.length = pd.length ∧
      ∀ m, m < n →
        byteAt out (m * s) = byteAt pd (m * s + 2) ∧
        byteAt out (m * s + 2) = byteAt pd (m * s) ∧
        ∀ c, c < s → c ≠ 0 → c ≠ 2 → byteAt out (m * s + c) = byteAt pd (m * s + c) := by
  have hn : n ≤ n * s := Nat.le_mul_of_pos_right n (by omega)
  obtain ⟨out, h1, h2, _, h4⟩ := swapLoop_spec s n hs (pd.length + 1) 0 pd (by omega) hlen
    (by omega)
  rw [Nat.zero_mul] at h1
  exact ⟨out, h1, h2, fun m hm => h4 m (by omega) hm⟩

/-! ## BMP: the rows read by `loadBMP` -/

/-- For a file with both headers whose fields give a width `w ≥ 1`, a height `h ≥ 1` and
`8 * s` bits per pixel, with `w * h * 8 * s` in the range of `int`, and which holds `h`
padded rows from the declared offset on, the reading part of `loadBMP` succeeds and row `r`
of `pixel_data` is the first `w * s` bytes of the padded row `r` of the file.  Both branches
of the source are covered. -/
theorem loadBMPRead_rows (file : List Nat) (w h bpp off s : Nat) (h54 : 54 ≤ file.length)
    (hoff : le32 file 10 = off) (hwidth : le32 file 18 = w) (hheight : le32 file 22 = h)
    (hbits : le16 file 28 = bpp) (hbpp : bpp = 8 * s) (hs : 1 ≤ s)
    (hw : 1 ≤ w) (hh : 1 ≤ h) (hrange : w * h * bpp < 2 ^ 31)
    (hrows : off + h * ((w * s + 3) / 4 * 4) ≤ file.length) :
    ∃ pd, loadBMPRead file = some (pd, (w : Int), (h : Int), bpp) ∧
      pd.length = h * (w * s) ∧
      ∀ r j, r < h → j < w * s →
        byteAt pd (r * (w * s) + j) = byteAt file (off + r * ((w * s + 3) / 4 * 4) + j) := by
  subst hbpp
  have hws : 1 ≤ w * s := Nat.mul_pos hw hs
  have hN8 : w * h * (8 * s) = 8 * (h * (w * s)) := by ring
  have hU8 : w * (8 * s) = 8 * (w * s) := by ring
  have hUN : w * s ≤ h * (w * s) := Nat.le_mul_of_pos_left _ hh
  have hhN : h ≤ h * (w * s) := Nat.le_mul_of_pos_right _ hws
  have hwU : w ≤ w * s := Nat.le_mul_of_pos_right _ hs
  have hw31 : w < 2 ^ 31 := by omega
  have hh31 : h < 2 ^ 31 := by omega
  have hUS : w * s ≤ (w * s + 3) / 4 * 4 := by omega
  have hNS : h * (w * s) ≤ h * ((w * s + 3) / 4 * 4) := Nat.mul_le_mul_left _ hUS
  have hI1 : Int.tdiv ((w : Int) * (h : Int) * ((8 * s : Nat) : Int)) 8
      = ((h * (w * s) : Nat) : Int) := by
    have : (w : Int) * (h : Int) * ((8 * s : Nat) : Int) = 8 * ((h * (w * s) : Nat) : Int) := by
      push_cast; ring
    rw [this, Int.tdiv_eq_ediv (by omega) (by omega)]
    omega
  have hI2 : Int.tdiv ((w : Int) * ((8 * s : Nat) : Int)) 8 = ((w * s : Nat) : Int) := by
    have : (w : Int) * ((8 * s : Nat) : Int) = 8 * ((w * s : Nat) : Int) := by
      push_cast; ring
    rw [this, Int.tdiv_eq_ediv (by omega) (by omega)]
    omega
  have hI3 : Int.tmod (w : Int) 4 = ((w % 4 : Nat) : Int) := by
    rw [Int.tmod_eq_emod (by omega) (by omega)]; omega
  have hI4 : (((w * s : Nat) : Int) % 2 ^ 32).toNat = w * s := by omega
  have hR1 : InIntRange ((w : Int) * (h : Int)) := by
    have : (w : Int) * (h : Int) = ((w * h : Nat) : Int) := by push_cast; ring
    have hle : w * h ≤ w * h * (8 * s) := Nat.le_mul_of_pos_right _ (by omega)
    rw [this]; unfold InIntRange; omega
  have hR2 : InIntRange ((w : Int) * (h : Int) * ((8 * s : Nat) : Int)) := by
    have : (w : Int) * (h : Int) * ((8 * s : Nat) : Int) = ((w * h * (8 * s) : Nat) : Int) := by
      push_cast; ring
    rw [this]; unfold InIntRange; omega
  have hR3 : InIntRange ((w : Int) * ((8 * s : Nat) : Int)) := by
    have : (w : Int) * ((8 * s : Nat) : Int) = ((w * (8 * s) : Nat) : Int) := by
      push_cast; ring
    rw [this]; unfold InIntRange; omega
  rw [loadBMPRead_of_headers file h54, hoff, hwidth, hheight, hbits,
    toInt32_of_lt w hw31, toInt32_of_lt h hh31]
  unfold loadBMPPixels
  rw [if_neg (not_not.mpr ⟨hR1, hR2⟩)]
  simp only [hI1, hI2, hI3, hI4]
  rw [if_neg (by omega)]
  simp only [Int.toNat_ofNat, List.length_replicate]
  by_cases h4 : w % 4 = 0
  · rw [if_pos (by rw [h4]; rfl)]
    have hU4 : (w * s) % 4 = 0 := by
      rw [Nat.mul_mod, h4]; simp
    have hSU : (w * s + 3) / 4 * 4 = w * s := by omega
    rw [hSU] at hrows ⊢
    rw [read_of_le _ _ rfl (by simp; omega)]
    have hl : ((file.drop off).take (h * (w * s))).length = h * (w * s) := by
      rw [List.length_take, List.length_drop]; omega
    simp only []
    rw [copyInto_zero_full _ _ (by rw [hl, List.length_replicate])]
    refine ⟨_, rfl, hl, ?_⟩
    intro r j hr hj
    have hr1 : (r + 1) * (w * s) ≤ h * (w * s) := Nat.mul_le_mul_right _ hr
    have hr2 : (r + 1) * (w * s) = r * (w * s) + w * s := by ring
    rw [byteAt_take _ _ _ (by omega), byteAt_drop]
    congr 1
    omega
  · rw [if_neg (by intro hc; apply h4; omega), if_neg (not_not.mpr hR3)]
    rw [makeStrideAligned_four (w * s) (by omega)]
    simp only []
    have hpad : ((w * s + 3) / 4 * 4 + 2 ^ 32 - w * s) % 2 ^ 32
        = (w * s + 3) / 4 * 4 - w * s := by omega
    rw [hpad]
    obtain ⟨_, r2, r3⟩ := readRows_spec file off (w * s) ((w * s + 3) / 4 * 4) (h * (w * s))
      hUS h (List.replicate (h * (w * s)) 0) (by simp) (Nat.le_refl _) hrows (by omega)
    exact ⟨_, rfl, r2, r3⟩

/-! ## Claims about `loadBMP` -/

theorem loadBMP_of_parts (file pd out : List Nat) (w h : Int) (bpp : Nat)
    (h1 : loadBMPRead file = some (pd, w, h, bpp))
    (h2 : swapChannels (pixelColourOffset bpp) pd = some out) :
    loadBMP file = some (out, w, h) := by
  simp [loadBMP, h1, h2]

/-- C9: for `bits_per_pixel` 24 or 32, with pixel size `s` 3 or 4, and a pixel buffer of
length `n * s`, the conversion loop of `loadBMP` ends without reading or writing an index
`≥ n * s` and returns a buffer of the same length in which, for every pixel `k < n`, byte
`k * s` is the old byte `k * s + 2`, byte `k * s + 2` is the old byte `k * s`, byte
`k * s + 1` is unchanged and, for `s = 4`, the alpha byte `k * s + 3` is unchanged. -/
theorem swapChannels_swaps_first_and_third (bpp s n : Nat) (pd : List Nat)
    (hbpp : bpp = 24 ∨ bpp = 32) (hs : s = bpp / 8) (hlen : pd.length = n * s) :
    pixelColourOffset bpp = s ∧
    ∃ out, swapChannels (pixelColourOffset bpp) pd = some out ∧ out.length = pd.length ∧
      ∀ k, k < n →
        byteAt out (k * s) = byteAt pd (k * s + 2) ∧
        byteAt out (k * s + 2) = byteAt pd (k * s) ∧
        byteAt out (k * s + 1) = byteAt pd (k * s + 1) ∧
        (s = 4 → byteAt out (k * s + 3) = byteAt pd (k * s + 3)) := by
  have hpco : pixelColourOffset bpp = s := by
    rcases hbpp with rfl | rfl <;> simp [pixelColourOffset, hs]
  have hs3 : 3 ≤ s := by rcases hbpp with rfl | rfl <;> omega
  refine ⟨hpco, ?_⟩
  rw [hpco]
  obtain ⟨out, q1, q2, q3⟩ := swapChannels_spec s n hs3 pd hlen
  refine ⟨out, q1, q2, ?_⟩
  intro k hk
  obtain ⟨a1, a2, a3⟩ := q3 k hk
  exact ⟨a1, a2, a3 1 (by omega) (by omega) (by omega),
    fun h4 => a3 3 (by omega) (by omega) (by omega)⟩

/-- Witness for C9: two BGRA pixels. -/
theorem swapChannels_swaps_first_and_third_witness :
    ((32 = 24 ∨ 32 = 32) ∧ 4 = 32 / 8 ∧ [1, 2, 3, 4, 5, 6, 7, 8].length = 2 * 4) ∧
    swapChannels (pixelColourOffset 32) [1, 2, 3, 4, 5, 6, 7, 8]
      = some [3, 2, 1, 4, 7, 6, 5, 8] ∧
    ∃ out, swapChannels (pixelColourOffset 32) [1, 2, 3, 4, 5, 6, 7, 8] = some out ∧
      out.length = [1, 2, 3, 4, 5, 6, 7, 8].length ∧
      ∀ k, k < 2 →
        byteAt out (k * 4) = byteAt [1, 2, 3, 4, 5, 6, 7, 8] (k * 4 + 2) ∧
        byteAt out (k * 4 + 2) = byteAt [1, 2, 3, 4, 5, 6, 7, 8] (k * 4) ∧
        byteAt out (k * 4 + 1) = byteAt [1, 2, 3, 4, 5, 6, 7, 8] (k * 4 + 1) ∧
        (4 = 4 → byteAt out (k * 4 + 3) = byteAt [1, 2, 3, 4, 5, 6, 7, 8] (k * 4 + 3)) :=
  ⟨by decide, by decide,
    (swapChannels_swaps_first_and_third 32 4 2 [1, 2, 3, 4, 5, 6, 7, 8] (by decide)
      (by decide) (by decide)).2⟩

/-- Counterexample for C10 as stated: `sampleBMP` is a 24-bit bottom-up BMP of width 1 and
height 2 whose stored rows are `B G R` = `1 2 3` (bottom row, stored first) and `4 5 6`;
`loadBMP` returns `3 2 1` as output row 0, the values of the stored row 0, and not those of
the stored row `h - 1 - 0 = 1`. -/
theorem loadBMP_rows_not_top_down :
    (le16 sampleBMP 28 = 24 ∧ le32 sampleBMP 18 = 1 ∧ le32 sampleBMP 22 = 2 ∧
      le32 sampleBMP 10 = 54 ∧ 54 + 2 * 4 ≤ sampleBMP.length) ∧
    loadBMP sampleBMP = some ([3, 2, 1, 6, 5, 4], 1, 2) ∧
    ¬ RowsTopDown sampleBMP [3, 2, 1, 6, 5, 4] 1 2 54 4 :=
  ⟨by decide, by decide, fun hc => absurd (hc 0 0 (by decide) (by decide)) (by decide)⟩

/-- C10 (amended): for every 24-bit bottom-up BMP (width `w ≥ 1`, height `h ≥ 1`,
`w * h * 24` in the range of `int`) holding both headers and `h` padded rows from the
declared data offset on, `loadBMP` returns `w * h * 3` bytes with the rows in the order in
which the file stores them: output row `r` holds the `(R, G, B)` values of the stored row
`r`, so the buffer starts with the image's bottom row. -/
theorem loadBMP_rows_in_stored_order (file : List Nat) (w h off S : Nat)
    (hw : 1 ≤ w) (hh : 1 ≤ h) (hrange : w * h * 24 < 2 ^ 31) (h54 : 54 ≤ file.length)
    (hoff : le32 file 10 = off) (hwidth : le32 file 18 = w) (hheight : le32 file 22 = h)
    (hbits : le16 file 28 = 24)
    (hS : 4 ∣ S ∧ w * 3 ≤ S ∧ ∀ m, 4 ∣ m → w * 3 ≤ m → S ≤ m)
    (hrows : off + h * S ≤ file.length) :
    ∃ out, loadBMP file = some (out, (w : Int), (h : Int)) ∧ out.length = w * h * 3 ∧
      RowsAsStored file out w h off S := by
  have hSs : S = (w * 3 + 3) / 4 * 4 := least_multiple_of_four (w * 3) S hS
  obtain ⟨pd, p1, p2, p3⟩ := loadBMPRead_rows file w h 24 off 3 h54 hoff hwidth hheight hbits
    rfl (by omega) hw hh hrange (by rw [← hSs]; exact hrows)
  obtain ⟨out, q1, q2, q3⟩ := swapChannels_spec 3 (h * w) (by omega) pd (by rw [p2]; ring)
  refine ⟨out, loadBMP_of_parts file pd out _ _ 24 p1 q1, by rw [q2, p2]; ring, ?_⟩
  intro r k hr hk
  have hm : r * w + k < h * w := by
    have h1 : (r + 1) * w ≤ h * w := Nat.mul_le_mul_right _ hr
    have h2 : (r + 1) * w = r * w + w := by ring
    omega
  obtain ⟨a1, a2, a3⟩ := q3 (r * w + k) hm
  have e : (r * w + k) * 3 = r * (w * 3) + k * 3 := by ring
  unfold outputRGB storedRGB
  rw [a1, a2, a3 1 (by omega) (by omega) (by omega), e, ← hSs] at *
  have b0 := p3 r (k * 3) hr (by omega)
  have b1 := p3 r (k * 3 + 1) hr (by omega)
  have b2 := p3 r (k * 3 + 2) hr (by omega)
  rw [← hSs] at b0 b1 b2
  simp only [← Nat.add_assoc] at b0 b1 b2
  rw [b0, b1, b2]

/-- Witness for C10 (amended): on `sampleBMP` the returned rows are the stored rows in
stored order. -/
theorem loadBMP_rows_in_stored_order_witness :
    (1 ≤ 1 ∧ 1 ≤ 2 ∧ 1 * 2 * 24 < 2 ^ 31 ∧ 54 ≤ sampleBMP.length ∧ le32 sampleBMP 10 = 54 ∧
      le32 sampleBMP 18 = 1 ∧ le32 sampleBMP 22 = 2 ∧ le16 sampleBMP 28 = 24 ∧
      54 + 2 * 4 ≤ sampleBMP.length) ∧
    ∃ out, loadBMP sampleBMP = some (out, ((1 : Nat) : Int), ((2 : Nat) : Int)) ∧
      out.length = 1 * 2 * 3 ∧ RowsAsStored sampleBMP out 1 2 54 4 :=
  ⟨by decide,
    loadBMP_rows_in_stored_order sampleBMP 1 2 54 4 (by decide) (by decide) (by decide)
      (by decide) (by decide) (by decide) (by decide) (by decide)
      ⟨⟨1, rfl⟩, by decide, fun m hm _ => by omega⟩ (by decide)⟩

/-! ## `makeStrideAligned` in general -/

/-- The stride loop counts up to the first multiple of the alignment: when `t` is a
multiple of `a` below `2 ^ 32`, no value from `n` up to `t - 1` is one, and at least
`t - n` iterations are allowed, the loop started at `n` ends with `t`. -/
theorem makeStrideAlignedLoop_reaches (a : Nat) :
    ∀ (fuel n t : Nat), n ≤ t → t % a = 0 → (∀ m, n ≤ m → m < t → m % a ≠ 0) →
      t < 2 ^ 32 → t - n ≤ fuel → makeStrideAlignedLoop a fuel n = some t := by
  intro fuel
  induction fuel with
  | zero =>
    intro n t hnt ht _ _ hf
    have : n = t := by omega
    subst this
    exact makeStrideAlignedLoop_done a 0 n ht
  | succ fuel ih =>
    intro n t hnt ht hno h32 hf
    rcases Nat.eq_or_lt_of_le hnt with he | hlt
    · subst he
      exact makeStrideAlignedLoop_done a (fuel + 1) n ht
    · rw [makeStrideAlignedLoop_step a fuel n (hno n (Nat.le_refl n) hlt) (by omega)]
      exact ih (n + 1) t (by omega) ht (fun m h1 h2 => hno m (by omega) h2) h32 (by omega)

/-- The value `a * ((r + a - 1) / a)` is the least multiple of `a ≥ 1` that is at least
`r`, and it is below `r + a`. -/
theorem roundUp_least (a r : Nat) (ha : 1 ≤ a) :
    r ≤ a * ((r + a - 1) / a) ∧ a * ((r + a - 1) / a) < r + a ∧
      ∀ m, a ∣ m → r ≤ m → a * ((r + a - 1) / a) ≤ m := by
  have hdm := Nat.div_add_mod (r + a - 1) a
  have hmod := Nat.mod_lt (r + a - 1) (by omega : a > 0)
  refine ⟨by omega, by omega, ?_⟩
  rintro m ⟨k, rfl⟩ hk
  apply Nat.mul_le_mul_left
  by_contra hc
  have h1 : k + 1 ≤ (r + a - 1) / a := by omega
  have h2 : a * (k + 1) ≤ a * ((r + a - 1) / a) := Nat.mul_le_mul_left _ h1
  have h3 : a * (k + 1) = a * k + a := by ring
  omega

/-- C11: for `align_stride ≥ 1` and `row_stride + align_stride - 1 < 2 ^ 32` the loop of
`makeStrideAligned` terminates (within `align_stride` iterations, and with any number of
iterations that is at least the distance to the result) and returns the least multiple of
`align_stride` that is at least `row_stride`; for `align_stride = 4` the padding
`new_stride - row_stride` equals `(4 - row_stride mod 4) mod 4` and lies in `{0, 1, 2, 3}`. -/
theorem makeStrideAligned_rounds_up (align_stride row_stride : Nat) (ha : 1 ≤ align_stride)
    (hr : row_stride + align_stride - 1 < 2 ^ 32) :
    ∃ new_stride, makeStrideAligned align_stride row_stride = some new_stride ∧
      (∀ fuel, new_stride - row_stride ≤ fuel →
        makeStrideAlignedLoop align_stride fuel row_stride = some new_stride) ∧
      align_stride ∣ new_stride ∧ row_stride ≤ new_stride ∧
      (∀ m, align_stride ∣ m → row_stride ≤ m → new_stride ≤ m) ∧
      (align_stride = 4 →
        new_stride - row_stride = (4 - row_stride % 4) % 4 ∧ new_stride - row_stride ≤ 3) := by
  obtain ⟨h1, h2, h3⟩ := roundUp_least align_stride row_stride ha
  have hmod : (align_stride * ((row_stride + align_stride - 1) / align_stride)) % align_stride
      = 0 := Nat.mul_mod_right _ _
  have hno : ∀ m, row_stride ≤ m →
      m < align_stride * ((row_stride + align_stride - 1) / align_stride) →
      m % align_stride ≠ 0 := by
    intro m hm1 hm2 hm0
    have := h3 m (Nat.dvd_of_mod_eq_zero hm0) hm1
    omega
  have hloop : ∀ fuel,
      align_stride * ((row_stride + align_stride - 1) / align_stride) - row_stride ≤ fuel →
      makeStrideAlignedLoop align_stride fuel row_stride
        = some (align_stride * ((row_stride + align_stride - 1) / align_stride)) :=
    fun fuel hf => makeStrideAlignedLoop_reaches align_stride fuel row_stride _ h1 hmod hno
      (by omega) hf
  refine ⟨align_stride * ((row_stride + align_stride - 1) / align_stride), ?_, hloop,
    Nat.dvd_mul_right _ _, h1, h3, ?_⟩
  · unfold makeStrideAligned
    rw [if_neg (by omega)]
    exact hloop align_stride (by omega)
  · intro h4
    subst h4
    omega

/-- Witness for C11: aligning a row of 15 bytes to 4 gives 16. -/
theorem makeStrideAligned_rounds_up_witness :
    (1 ≤ 4 ∧ 15 + 4 - 1 < 2 ^ 32) ∧ makeStrideAligned 4 15 = some 16 ∧
    ∃ new_stride, makeStrideAligned 4 15 = some new_stride ∧
      (∀ fuel, new_stride - 15 ≤ fuel → makeStrideAlignedLoop 4 fuel 15 = some new_stride) ∧
      4 ∣ new_stride ∧ 15 ≤ new_stride ∧
      (∀ m, 4 ∣ m → 15 ≤ m → new_stride ≤ m) ∧
      (4 = 4 → new_stride - 15 = (4 - 15 % 4) % 4 ∧ new_stride - 15 ≤ 3) :=
  ⟨by decide, by decide, makeStrideAligned_rounds_up 4 15 (by decide) (by decide)⟩

/-! ## Padding byte counts -/

/-- In the row-by-row branch `loadBMP` reads `rowStride` bytes and then `paddingRowSize`
bytes for every row. -/
theorem loadBMPPixels_row_branch (file : IFStream) (width height : Int) (bpp : Nat)
    (h1 : InIntRange (width * height) ∧ InIntRange (width * height * (bpp : Int)))
    (h2 : ¬ Int.tdiv (width * height * (bpp : Int)) 8 < 0) (h3 : Int.tmod width 4 ≠ 0)
    (h4 : InIntRange (width * (bpp : Int))) :
    loadBMPPixels file width height bpp =
      match paddingRowSize width bpp with
      | none => none
      | some padding =>
        some (((List.range height.toNat).foldl (readRowStep (rowStride width bpp) padding)
          (List.replicate (Int.tdiv (width * height * (bpp : Int)) 8).toNat 0, file)).1,
          width, height, bpp) := by
  unfold loadBMPPixels paddingRowSize rowStride
  rw [if_neg (not_not.mpr h1)]
  simp only []
  rw [if_neg h2, if_neg h3, if_neg (not_not.mpr h4)]
  cases makeStrideAligned 4 (Int.tdiv (width * (bpp : Int)) 8 % 2 ^ 32).toNat <;> rfl

/-- Counterexample for C12 as stated: at 24 bits per pixel the padding after a row of
width 1, 2, 3, 5 is not 3, 2, 1, 3; already for width 1 the row has 3 bytes and 1 byte of
padding. -/
theorem paddingRowSize_not_3_2_1_3 :
    paddingRowSize 1 24 = some 1 ∧
    ¬ (paddingRowSize 1 24 = some 3 ∧ paddingRowSize 2 24 = some 2 ∧
        paddingRowSize 3 24 = some 1 ∧ paddingRowSize 5 24 = some 3) :=
  ⟨by decide, by decide⟩

/-- C12 (amended): for rows of width 1, 2, 3 and 5 pixels at 24 bits per pixel the row has
3, 6, 9 and 15 bytes and the number of padding bytes `loadBMP` skips after each row,
`makeStrideAligned(4, width * 3) - width * 3`, is 1, 2, 3 and 1 respectively. -/
theorem paddingRowSize_24bpp :
    (rowStride 1 24 = 3 ∧ rowStride 2 24 = 6 ∧ rowStride 3 24 = 9 ∧ rowStride 5 24 = 15) ∧
    (makeStrideAligned 4 3 = some 4 ∧ makeStrideAligned 4 6 = some 8 ∧
      makeStrideAligned 4 9 = some 12 ∧ makeStrideAligned 4 15 = some 16) ∧
    paddingRowSize 1 24 = some 1 ∧ paddingRowSize 2 24 = some 2 ∧
    paddingRowSize 3 24 = some 3 ∧ paddingRowSize 5 24 = some 1 :=
  ⟨by decide, by decide, by decide, by decide, by decide, by decide⟩

/-! ## The frame of `applyFilter` -/

/-- A loop of `data[idx(i)] += ...` statements keeps every position that is none of the
`idx(i)`. -/
theorem foldl_addTo_frame (idx : Nat → Nat) (g : List Nat → Nat → Nat) (k : Nat) :
    ∀ (l : List Nat) (d : List Nat), (∀ i, i ∈ l → idx i ≠ k) →
      byteAt (l.foldl (fun d i => addTo d (idx i) (g d i)) d) k = byteAt d k := by
  intro l
  induction l with
  | nil => intro d _; rfl
  | cons a l ih =>
    intro d h
    rw [List.foldl_cons, ih _ (fun i hi => h i (List.mem_cons_of_mem a hi)),
      byteAt_addTo_of_ne _ _ _ _ (fun e => h a (List.mem_cons_self a l) e.symm)]

/-- A call of `applyFilter` keeps every byte outside offsets `1..4w` of the row. -/
theorem applyFilter_frame (d : List Nat) (y w k : Nat)
    (hk : k ≤ y * (w * 4 + 1) ∨ y * (w * 4 + 1) + w * 4 < k) :
    byteAt (applyFilter d y w) k = byteAt d k := by
  have hmem : ∀ a i, 1 ≤ a → i ∈ List.range' a (w * 4 + 1 - a) → y * (w * 4 + 1) + i ≠ k := by
    intro a i ha hi
    rw [List.mem_range'_1] at hi
    omega
  unfold applyFilter
  simp only []
  split
  · rfl
  · exact foldl_addTo_frame (fun i => y * (w * 4 + 1) + i)
      (fun d i => byteAt d (y * (w * 4 + 1) + i - 4)) k _ d (hmem 5 · (by omega))
  · split
    · rfl
    · exact foldl_addTo_frame (fun i => y * (w * 4 + 1) + i)
        (fun d i => byteAt d (y * (w * 4 + 1) + i - (w * 4 + 1))) k _ d (hmem 1 · (by omega))
  · exact foldl_addTo_frame (fun i => y * (w * 4 + 1) + i)
      (averageValue (y * (w * 4 + 1)) w) k _ d (hmem 1 · (by omega))
  · exact foldl_addTo_frame (fun i => y * (w * 4 + 1) + i)
      (paethValue (y * (w * 4 + 1)) w) k _ d (hmem 1 · (by omega))
  · rfl

/-- C19: for `w ≥ 1`, a row number `y` and a buffer that contains row `y`,
`applyFilter(data, y, w)` keeps the length of the buffer, the filter byte of row `y` and
every byte outside offsets `1..4w` of row `y` (so every byte of every other row); when the
filter byte of the row is 0 or greater than 4 the whole buffer is returned unchanged, and
so it is when the filter byte is 2 and `y = 0`. -/
theorem applyFilter_frame_effect (d : List Nat) (y w : Nat) (_hw : 1 ≤ w)
    (_hlen : (y + 1) * (4 * w + 1) ≤ d.length) :
    (applyFilter d y w).length = d.length ∧
    byteAt (applyFilter d y w) (y * (4 * w + 1)) = byteAt d (y * (4 * w + 1)) ∧
    (∀ k, k < y * (4 * w + 1) + 1 ∨ y * (4 * w + 1) + 4 * w < k →
      byteAt (applyFilter d y w) k = byteAt d k) ∧
    (byteAt d (y * (4 * w + 1)) = 0 ∨ 4 < byteAt d (y * (4 * w + 1)) → applyFilter d y w = d) ∧
    (byteAt d (y * (4 * w + 1)) = 2 → y = 0 → applyFilter d y w = d) := by
  have e : 4 * w = w * 4 := by omega
  rw [e]
  refine ⟨length_applyFilter d y w, applyFilter_frame d y w _ (Or.inl (Nat.le_refl _)), ?_, ?_, ?_⟩
  · intro k hk
    exact applyFilter_frame d y w k (by omega)
  · intro h
    rcases h with h | h
    · exact applyFilter_none d y w h
    · exact applyFilter_other d y w (by omega)
  · intro h hy
    rw [applyFilter_up d y w h, if_pos ((row_start_eq_zero y w).mpr hy)]

/-- Witness for C19: a Paeth-filtered second row of a 1-pixel-wide buffer; the filter byte
at index 5 and the bytes of the first row are kept. -/
theorem applyFilter_frame_effect_witness :
    (1 ≤ 1 ∧ (1 + 1) * (4 * 1 + 1) ≤ [1, 10, 20, 30, 40, 4, 1, 2, 3, 4].length) ∧
    (applyFilter [1, 10, 20, 30, 40, 4, 1, 2, 3, 4] 1 1).length
      = [1, 10, 20, 30, 40, 4, 1, 2, 3, 4].length ∧
    byteAt (applyFilter [1, 10, 20, 30, 40, 4, 1, 2, 3, 4] 1 1) (1 * (4 * 1 + 1))
      = byteAt [1, 10, 20, 30, 40, 4, 1, 2, 3, 4] (1 * (4 * 1 + 1)) ∧
    applyFilter [1, 10, 20, 30, 40, 4, 1, 2, 3, 4] 1 1 = [1, 10, 20, 30, 40, 4, 11, 22, 33, 44] :=
  ⟨by decide,
    (applyFilter_frame_effect [1, 10, 20, 30, 40, 4, 1, 2, 3, 4] 1 1 (by decide) (by decide)).1,
    (applyFilter_frame_effect [1, 10, 20, 30, 40, 4, 1, 2, 3, 4] 1 1 (by decide)
      (by decide)).2.1,
    by decide⟩

/-! ## Index safety of defiltering and flipping -/

/-- Every index used by `applyFilter` on a row that lies inside the buffer is inside the
buffer. -/
theorem applyFilterIndices_in_range (d : List Nat) (y w : Nat)
    (hlen : (y + 1) * (w * 4 + 1) ≤ d.length) :
    ∀ idx, idx ∈ applyFilterIndices d y w → 0 ≤ idx ∧ idx < (d.length : Int) := by
  have hrs : (y + 1) * (w * 4 + 1) = y * (w * 4 + 1) + (w * 4 + 1) := by ring
  have hpos : ((y * (w * 4 + 1) : Nat) : Int) ≠ 0 → w * 4 + 1 ≤ y * (w * 4 + 1) := by
    intro h0
    have hy : y ≠ 0 := by
      intro hy; apply h0; rw [hy]; simp
    have := row_pred y w hy
    omega
  intro idx hidx
  unfold applyFilterIndices at hidx
  simp only [List.mem_cons] at hidx
  rcases hidx with h | h
  · omega
  · split at h
    · simp at h
    · rw [List.mem_flatMap] at h
      obtain ⟨i, hi, hm⟩ := h
      rw [List.mem_range'_1] at hi
      simp only [List.mem_cons, List.mem_singleton, List.not_mem_nil, or_false] at hm
      rcases hm with hm | hm <;> omega
    · split at h
      · simp at h
      · next h0 =>
        have hp := hpos h0
        rw [List.mem_flatMap] at h
        obtain ⟨i, hi, hm⟩ := h
        rw [List.mem_range'_1] at hi
        simp only [List.mem_cons, List.mem_singleton, List.not_mem_nil, or_false] at hm
        rcases hm with hm | hm <;> omega
    · rw [List.mem_flatMap] at h
      obtain ⟨i, hi, hm⟩ := h
      rw [List.mem_range'_1] at hi
      simp only [List.mem_append, List.mem_singleton] at hm
      rcases hm with (hm | hm) | hm
      · split at hm
        · next h0 =>
          have hp := hpos h0
          simp only [List.mem_singleton] at hm
          omega
        · simp at hm
      · split at hm
        · simp only [List.mem_singleton] at hm
          omega
        · simp at hm
      · omega
    · rw [List.mem_flatMap] at h
      obtain ⟨i, hi, hm⟩ := h
      rw [List.mem_range'_1] at hi
      simp only [List.mem_append, List.mem_singleton] at hm
      rcases hm with ((hm | hm) | hm) | hm
      · split at hm
        · next h0 =>
          have hp := hpos h0
          simp only [List.mem_singleton] at hm
          omega
        · simp at hm
      · split at hm
        · simp only [List.mem_singleton] at hm
          omega
        · simp at hm
      · split at hm
        · next h0 =>
          have hp := hpos h0.1
          simp only [List.mem_singleton] at hm
          omega
        · simp at hm
      · omega
    · simp at h

/-- Every range copied by the flip loop with `n` rows left ends at or before `n * w * 4`. -/
theorem flipLoopRanges_in_range (w : Nat) :
    ∀ (n : Nat) (p : Int × Int), p ∈ flipLoopRanges w n →
      0 ≤ p.1 ∧ p.1 ≤ p.2 ∧ p.2 ≤ ((n * w * 4 : Nat) : Int) := by
  intro n
  induction n with
  | zero => intro p hp; simp [flipLoopRanges] at hp
  | succ n ih =>
    intro p hp
    have hn : ((n : Int) + 1) * (w : Int) * 4 = (n : Int) * (w : Int) * 4 + (w : Int) * 4 := by
      ring
    have hc : (((n + 1) * w * 4 : Nat) : Int) = (n : Int) * (w : Int) * 4 + (w : Int) * 4 := by
      push_cast; ring
    have hc0 : ((n * w * 4 : Nat) : Int) = (n : Int) * (w : Int) * 4 := by push_cast; ring
    have hnw : (0 : Int) ≤ (n : Int) * (w : Int) := by positivity
    rw [flipLoopRanges, List.mem_cons] at hp
    rcases hp with hp | hp
    · rw [hp]
      simp only []
      omega
    · obtain ⟨a1, a2, a3⟩ := ih p hp
      omega

/-- C20: for `w ≥ 0`, `h ≥ 0` and a decompressed buffer of length exactly `h * (4w + 1)`,
every index read or written by `applyFilter` for the rows `0, ..., h - 1` in the order of
the loop of `loadPNG` is non-negative and inside the buffer, and every row range
`[r * 4w, (r + 1) * 4w)` copied by the vertical-flip loop lies inside the extracted pixel
buffer. -/
theorem defilter_and_flip_indices_in_range (w h : Nat) (d : List Nat)
    (hd : d.length = h * (4 * w + 1)) :
    (∀ y, y < h → ∀ idx, idx ∈ applyFilterIndices (defilterRows d y w) y w →
      0 ≤ idx ∧ idx < ((defilterRows d y w).length : Int)) ∧
    (∀ p, p ∈ flipLoopRanges w h →
      0 ≤ p.1 ∧ p.1 ≤ p.2 ∧
        p.2 ≤ ((removeFilterBytes w (defilterRows d h w)).length : Int)) := by
  have e : 4 * w = w * 4 := by omega
  rw [e] at hd
  constructor
  · intro y hy idx hidx
    have hyh : (y + 1) * (w * 4 + 1) ≤ h * (w * 4 + 1) := Nat.mul_le_mul_right _ hy
    exact applyFilterIndices_in_range (defilterRows d y w) y w
      (by rw [length_defilterRows]; omega) idx hidx
  · intro p hp
    have hdl : (defilterRows d h w).length = h * (w * 4 + 1) := by
      rw [length_defilterRows, hd]
    have hpl : (removeFilterBytes w (defilterRows d h w)).length = h * w * 4 := by
      rw [removeFilterBytes_eq_stripRows w h _ hdl, length_stripRows w h _ hdl]; ring
    rw [hpl]
    exact flipLoopRanges_in_range w h p hp

/-- Witness for C20: a Paeth-filtered second row of a 1-pixel-wide, 2-row buffer; all
indices of that row lie in `0..9`. -/
theorem defilter_and_flip_indices_in_range_witness :
    [1, 10, 20, 30, 40, 4, 1, 2, 3, 4].length = 2 * (4 * 1 + 1) ∧
    applyFilterIndices (defilterRows [1, 10, 20, 30, 40, 4, 1, 2, 3, 4] 1 1) 1 1
      = [5, 1, 6, 2, 7, 3, 8, 4, 9] ∧
    flipLoopRanges 1 2 = [(4, 8), (0, 4)] ∧
    (∀ y, y < 2 → ∀ idx,
      idx ∈ applyFilterIndices (defilterRows [1, 10, 20, 30, 40, 4, 1, 2, 3, 4] y 1) y 1 →
      0 ≤ idx ∧
        idx < ((defilterRows [1, 10, 20, 30, 40, 4, 1, 2, 3, 4] y 1).length : Int)) :=
  ⟨by decide, by decide, by decide,
    (defilter_and_flip_indices_in_range 1 2 [1, 10, 20, 30, 40, 4, 1, 2, 3, 4]
      (by decide)).1⟩

/-! ## BMP: the signature field is not consulted -/

theorem read_data (s : IFStream) (n : Nat) : (s.read n).2.data = s.data := by
  unfold IFStream.read
  split <;> rfl

theorem read_good (s : IFStream) (n : Nat) (h : (s.read n).2.good = true) :
    s.good = true ∧ n ≤ s.data.length - s.pos := by
  unfold IFStream.read at h
  by_cases hg : s.good = true
  · rw [if_pos hg] at h
    simp only [decide_eq_true_eq, List.length_take, List.length_drop] at h
    exact ⟨hg, by omega⟩
  · rw [if_neg hg] at h
    exact absurd h hg

theorem read_sameRest (s₁ s₂ : IFStream) (n : Nat) (h : SameRest s₁ s₂) :
    (s₁.read n).1 = (s₂.read n).1 ∧ SameRest (s₁.read n).2 (s₂.read n).2 := by
  obtain ⟨hp, hg, hd⟩ := h
  unfold IFStream.read
  by_cases hg1 : s₁.good = true
  · have hg2 : s₂.good = true := by rw [← hg]; exact hg1
    rw [if_pos hg1, if_pos hg2]
    simp only []
    rw [hd]
    refine ⟨rfl, ?_, rfl, ?_⟩
    · simp only []; rw [hp]
    · simp only []
      rw [← List.drop_drop, ← List.drop_drop, hd]
  · have hg2 : ¬ s₂.good = true := by rw [← hg]; exact hg1
    rw [if_neg hg1, if_neg hg2]
    exact ⟨rfl, hp, hg, hd⟩

theorem foldl_readRowStep_sameRest (u p : Nat) :
    ∀ (l : List Nat) (st₁ st₂ : List Nat × IFStream), st₁.1 = st₂.1 → SameRest st₁.2 st₂.2 →
      (l.foldl (readRowStep u p) st₁).1 = (l.foldl (readRowStep u p) st₂).1 ∧
        SameRest (l.foldl (readRowStep u p) st₁).2 (l.foldl (readRowStep u p) st₂).2 := by
  intro l
  induction l with
  | nil => intro st₁ st₂ h1 h2; exact ⟨h1, h2⟩
  | cons y l ih =>
    intro st₁ st₂ h1 h2
    rw [List.foldl_cons, List.foldl_cons]
    obtain ⟨a1, a2⟩ := read_sameRest st₁.2 st₂.2 u h2
    obtain ⟨_, b2⟩ := read_sameRest _ _ p a2
    apply ih
    · simp only [readRowStep]
      rw [h1, a1]
    · exact b2

/-- The pixel rows read by `loadBMP` only depend on the bytes from the stream position on. -/
theorem loadBMPPixels_sameRest (s₁ s₂ : IFStream) (width height : Int) (bpp : Nat)
    (h : SameRest s₁ s₂) :
    loadBMPPixels s₁ width height bpp = loadBMPPixels s₂ width height bpp := by
  unfold loadBMPPixels
  split
  · rfl
  · simp only []
    split
    · rfl
    · split
      · rw [(read_sameRest s₁ s₂ _ h).1]
      · split
        · rfl
        · split
          · rfl
          · next new_stride _ =>
            rw [(foldl_readRowStep_sameRest _ _ _ (_, s₁) (_, s₂) rfl h).1]

theorem drop_eq_of_drop_two {f₁ f₂ : List Nat} (h : f₁.drop 2 = f₂.drop 2) (k : Nat)
    (hk : 2 ≤ k) : f₁.drop k = f₂.drop k := by
  have e : k = 2 + (k - 2) := by omega
  rw [e, ← List.drop_drop, ← List.drop_drop, h]

theorem byteAt_eq_of_drop_two {f₁ f₂ : List Nat} (h : f₁.drop 2 = f₂.drop 2) (k : Nat)
    (hk : 2 ≤ k) : byteAt f₁ k = byteAt f₂ k := by
  have e : k = 2 + (k - 2) := by omega
  rw [e, ← byteAt_drop, ← byteAt_drop, h]

/-- Streams that differ only in the signature field give the same rows, width and height,
provided the declared data offset does not point into the signature field or the streams
end before the end of the headers (no seek takes place then). -/
theorem loadBMPRead_ignores_signature (f₁ f₂ : List Nat) (hlen : f₁.length = f₂.length)
    (hrest : f₁.drop 2 = f₂.drop 2) (hoff : f₁.length < 54 ∨ 2 ≤ le32 f₁ 10) :
    loadBMPRead f₁ = loadBMPRead f₂ := by
  -- the first read
  have hg1 : ((IFStream.mk f₁ 0 true).read 14).1 = f₁.take 14 := by simp [IFStream.read]
  have hg2 : ((IFStream.mk f₂ 0 true).read 14).1 = f₂.take 14 := by simp [IFStream.read]
  have hR1 : SameRest ((IFStream.mk f₁ 0 true).read 14).2 ((IFStream.mk f₂ 0 true).read 14).2 := by
    simp only [IFStream.read, SameRest, if_true, List.drop_zero, List.length_take, Nat.zero_add]
    rw [hlen]
    refine ⟨rfl, rfl, ?_⟩
    rcases Nat.lt_or_ge f₂.length 2 with hl | hl
    · rw [List.drop_eq_nil_of_le (by omega), List.drop_eq_nil_of_le (by omega)]
    · exact drop_eq_of_drop_two hrest _ (by omega)
  have hhdr : ∀ k, 2 ≤ k →
      byteAt (copyInto defaultBMPHeader 0 (f₁.take 14)) k
        = byteAt (copyInto defaultBMPHeader 0 (f₂.take 14)) k := by
    intro k hk
    simp only [copyInto, List.take_zero, List.nil_append, Nat.zero_add, List.length_take]
    rw [byteAt_eq, byteAt_eq, List.getElem?_append, List.getElem?_append, List.length_take,
      List.length_take, hlen]
    split
    · rw [← byteAt_eq, ← byteAt_eq, byteAt_take _ _ _ (by omega), byteAt_take _ _ _ (by omega)]
      exact byteAt_eq_of_drop_two hrest k hk
    · rfl
  have hoffs : le32 (copyInto defaultBMPHeader 0 (f₁.take 14)) 10
      = le32 (copyInto defaultBMPHeader 0 (f₂.take 14)) 10 :=
    le32_congr _ _ _ _ (fun k _ => hhdr _ (by omega))
  -- the second read
  obtain ⟨ha, hR2⟩ := read_sameRest _ _ 40 hR1
  unfold loadBMPRead
  simp only [hg1, hg2]
  rw [← hoffs, ← ha]
  apply loadBMPPixels_sameRest
  -- the seek
  generalize hs1 : (((IFStream.mk f₁ 0 true).read 14).2.read 40).2 = t₁ at *
  generalize hs2 : (((IFStream.mk f₂ 0 true).read 14).2.read 40).2 = t₂ at *
  obtain ⟨hp, hg, hd⟩ := hR2
  unfold IFStream.seekg
  by_cases hgood : t₁.good = true
  · have hgood2 : t₂.good = true := by rw [← hg]; exact hgood
    rw [if_pos hgood, if_pos hgood2]
    have hd1 : t₁.data = f₁ := by rw [← hs1, read_data, read_data]
    have hd2 : t₂.data = f₂ := by rw [← hs2, read_data, read_data]
    have h14 : 14 ≤ f₁.length := by
      rw [← hs1] at hgood
      have := (read_good _ _ (read_good _ _ hgood).1).2
      simpa using this
    have h54 : 54 ≤ f₁.length := by
      rw [← hs1] at hgood
      have := (read_good _ _ hgood).2
      simp only [IFStream.read, if_true, List.drop_zero, List.length_take, Nat.zero_add] at this
      omega
    have hoff2 : 2 ≤ le32 f₁ 10 := by
      rcases hoff with hl | ho
      · omega
      · exact ho
    have hc : copyInto defaultBMPHeader 0 (f₁.take 14) = f₁.take 14 :=
      copyInto_zero_full _ _ (by simp [defaultBMPHeader]; omega)
    have e10 : le32 (f₁.take 14) 10 = le32 f₁ 10 :=
      le32_congr _ _ _ _ (fun k hk => byteAt_take _ _ _ (by omega))
    refine ⟨rfl, rfl, ?_⟩
    simp only [hd1, hd2]
    exact drop_eq_of_drop_two hrest _ (by rw [hc, e10]; exact hoff2)
  · have hgood2 : ¬ t₂.good = true := by rw [← hg]; exact hgood
    rw [if_neg hgood, if_neg hgood2]
    exact ⟨hp, hg, hd⟩

/-- Counterexample for C17 as stated: `sampleBMPOffsetZero` and
`sampleBMPOffsetZeroNoSignature` differ only in the first two bytes, but their declared data
offset is 0, so `seekg` moves the stream back to the signature field and its bytes are read
as the first pixel: the two pixel buffers differ. -/
theorem loadBMP_offset_zero_reads_signature :
    (sampleBMPOffsetZeroNoSignature.length = sampleBMPOffsetZero.length ∧
      sampleBMPOffsetZeroNoSignature.drop 2 = sampleBMPOffsetZero.drop 2 ∧
      le32 sampleBMPOffsetZero 10 = 0 ∧ le16 sampleBMPOffsetZero 0 = 0x4D42) ∧
    loadBMP sampleBMPOffsetZero = some ([62, 77, 66, 0, 0, 0], 1, 2) ∧
    loadBMP sampleBMPOffsetZeroNoSignature = some ([62, 0, 0, 0, 0, 0], 1, 2) ∧
    loadBMP sampleBMPOffsetZeroNoSignature ≠ loadBMP sampleBMPOffsetZero := by
  decide

/-- C17 (amended): for two readable byte streams that differ only in the first two bytes
(the `file_type` field) and whose declared data offset is at least 2, so that it lies behind
that field, or which end before the end of the two headers (54 bytes), `loadBMP` returns the
same pixel buffer and sets the same width and height; in particular a stream with another
signature is decoded exactly like the stream that has the signature `BM` in its place. -/
theorem loadBMP_ignores_signature (f₁ f₂ : List Nat) (hlen : f₁.length = f₂.length)
    (hrest : f₁.drop 2 = f₂.drop 2) (hoff : f₁.length < 54 ∨ 2 ≤ le32 f₁ 10) :
    loadBMP f₁ = loadBMP f₂ ∧
    (2 ≤ f₁.length → loadBMP f₁ = loadBMP (0x42 :: 0x4D :: f₁.drop 2)) := by
  constructor
  · unfold loadBMP
    rw [loadBMPRead_ignores_signature f₁ f₂ hlen hrest hoff]
  · intro h2
    unfold loadBMP
    rw [loadBMPRead_ignores_signature f₁ (0x42 :: 0x4D :: f₁.drop 2)
      (by simp only [List.length_cons, List.length_drop]; omega) (by simp) hoff]

/-- Witness for C17 (amended): `sampleBMP` with a zeroed signature decodes like `sampleBMP`
(declared data offset 54), and so does a stream that ends inside the info header. -/
theorem loadBMP_ignores_signature_witness :
    ((sampleBMPNoSignature.length = sampleBMP.length ∧
      sampleBMPNoSignature.drop 2 = sampleBMP.drop 2 ∧ 2 ≤ le32 sampleBMPNoSignature 10) ∧
    le16 sampleBMPNoSignature 0 ≠ 0x4D42 ∧ le16 sampleBMP 0 = 0x4D42 ∧
    loadBMP sampleBMPNoSignature = loadBMP sampleBMP) ∧
    ((0 :: 0 :: sampleBMPTruncated.drop 2).length = sampleBMPTruncated.length ∧
      sampleBMPTruncated.length < 54) ∧
    loadBMP (0 :: 0 :: sampleBMPTruncated.drop 2) = loadBMP sampleBMPTruncated :=
  ⟨⟨by decide, by decide, by decide,
    (loadBMP_ignores_signature sampleBMPNoSignature sampleBMP (by decide) (by decide)
      (Or.inr (by decide))).1⟩, by decide,
    (loadBMP_ignores_signature (0 :: 0 :: sampleBMPTruncated.drop 2) sampleBMPTruncated
      (by decide) (by decide) (Or.inl (by decide))).1⟩

/-! ## PNG: 32-bit integers -/

theorem and_byte_mask (x s : Nat) : x &&& (2 ^ s * 255) = 2 ^ s * ((x / 2 ^ s) % 256) := by
  apply Nat.eq_of_testBit_eq
  intro j
  have h255 : (255 : Nat) = 2 ^ 8 - 1 := by norm_num
  have h256 : (256 : Nat) = 2 ^ 8 := by norm_num
  rw [Nat.testBit_and, Nat.testBit_mul_pow_two, Nat.testBit_mul_pow_two, h255, h256,
    Nat.testBit_two_pow_sub_one, Nat.testBit_mod_two_pow, ← Nat.shiftRight_eq_div_pow,
    Nat.testBit_shiftRight]
  by_cases h : j ≥ s
  · have e : s + (j - s) = j := by omega
    simp [h, e, Bool.and_comm]
  · simp [h]

theorem convertBigToNativeEndian_eq_pow (n : Nat) :
    convertBigToNativeEndian n
      = (n % 256) * 2 ^ 24 + (n / 2 ^ 8 % 256) * 2 ^ 16 + (n / 2 ^ 16 % 256) * 2 ^ 8
          + n / 2 ^ 24 % 256 := by
  unfold convertBigToNativeEndian
  have m1 : (0x000000FF : Nat) = 2 ^ 0 * 255 := by norm_num
  have m2 : (0x0000FF00 : Nat) = 2 ^ 8 * 255 := by norm_num
  have m3 : (0x00FF0000 : Nat) = 2 ^ 16 * 255 := by norm_num
  have m4 : (0xFF000000 : Nat) = 2 ^ 24 * 255 := by norm_num
  rw [m1, m2, m3, m4, and_byte_mask, and_byte_mask, and_byte_mask, and_byte_mask,
    Nat.shiftRight_eq_div_pow, Nat.shiftRight_eq_div_pow, Nat.shiftLeft_eq, Nat.shiftLeft_eq]
  have a1 : 2 ^ 0 * (n / 2 ^ 24 / 2 ^ 0 % 256) = n / 2 ^ 24 % 256 := by omega
  have a2 : n / 2 ^ 8 / 2 ^ 8 % 256 = n / 2 ^ 16 % 256 := by omega
  have a3 : n * 2 ^ 8 % 2 ^ 32 / 2 ^ 16 % 256 = n / 2 ^ 8 % 256 := by omega
  have a4 : n * 2 ^ 24 % 2 ^ 32 / 2 ^ 24 % 256 = n % 256 := by omega
  rw [a1, a2, a3, a4]
  have o1 : (n / 2 ^ 24 % 256) ||| 2 ^ 8 * (n / 2 ^ 16 % 256)
      = 2 ^ 8 * (n / 2 ^ 16 % 256) + n / 2 ^ 24 % 256 := by
    rw [Nat.or_comm, ← Nat.mul_add_lt_is_or (by omega)]
  have o2 : (2 ^ 8 * (n / 2 ^ 16 % 256) + n / 2 ^ 24 % 256) ||| 2 ^ 16 * (n / 2 ^ 8 % 256)
      = 2 ^ 16 * (n / 2 ^ 8 % 256) + (2 ^ 8 * (n / 2 ^ 16 % 256) + n / 2 ^ 24 % 256) := by
    rw [Nat.or_comm, ← Nat.mul_add_lt_is_or (by omega)]
  have o3 : (2 ^ 16 * (n / 2 ^ 8 % 256) + (2 ^ 8 * (n / 2 ^ 16 % 256) + n / 2 ^ 24 % 256))
        ||| 2 ^ 24 * (n % 256)
      = 2 ^ 24 * (n % 256)
        + (2 ^ 16 * (n / 2 ^ 8 % 256) + (2 ^ 8 * (n / 2 ^ 16 % 256) + n / 2 ^ 24 % 256)) := by
    rw [Nat.or_comm, ← Nat.mul_add_lt_is_or (by omega)]
  rw [o1, o2, o3]
  omega

/-- The shifts and masks of `convertBigToNativeEndian` reverse the four bytes of the
number. -/
theorem convertBigToNativeEndian_eq (n : Nat) :
    convertBigToNativeEndian n
      = (n % 256) * 16777216 + (n / 256 % 256) * 65536 + (n / 65536 % 256) * 256
          + n / 16777216 % 256 := by
  rw [convertBigToNativeEndian_eq_pow]
  norm_num

/-- On a little-endian host the conversion of four bytes of memory is their big-endian
value. -/
theorem convert_native_littleEndian (mem : List Nat) (off : Nat) (hb : IsBytes mem) :
    convertBigToNativeEndian (nativeUInt32 false mem off)
      = byteAt mem off * 16777216 + byteAt mem (off + 1) * 65536 + byteAt mem (off + 2) * 256
          + byteAt mem (off + 3) := by
  have h0 := byteAt_lt_of_isBytes hb off
  have h1 := byteAt_lt_of_isBytes hb (off + 1)
  have h2 := byteAt_lt_of_isBytes hb (off + 2)
  have h3 := byteAt_lt_of_isBytes hb (off + 3)
  rw [convertBigToNativeEndian_eq]
  simp only [nativeUInt32, le32, Bool.false_eq_true, if_false]
  omega

/-- On a big-endian host the conversion of four bytes of memory is their little-endian
value, the bytes in reverse order. -/
theorem convert_native_bigEndian (mem : List Nat) (off : Nat) (hb : IsBytes mem) :
    convertBigToNativeEndian (nativeUInt32 true mem off)
      = byteAt mem (off + 3) * 16777216 + byteAt mem (off + 2) * 65536
          + byteAt mem (off + 1) * 256 + byteAt mem off := by
  have h0 := byteAt_lt_of_isBytes hb off
  have h1 := byteAt_lt_of_isBytes hb (off + 1)
  have h2 := byteAt_lt_of_isBytes hb (off + 2)
  have h3 := byteAt_lt_of_isBytes hb (off + 3)
  rw [convertBigToNativeEndian_eq]
  simp only [nativeUInt32, if_true]
  omega

/-- A `read` of bytes that the stream holds ahead returns them and keeps the stream good. -/
theorem read_of_listPrefix (s : IFStream) (xs rest : List Nat) (hg : s.good = true)
    (hd : s.data.drop s.pos = xs ++ rest) :
    s.read xs.length = (xs, IFStream.mk s.data (s.pos + xs.length) true) ∧
      s.data.drop (s.pos + xs.length) = rest := by
  have ht : (s.data.drop s.pos).take xs.length = xs := by
    rw [hd, List.take_left']
    rfl
  constructor
  · unfold IFStream.read
    rw [if_pos hg]
    simp only [ht, decide_True]
  · rw [← List.drop_drop, hd, List.drop_left']
    rfl

/-- On a little-endian host `readUInt32` returns the big-endian value
`b0 * 2 ^ 24 + b1 * 2 ^ 16 + b2 * 2 ^ 8 + b3` of the next four bytes of the stream. -/
theorem readUInt32_littleEndian (value : List Nat) (s : IFStream) (b0 b1 b2 b3 : Nat)
    (rest : List Nat) (hg : s.good = true) (hd : s.data.drop s.pos = [b0, b1, b2, b3] ++ rest)
    (h0 : b0 < 256) (h1 : b1 < 256) (h2 : b2 < 256) (h3 : b3 < 256) :
    readUInt32 false value s
      = (b0 * 16777216 + b1 * 65536 + b2 * 256 + b3, IFStream.mk s.data (s.pos + 4) true) := by
  obtain ⟨hr, _⟩ := read_of_listPrefix s [b0, b1, b2, b3] rest hg hd
  have hr' : s.read 4 = ([b0, b1, b2, b3], IFStream.mk s.data (s.pos + 4) true) := hr
  have e0 : byteAt (copyInto value 0 [b0, b1, b2, b3]) 0 = b0 := by simp [copyInto, byteAt]
  have e1 : byteAt (copyInto value 0 [b0, b1, b2, b3]) (0 + 1) = b1 := by
    simp [copyInto, byteAt]
  have e2 : byteAt (copyInto value 0 [b0, b1, b2, b3]) (0 + 2) = b2 := by
    simp [copyInto, byteAt]
  have e3 : byteAt (copyInto value 0 [b0, b1, b2, b3]) (0 + 3) = b3 := by
    simp [copyInto, byteAt]
  unfold readUInt32
  simp only [hr']
  rw [convertBigToNativeEndian_eq]
  unfold nativeUInt32 le32
  rw [if_neg (by decide), e0, e1, e2, e3]
  have hv : (b0 + 256 * b1 + 65536 * b2 + 16777216 * b3) % 256 * 16777216
      + (b0 + 256 * b1 + 65536 * b2 + 16777216 * b3) / 256 % 256 * 65536
      + (b0 + 256 * b1 + 65536 * b2 + 16777216 * b3) / 65536 % 256 * 256
      + (b0 + 256 * b1 + 65536 * b2 + 16777216 * b3) / 16777216 % 256
      = b0 * 16777216 + b1 * 65536 + b2 * 256 + b3 := by omega
  rw [hv]

/-! ## PNG: chunk framing -/

theorem readUInt32_be32 (value : List Nat) (s : IFStream) (n : Nat) (rest : List Nat)
    (hg : s.good = true) (hd : s.data.drop s.pos = be32Bytes n ++ rest) (hn : n < 2 ^ 32) :
    readUInt32 false value s = (n, IFStream.mk s.data (s.pos + 4) true) ∧
      s.data.drop (s.pos + 4) = rest := by
  have hd' : s.data.drop s.pos
      = [n / 16777216 % 256, n / 65536 % 256, n / 256 % 256, n % 256] ++ rest := hd
  constructor
  · rw [readUInt32_littleEndian value s _ _ _ _ rest hg hd' (Nat.mod_lt _ (by decide))
      (Nat.mod_lt _ (by decide)) (Nat.mod_lt _ (by decide)) (Nat.mod_lt _ (by decide))]
    have hv : n / 16777216 % 256 * 16777216 + n / 65536 % 256 * 65536 + n / 256 % 256 * 256
        + n % 256 = n := by omega
    rw [hv]
  · exact (read_of_listPrefix s _ rest hg hd').2

theorem length_encodeChunk (c : RawChunk) (hc : c.crc.length = 4) :
    (encodeChunk c).length = 12 + c.payload.length := by
  simp only [encodeChunk, be32Bytes, List.length_append, List.length_cons, List.length_nil, hc]
  omega

/-- Reading one well-formed chunk on a little-endian host: the fields of the chunk come
back and the stream stands right behind the chunk. -/
theorem readChunk_encodeChunk (value : List Nat) (s : IFStream) (c : RawChunk)
    (rest : List Nat) (hg : s.good = true) (hd : s.data.drop s.pos = encodeChunk c ++ rest)
    (hc : WellFormedChunk c) :
    readChunk false value s
      = ({ length := c.payload.length, type := c.type, data := c.payload, crc := c.crc },
          IFStream.mk s.data (s.pos + (encodeChunk c).length) true) ∧
      s.data.drop (s.pos + (encodeChunk c).length) = rest := by
  obtain ⟨hlen, htype, hcrc⟩ := hc
  have hd1 : s.data.drop s.pos
      = be32Bytes c.payload.length ++ (be32Bytes c.type ++ (c.payload ++ (c.crc ++ rest))) := by
    rw [hd, encodeChunk]
    simp only [List.append_assoc]
  obtain ⟨r1, d1⟩ := readUInt32_be32 value s _ _ hg hd1 hlen
  obtain ⟨r2, d2⟩ := readUInt32_be32 value (IFStream.mk s.data (s.pos + 4) true) _ _ rfl d1 htype
  obtain ⟨r3, d3⟩ := read_of_listPrefix (IFStream.mk s.data (s.pos + 4 + 4) true) c.payload
    (c.crc ++ rest) rfl d2
  obtain ⟨r4, d4⟩ := read_of_listPrefix (IFStream.mk s.data (s.pos + 4 + 4 + c.payload.length) true)
    c.crc rest rfl d3
  have hl := length_encodeChunk c hcrc
  have hpos : s.pos + 4 + 4 + c.payload.length + c.crc.length
      = s.pos + (encodeChunk c).length := by omega
  simp only [] at r2 r3 r4 d4
  rw [hpos] at r4 d4
  refine ⟨?_, d4⟩
  unfold readChunk
  simp only [r1, r2, r3]
  rw [hcrc] at r4
  simp only [r4]
  rw [copyInto_zero_full _ _ (by simp), copyInto_zero_full _ _ (by simp [hcrc])]

theorem length_encodeChunks_cons (c : RawChunk) (cs : List RawChunk) (more : List Nat) :
    (encodeChunks (c :: cs) ++ more).length
      = (encodeChunk c).length + (encodeChunks cs ++ more).length := by
  simp only [encodeChunks, List.length_append]
  omega

/-- The chunk loop on a little-endian host, on a stream that holds the chunks `pre`, none
of type `IEND`, then a chunk `iend` of type `IEND`, then anything: with more iterations
allowed than there are chunks in `pre`, the loop ends right behind `iend` and the
accumulator has grown by the payloads of the `IDAT` chunks of `pre`, in order. -/
theorem chunkLoop_chunks (value : List Nat) (iend : RawChunk) (rest : List Nat)
    (hiend : WellFormedChunk iend) (htag : iend.type = 0x49454E44) :
    ∀ (pre : List RawChunk) (fuel : Nat) (s : IFStream) (ihdr : PNGIHDR) (acc : List Nat),
      s.good = true → s.data.drop s.pos = encodeChunks pre ++ (encodeChunk iend ++ rest) →
      (∀ c, c ∈ pre → WellFormedChunk c ∧ c.type ≠ 0x49454E44) → pre.length < fuel →
      ∃ ihdr', chunkLoop false value fuel s ihdr acc
        = some (ihdr', acc ++ idatPayloads pre,
            IFStream.mk s.data (s.pos + (encodeChunks pre ++ encodeChunk iend).length) true) := by
  intro pre
  induction pre with
  | nil =>
    intro fuel s ihdr acc hg hd _ hf
    obtain ⟨f, rfl⟩ : ∃ f, fuel = f + 1 := ⟨fuel - 1, by simp at hf; omega⟩
    rw [encodeChunks, List.nil_append] at hd
    obtain ⟨hr, _⟩ := readChunk_encodeChunk value s iend rest hg hd hiend
    refine ⟨ihdr, ?_⟩
    rw [chunkLoop]
    simp only [hr, htag]
    simp [idatPayloads, encodeChunks]
  | cons c pre ih =>
    intro fuel s ihdr acc hg hd hpre hf
    obtain ⟨f, rfl⟩ : ∃ f, fuel = f + 1 := ⟨fuel - 1, by simp at hf; omega⟩
    obtain ⟨hwf, hne⟩ := hpre c (List.mem_cons_self c pre)
    have hd' : s.data.drop s.pos
        = encodeChunk c ++ (encodeChunks pre ++ (encodeChunk iend ++ rest)) := by
      rw [hd, encodeChunks, List.append_assoc]
    obtain ⟨hr, hdr⟩ := readChunk_encodeChunk value s c _ hg hd' hwf
    have hpos : s.pos + (encodeChunk c).length + (encodeChunks pre ++ encodeChunk iend).length
        = s.pos + (encodeChunks (c :: pre) ++ encodeChunk iend).length := by
      rw [length_encodeChunks_cons]; omega
    have hrec : ∀ ihdr₁ acc₁, ∃ ihdr', chunkLoop false value f
        (IFStream.mk s.data (s.pos + (encodeChunk c).length) true) ihdr₁ acc₁
        = some (ihdr', acc₁ ++ idatPayloads pre,
            IFStream.mk s.data (s.pos + (encodeChunks (c :: pre) ++ encodeChunk iend).length)
              true) := by
      intro ihdr₁ acc₁
      obtain ⟨i', hi'⟩ := ih f (IFStream.mk s.data (s.pos + (encodeChunk c).length) true)
        ihdr₁ acc₁ rfl hdr (fun x hx => hpre x (List.mem_cons_of_mem c hx))
        (by simp at hf; omega)
      simp only [] at hi'
      rw [hpos] at hi'
      exact ⟨i', hi'⟩
    rw [chunkLoop]
    simp only [hr]
    by_cases h1 : c.type = 0x49484452
    · rw [if_pos h1]
      obtain ⟨i', hi'⟩ := hrec (parseIHDR false
        { length := c.payload.length, type := c.type, data := c.payload, crc := c.crc }) acc
      refine ⟨i', ?_⟩
      rw [hi']
      have : c.type ≠ 0x49444154 := by rw [h1]; decide
      simp [idatPayloads, this]
    · rw [if_neg h1]
      by_cases h2 : c.type = 0x49444154
      · rw [if_pos h2]
        obtain ⟨i', hi'⟩ := hrec ihdr (acc ++ c.payload)
        refine ⟨i', ?_⟩
        rw [hi']
        simp [idatPayloads, h2]
      · rw [if_neg h2, if_neg hne]
        obtain ⟨i', hi'⟩ := hrec ihdr acc
        refine ⟨i', ?_⟩
        rw [hi']
        simp [idatPayloads, h2]

theorem read_signature (file rest : List Nat) (hfile : file = pngSignature ++ rest) :
    (IFStream.mk file 0 true).read 8 = (pngSignature, IFStream.mk file 8 true) := by
  have h := (read_of_listPrefix (IFStream.mk file 0 true) pngSignature rest rfl
    (by simp only [List.drop_zero]; exact hfile)).1
  simpa [pngSignature] using h

theorem signature_matches (signature : List Nat) :
    (copyInto signature 0 pngSignature).take 8 = pngSignature := by
  simp [copyInto, pngSignature]

/-- C13: on a byte stream that, after the 8-byte signature, holds well-formed chunks
`pre` of which none has type `IEND`, then a chunk of type `IEND`, then any bytes, the chunk
loop of `loadPNG` (with more iterations allowed than `pre` has chunks) stops right behind
the `IEND` chunk, and the accumulator, which is what `loadPNG` hands to `decompressIDAT`, is
the concatenation in file order of the payloads of the `IDAT` chunks of `pre`: it is a
function of these payloads alone, whatever the other payloads, the CRC bytes, the bytes
behind the `IEND` chunk and the content of uninitialised variables are. -/
theorem loadPNG_chunk_framing (signature value : List Nat) (pre : List RawChunk)
    (iend : RawChunk) (trailing file : List Nat) (fuel : Nat)
    (hpre : ∀ c, c ∈ pre → WellFormedChunk c ∧ c.type ≠ 0x49454E44)
    (hiend : WellFormedChunk iend) (htag : iend.type = 0x49454E44)
    (hfile : file = pngSignature ++ (encodeChunks pre ++ (encodeChunk iend ++ trailing)))
    (hfuel : pre.length < fuel) :
    ∃ ihdr, chunkLoop false value fuel (IFStream.mk file 8 true) {} []
        = some (ihdr, idatPayloads pre,
            IFStream.mk file (8 + (encodeChunks pre ++ encodeChunk iend).length) true) ∧
      ∀ (decompressIDAT : List Nat → Option (List Nat)) (flip : Bool) (width height : Int),
        loadPNG false signature value decompressIDAT flip fuel file width height
          = match decompressIDAT (idatPayloads pre) with
            | none =>
              some ([], toInt32 ihdr.width, toInt32 ihdr.height,
                IFStream.mk file (8 + (encodeChunks pre ++ encodeChunk iend).length) true)
            | some decompressed_data =>
              some (loadPNGPixels flip ihdr.width ihdr.height decompressed_data,
                toInt32 ihdr.width, toInt32 ihdr.height,
                IFStream.mk file (8 + (encodeChunks pre ++ encodeChunk iend).length) true) := by
  have hd : (IFStream.mk file 8 true).data.drop (IFStream.mk file 8 true).pos
      = encodeChunks pre ++ (encodeChunk iend ++ trailing) := by
    simp only []
    rw [hfile]
    exact List.drop_left' (by simp [pngSignature])
  obtain ⟨ihdr, hloop⟩ := chunkLoop_chunks value iend trailing hiend htag pre fuel
    (IFStream.mk file 8 true) {} [] rfl hd hpre hfuel
  simp only [List.nil_append] at hloop
  refine ⟨ihdr, hloop, ?_⟩
  intro dec flip width height
  unfold loadPNG
  simp only [read_signature file _ hfile, signature_matches, ne_eq, not_true_eq_false,
    if_false, hloop]

/-- Witness for C13: the sample stream with two `IDAT` chunks around a `tEXt` chunk and
two bytes behind the `IEND` chunk; the accumulator is `7 7 8`. -/
theorem loadPNG_chunk_framing_witness :
    ((∀ c, c ∈ sampleChunks → WellFormedChunk c ∧ c.type ≠ 0x49454E44) ∧
      WellFormedChunk sampleIEND ∧ sampleIEND.type = 0x49454E44 ∧ sampleChunks.length < 5) ∧
    idatPayloads sampleChunks = [7, 7, 8] ∧
    ∃ ihdr, chunkLoop false [0, 0, 0, 0] 5
        (IFStream.mk (pngSignature ++ (encodeChunks sampleChunks
          ++ (encodeChunk sampleIEND ++ [9, 9]))) 8 true) {} []
        = some (ihdr, idatPayloads sampleChunks,
            IFStream.mk (pngSignature ++ (encodeChunks sampleChunks
              ++ (encodeChunk sampleIEND ++ [9, 9])))
              (8 + (encodeChunks sampleChunks ++ encodeChunk sampleIEND).length) true) :=
  ⟨by decide, by decide,
    (loadPNG_chunk_framing [] [0, 0, 0, 0] sampleChunks sampleIEND [9, 9] _ 5 (by decide)
      (by decide) (by decide) rfl (by decide)).imp (fun _ h => h.1)⟩

/-! ## PNG: host byte order -/

/-- On a little-endian host `parseIHDR` takes the width and the height as the big-endian
values of payload bytes 0..3 and 4..7, and the five other fields from payload bytes 8, 9,
10, 11 and 12. -/
theorem parseIHDR_littleEndian (chunk : PNGChunk) (hb : IsBytes chunk.data) :
    parseIHDR false chunk =
      { width := byteAt chunk.data 0 * 16777216 + byteAt chunk.data 1 * 65536
          + byteAt chunk.data 2 * 256 + byteAt chunk.data 3
        height := byteAt chunk.data 4 * 16777216 + byteAt chunk.data 5 * 65536
          + byteAt chunk.data 6 * 256 + byteAt chunk.data 7
        bit_depth := byteAt chunk.data 8
        colour_type := byteAt chunk.data 9
        compression_method := byteAt chunk.data 10
        filter_method := byteAt chunk.data 11
        interlace_method := byteAt chunk.data 12 } := by
  unfold parseIHDR
  rw [convert_native_littleEndian _ 0 hb, convert_native_littleEndian _ 4 hb]

/-- On a big-endian host `readUInt32` returns the next four bytes of the stream in
reversed order, `b3 * 2 ^ 24 + b2 * 2 ^ 16 + b1 * 2 ^ 8 + b0`. -/
theorem readUInt32_bigEndian (value : List Nat) (s : IFStream) (b0 b1 b2 b3 : Nat)
    (rest : List Nat) (hg : s.good = true) (hd : s.data.drop s.pos = [b0, b1, b2, b3] ++ rest)
    (h0 : b0 < 256) (h1 : b1 < 256) (h2 : b2 < 256) (h3 : b3 < 256) :
    readUInt32 true value s
      = (b3 * 16777216 + b2 * 65536 + b1 * 256 + b0, IFStream.mk s.data (s.pos + 4) true) := by
  obtain ⟨hr, _⟩ := read_of_listPrefix s [b0, b1, b2, b3] rest hg hd
  have hr' : s.read 4 = ([b0, b1, b2, b3], IFStream.mk s.data (s.pos + 4) true) := hr
  have e0 : byteAt (copyInto value 0 [b0, b1, b2, b3]) 0 = b0 := by simp [copyInto, byteAt]
  have e1 : byteAt (copyInto value 0 [b0, b1, b2, b3]) (0 + 1) = b1 := by
    simp [copyInto, byteAt]
  have e2 : byteAt (copyInto value 0 [b0, b1, b2, b3]) (0 + 2) = b2 := by
    simp [copyInto, byteAt]
  have e3 : byteAt (copyInto value 0 [b0, b1, b2, b3]) (0 + 3) = b3 := by
    simp [copyInto, byteAt]
  unfold readUInt32
  simp only [hr']
  rw [convertBigToNativeEndian_eq]
  unfold nativeUInt32
  rw [if_pos rfl, e0, e1, e2, e3]
  have hv : (b0 * 16777216 + b1 * 65536 + b2 * 256 + b3) % 256 * 16777216
      + (b0 * 16777216 + b1 * 65536 + b2 * 256 + b3) / 256 % 256 * 65536
      + (b0 * 16777216 + b1 * 65536 + b2 * 256 + b3) / 65536 % 256 * 256
      + (b0 * 16777216 + b1 * 65536 + b2 * 256 + b3) / 16777216 % 256
      = b3 * 16777216 + b2 * 65536 + b1 * 256 + b0 := by omega
  rw [hv]

/-- C14 at the failing input: the four bytes `00 00 00 0D` (big-endian 13, the length field
of an `IHDR` chunk) are decoded as 13 on a little-endian host but as `0x0D000000` on a
big-endian host, and `parseIHDR` on a big-endian host turns the width bytes `00 00 00 01`
into `0x01000000` and the height bytes `00 00 00 02` into `0x02000000`; the single-byte
fields do not depend on the host. -/
theorem readUInt32_bigEndianHost_not_bigEndian_value :
    (readUInt32 false [0, 0, 0, 0] (IFStream.mk [0, 0, 0, 13] 0 true)).1 = 13 ∧
    (readUInt32 true [0, 0, 0, 0] (IFStream.mk [0, 0, 0, 13] 0 true)).1 = 218103808 ∧
    (parseIHDR false sampleIHDRChunk).width = 1 ∧ (parseIHDR false sampleIHDRChunk).height = 2 ∧
    (parseIHDR true sampleIHDRChunk).width = 16777216 ∧
    (parseIHDR true sampleIHDRChunk).height = 33554432 ∧
    (parseIHDR true sampleIHDRChunk).bit_depth = 8 ∧
    (parseIHDR true sampleIHDRChunk).colour_type = 6 := by
  decide

/-! ## PNG: reads that are not checked -/

theorem copyInto_nil (dst : List Nat) : copyInto dst 0 [] = dst := by
  simp [copyInto]

theorem read_exhausted (s : IFStream) (n : Nat) (h : Exhausted s) :
    (s.read n).1 = [] ∧ (0 < n → (s.read n).2.good = false) ∧ Exhausted (s.read n).2 := by
  unfold IFStream.read
  by_cases hg : s.good = true
  · have hle : s.data.length ≤ s.pos := by
      rcases h with h | h
      · rw [h] at hg; exact absurd hg (by decide)
      · exact h
    have hd : s.data.drop s.pos = [] := List.drop_eq_nil_of_le hle
    rw [if_pos hg]
    simp only [hd, List.take_nil, List.length_nil, Nat.add_zero]
    refine ⟨by trivial, ?_, Or.inr hle⟩
    intro hn
    simp only [decide_eq_false_iff_not]
    omega
  · rw [if_neg hg]
    have hf : s.good = false := by
      cases hgood : s.good
      · rfl
      · exact absurd hgood hg
    exact ⟨rfl, fun _ => hf, Or.inl hf⟩

theorem readUInt32_exhausted (be : Bool) (value : List Nat) (s : IFStream) (h : Exhausted s) :
    (readUInt32 be value s).1 = staleUInt32 be value ∧ (readUInt32 be value s).2.good = false := by
  obtain ⟨h1, h2, _⟩ := read_exhausted s 4 h
  unfold readUInt32 staleUInt32
  simp only [h1, copyInto_nil]
  exact ⟨by trivial, h2 (by decide)⟩

theorem readChunk_exhausted (be : Bool) (value : List Nat) (s : IFStream) (h : Exhausted s) :
    (readChunk be value s).1.type = staleUInt32 be value ∧
      (readChunk be value s).2.good = false := by
  obtain ⟨_, g1⟩ := readUInt32_exhausted be value s h
  obtain ⟨t2, g2⟩ := readUInt32_exhausted be value (readUInt32 be value s).2 (Or.inl g1)
  obtain ⟨_, _, e3⟩ := read_exhausted (readUInt32 be value (readUInt32 be value s).2).2
    (readUInt32 be value s).1 (Or.inl g2)
  have g3 : ((readUInt32 be value (readUInt32 be value s).2).2.read
      (readUInt32 be value s).1).2.good = false := by
    unfold IFStream.read
    rw [if_neg (by rw [g2]; decide)]
    exact g2
  obtain ⟨_, g4, _⟩ := read_exhausted _ 4 (Or.inl g3)
  unfold readChunk
  exact ⟨t2, g4 (by decide)⟩

/-- Once the source is exhausted the chunk loop never reaches its `break`, unless the
uninitialised variable of `readUInt32` happens to hold the `IEND` tag. -/
theorem chunkLoop_exhausted (be : Bool) (value : List Nat)
    (hstale : staleUInt32 be value ≠ 0x49454E44) :
    ∀ (fuel : Nat) (s : IFStream) (ihdr : PNGIHDR) (acc : List Nat), Exhausted s →
      chunkLoop be value fuel s ihdr acc = none := by
  intro fuel
  induction fuel with
  | zero => intro s ihdr acc _; rfl
  | succ fuel ih =>
    intro s ihdr acc h
    obtain ⟨ht, hg⟩ := readChunk_exhausted be value s h
    rw [chunkLoop]
    split
    · exact ih _ _ _ (Or.inl hg)
    · split
      · exact ih _ _ _ (Or.inl hg)
      · split
        · next h3 => rw [ht] at h3; exact absurd h3 hstale
        · exact ih _ _ _ (Or.inl hg)

/-- On a stream that ends behind well-formed chunks of which none has type `IEND`, the
chunk loop never reaches its `break`. -/
theorem chunkLoop_truncated (value : List Nat) (hstale : staleUInt32 false value ≠ 0x49454E44) :
    ∀ (pre : List RawChunk) (fuel : Nat) (s : IFStream) (ihdr : PNGIHDR) (acc : List Nat),
      s.good = true → s.data.drop s.pos = encodeChunks pre →
      (∀ c, c ∈ pre → WellFormedChunk c ∧ c.type ≠ 0x49454E44) →
      chunkLoop false value fuel s ihdr acc = none := by
  intro pre
  induction pre with
  | nil =>
    intro fuel s ihdr acc _ hd _
    apply chunkLoop_exhausted false value hstale
    right
    rw [encodeChunks] at hd
    exact List.drop_eq_nil_iff.mp hd
  | cons c pre ih =>
    intro fuel s ihdr acc hg hd hpre
    cases fuel with
    | zero => rfl
    | succ f =>
      obtain ⟨hwf, hne⟩ := hpre c (List.mem_cons_self c pre)
      have hd' : s.data.drop s.pos = encodeChunk c ++ encodeChunks pre := by
        rw [hd, encodeChunks]
      obtain ⟨hr, hdr⟩ := readChunk_encodeChunk value s c _ hg hd' hwf
      have hrec : ∀ ihdr₁ acc₁, chunkLoop false value f
          (IFStream.mk s.data (s.pos + (encodeChunk c).length) true) ihdr₁ acc₁ = none :=
        fun ihdr₁ acc₁ => ih f _ ihdr₁ acc₁ rfl hdr
          (fun x hx => hpre x (List.mem_cons_of_mem c hx))
      rw [chunkLoop]
      simp only [hr]
      split
      · exact hrec _ _
      · split
        · exact hrec _ _
        · exact hrec _ _

/-- When the eight bytes compared by `memcmp` differ from the signature, `loadPNG` returns
an empty buffer right after the `read` of the signature, with `width` and `height` as they
were at the call. -/
theorem loadPNG_signature_mismatch (be : Bool) (signature value : List Nat)
    (dec : List Nat → Option (List Nat)) (flip : Bool) (fuel : Nat) (file : List Nat)
    (width height : Int)
    (h : (copyInto signature 0 ((IFStream.mk file 0 true).read 8).1).take 8 ≠ pngSignature) :
    loadPNG be signature value dec flip fuel file width height
      = some ([], width, height, ((IFStream.mk file 0 true).read 8).2) := by
  unfold loadPNG
  simp only []
  rw [if_pos h]

/-- A stream of at least 8 bytes whose first 8 bytes are not the signature is rejected,
whatever the array `signature` held before: no chunk is read (the stream stands at
position 8) and `width` and `height` are unchanged. -/
theorem loadPNG_rejects_wrong_signature (be : Bool) (signature value : List Nat)
    (dec : List Nat → Option (List Nat)) (flip : Bool) (fuel : Nat) (file : List Nat)
    (width height : Int) (hlen : 8 ≤ file.length) (h : file.take 8 ≠ pngSignature) :
    loadPNG be signature value dec flip fuel file width height
      = some ([], width, height, IFStream.mk file 8 true) := by
  have hr : (IFStream.mk file 0 true).read 8 = (file.take 8, IFStream.mk file 8 true) := by
    have := read_of_le (IFStream.mk file 0 true) 8 rfl (by simpa using hlen)
    simpa using this
  have hl : (file.take 8).length = 8 := by rw [List.length_take]; omega
  have hc : (copyInto signature 0 (file.take 8)).take 8 = file.take 8 := by
    simp only [copyInto, List.take_zero, List.nil_append, Nat.zero_add]
    rw [List.take_append_of_le_length (by omega), List.take_of_length_le (by omega)]
  rw [loadPNG_signature_mismatch be signature value dec flip fuel file width height
    (by rw [hr]; simp only []; rw [hc]; exact h), hr]

/-- C15 at the failing input: on an empty stream the `read` of the signature extracts
nothing and is not checked, so `memcmp` compares whatever the array `signature` held before;
when that is the PNG signature (as after a previous successful call) the gate is passed and
`loadPNG` enters the chunk loop on the exhausted stream, which it never leaves: there is no
return of an empty buffer, for any number of iterations. -/
theorem loadPNG_short_stream_passes_gate :
    ∀ (dec : List Nat → Option (List Nat)) (flip : Bool) (fuel : Nat) (width height : Int),
      loadPNG false pngSignature [0, 0, 0, 0] dec flip fuel [] width height = none := by
  intro dec flip fuel width height
  have hr : (IFStream.mk [] 0 true).read 8 = ([], IFStream.mk [] 0 false) := by decide
  have hloop := chunkLoop_exhausted false [0, 0, 0, 0] (by decide) fuel
    (IFStream.mk [] 0 false) {} [] (Or.inl rfl)
  unfold loadPNG
  simp only [hr, copyInto_nil]
  rw [if_neg (by decide), hloop]

/-- C16 at the failing inputs: for a stream that holds the signature and then well-formed
chunks of which none has type `IEND` (a PNG cut off at a chunk boundary, possibly right
behind the signature), `loadPNG` on a little-endian host does not return within any number
of iterations of the chunk loop, whatever the uninitialised variable of `readUInt32` holds
apart from the `IEND` tag: no empty buffer is returned. -/
theorem loadPNG_truncated_never_returns (signature value : List Nat)
    (dec : List Nat → Option (List Nat)) (flip : Bool) (fuel : Nat) (pre : List RawChunk)
    (file : List Nat) (width height : Int)
    (hstale : staleUInt32 false value ≠ 0x49454E44)
    (hpre : ∀ c, c ∈ pre → WellFormedChunk c ∧ c.type ≠ 0x49454E44)
    (hfile : file = pngSignature ++ encodeChunks pre) :
    loadPNG false signature value dec flip fuel file width height = none := by
  have hd : (IFStream.mk file 8 true).data.drop (IFStream.mk file 8 true).pos
      = encodeChunks pre := by
    simp only []
    rw [hfile]
    exact List.drop_left' (by simp [pngSignature])
  have hloop := chunkLoop_truncated value hstale pre fuel (IFStream.mk file 8 true) {} []
    rfl hd hpre
  unfold loadPNG
  simp only [read_signature file _ hfile, signature_matches, ne_eq, not_true_eq_false,
    if_false, hloop]

/-- Witness for C16: the sample chunks without the end marker, and the signature alone. -/
theorem loadPNG_truncated_never_returns_witness :
    (staleUInt32 false [0, 0, 0, 0] ≠ 0x49454E44 ∧
      ∀ c, c ∈ sampleChunks → WellFormedChunk c ∧ c.type ≠ 0x49454E44) ∧
    loadPNG false [] [0, 0, 0, 0] (fun _ => none) false 1000
      (pngSignature ++ encodeChunks sampleChunks) 0 0 = none ∧
    loadPNG false [] [0, 0, 0, 0] (fun _ => none) false 1000
      (pngSignature ++ encodeChunks []) 0 0 = none :=
  ⟨by decide,
    loadPNG_truncated_never_returns [] [0, 0, 0, 0] (fun _ => none) false 1000 sampleChunks _
      0 0 (by decide) (by decide) rfl,
    loadPNG_truncated_never_returns [] [0, 0, 0, 0] (fun _ => none) false 1000 [] _ 0 0
      (by decide) (by decide) rfl⟩

/-! ## Format dispatch -/

theorem sizeSub_of_le (a b : Nat) (hb : b ≤ a) (ha : a < 2 ^ 64) : sizeSub a b = a - b := by
  unfold sizeSub
  omega

theorem substr_of_le (s : List Char) (pos : Nat) (h : pos ≤ s.length) :
    substr s pos = some (s.drop pos) := by
  unfold substr
  rw [if_neg (by omega)]

/-- For a path of at least 5 characters `getFormat` does not throw and classifies the path
by its last characters. -/
theorem getFormat_of_length_ge_five (p : List Char) (h5 : 5 ≤ p.length) (h64 : p.length < 2 ^ 64) :
    getFormat p = some
      (if ".bmp".data <:+ p then Format.BMP
        else if ".png".data <:+ p then Format.PNG
        else if ".jpg".data <:+ p ∨ ".jpeg".data <:+ p then Format.JPEG
        else Format.None) := by
  have e4 : substr p (sizeSub p.length 4) = some (p.drop (p.length - 4)) := by
    rw [sizeSub_of_le _ _ (by omega) h64, substr_of_le _ _ (by omega)]
  have e5 : substr p (sizeSub p.length 5) = some (p.drop (p.length - 5)) := by
    rw [sizeSub_of_le _ _ (by omega) h64, substr_of_le _ _ (by omega)]
  have s4 : ∀ t : List Char, t.length = 4 → (t <:+ p ↔ p.drop (p.length - 4) = t) := by
    intro t ht
    rw [List.suffix_iff_eq_drop, ht]
    exact eq_comm
  have s5 : ∀ t : List Char, t.length = 5 → (t <:+ p ↔ p.drop (p.length - 5) = t) := by
    intro t ht
    rw [List.suffix_iff_eq_drop, ht]
    exact eq_comm
  unfold getFormat
  simp only [e4, e5, s4 ".bmp".data rfl, s4 ".png".data rfl, s4 ".jpg".data rfl,
    s5 ".jpeg".data rfl]
  by_cases h1 : List.drop (p.length - 4) p = ".bmp".data
  · simp only [h1, if_true]
  · simp only [h1, if_false]
    by_cases h2 : List.drop (p.length - 4) p = ".png".data
    · simp only [h2, if_true]
    · simp only [h2, if_false]
      by_cases h3 : List.drop (p.length - 4) p = ".jpg".data
      · simp only [h3, if_true, true_or]
      · simp only [h3, if_false, false_or]
        by_cases h4 : List.drop (p.length - 5) p = ".jpeg".data
        · simp only [h4, if_true]
        · simp only [h4, if_false]

/-- On a path for which `getFormat` is `Format::None`, `load` returns an empty buffer and
leaves `width` and `height` alone. -/
theorem load_of_format_none (openFile : List Char → Option (List Nat)) (be : Bool)
    (signature value : List Nat) (dec : List Nat → Option (List Nat)) (flip : Bool)
    (fuel : Nat) (p : List Char) (width height : Int) (h : getFormat p = some Format.None) :
    load openFile be signature value dec flip fuel p width height = some ([], width, height) := by
  unfold load
  rw [h]

/-- C18 at the failing inputs: for the paths `a`, the empty path and `abcd`, `getFormat`
has no result, because `file_path.length() - 4` (or `- 5`) wraps around and `substr` throws
`std::out_of_range`, and `load` has no result either; the paths `.bmp`, `a.png`, `b.jpg`
and `c.jpeg` are classified, and `hello.txt` gives `Format::None`. -/
theorem getFormat_short_path_throws :
    getFormat "a".data = none ∧ getFormat "".data = none ∧ getFormat "abcd".data = none ∧
    (∀ (openFile : List Char → Option (List Nat)) (be : Bool) (signature value : List Nat)
      (dec : List Nat → Option (List Nat)) (flip : Bool) (fuel : Nat) (width height : Int),
      load openFile be signature value dec flip fuel "a".data width height = none) ∧
    getFormat ".bmp".data = some Format.BMP ∧ getFormat "a.png".data = some Format.PNG ∧
    getFormat "b.jpg".data = some Format.JPEG ∧ getFormat "c.jpeg".data = some Format.JPEG ∧
    getFormat "hello.txt".data = some Format.None := by
  refine ⟨by decide, by decide, by decide, ?_, by decide, by decide, by decide, by decide,
    by decide⟩
  intro openFile be signature value dec flip fuel width height
  have h : getFormat "a".data = none := by decide
  unfold load
  rw [h]

/-! ## BMP: images whose bit count is outside the range of `int` -/

end Iorg
